import Mathlib

/-!
# Board engine of the 2048 game (`main.go`)

A shallow embedding of the rule engine of `main.go`: the `Game` record, the four
slide/merge routines, the rotation helpers, the tile spawn, `Move` and `IsGameOver`.

Conventions of the embedding.

* `[GRID_SIZE][GRID_SIZE]int` is a function `Fin 4 → Fin 4 → Int`; an index that a
  `for` loop bounds by the constant `GRID_SIZE` is a `Fin 4`, an index computed at run
  time (`pos`, `pos-1`, a slice index) is a `Nat` whose access is checked, and a failed
  check is `none` (the Go run-time panic).
* A value of Go's `int` is an `Int`, and every routine that computes with cells or with the
  score takes the argument `store`, the map from the exact result of an operation to the
  value the `int` variable then holds. For the program as it runs on a 64-bit platform
  `store` is `wrap64` (two's complement wrap-around); the identity `id` gives the same
  routines over unbounded integers.
* The random source is an explicit argument (`Rand`): the raw draw behind `rand.Intn`
  and the outcome of the comparison `rand.Float32() < 0.9`.
* A mutating method is a function from the state before to the state after.
-/

namespace Game2048

/-! # The program -/

/-- The constant `GRID_SIZE`. -/
abbrev GRID_SIZE : Nat := 4

/-- One line of the board, `[GRID_SIZE]int`. -/
abbrev Row := Fin GRID_SIZE → Int

/-- The type of the field `board`, `[GRID_SIZE][GRID_SIZE]int`. -/
abbrev Board := Fin GRID_SIZE → Fin GRID_SIZE → Int

/-- The struct `Game`. -/
structure Game where
  board : Board
  score : Int

/-- The value that a 64-bit `int` variable holds after the exact result `x` is assigned to
it: the representative of `x` modulo `2^64` in the range from `-2^63` to `2^63 - 1`. -/
def wrap64 (x : Int) : Int :=
  (x + 9223372036854775808) % 18446744073709551616 - 9223372036854775808

/-- The values `0, 1, 2, 3` taken by a loop `for i := 0; i < GRID_SIZE; i++`. -/
def indices : List (Fin GRID_SIZE) := [0, 1, 2, 3]

/-- The values `0, 1, 2` taken by a loop `for j := 0; j < GRID_SIZE-1; j++`. -/
def indicesButLast : List (Fin 3) := [0, 1, 2]

/-- Checked read `a[k]` of a `[GRID_SIZE]int` at a run-time index. -/
def readAt (a : Row) (k : Nat) : Option Int :=
  if h : k < GRID_SIZE then some (a ⟨k, h⟩) else none

/-- Checked write `a[k] = v` of a `[GRID_SIZE]int` at a run-time index. -/
def writeAt (a : Row) (k : Nat) (v : Int) : Option Row :=
  if h : k < GRID_SIZE then some (Function.update a ⟨k, h⟩ v) else none

/-- The local variables `newRow`, `pos` of `moveLeft` together with `g.score`. -/
structure RowState where
  newRow : Row
  pos : Nat
  score : Int

/-- The branch `newRow[pos] = row[j]; pos++` of `moveLeft`. -/
def placeTile (st : RowState) (v : Int) : Option RowState :=
  (writeAt st.newRow st.pos v).map fun r => { newRow := r, pos := st.pos + 1, score := st.score }

/-- The branch `newRow[pos-1] *= 2; g.score += newRow[pos-1]` of `moveLeft`. -/
def mergeTile (store : Int → Int) (st : RowState) : Option RowState := do
  let old ← readAt st.newRow (st.pos - 1)
  let r ← writeAt st.newRow (st.pos - 1) (store (old * 2))
  let cur ← readAt r (st.pos - 1)
  pure { newRow := r, pos := st.pos, score := store (st.score + cur) }

/-- One iteration of the inner loop of `moveLeft` (lines 150-158), at column `j`. -/
def moveLeftStep (store : Int → Int) (row : Row) (st : RowState) (j : Fin GRID_SIZE) :
    Option RowState :=
  if row j ≠ 0 then
    if 0 < st.pos then do
      let prev ← readAt st.newRow (st.pos - 1)
      if prev = row j then mergeTile store st else placeTile st (row j)
    else placeTile st (row j)
  else some st

/-- The body of the outer loop of `moveLeft` for one row: the new row and the score. -/
def moveLeftRow (store : Int → Int) (row : Row) (score : Int) : Option (Row × Int) :=
  (indices.foldlM (moveLeftStep store row)
      { newRow := fun _ => 0, pos := 0, score := score }).map
    fun st => (st.newRow, st.score)

/-- The method `moveLeft`. -/
def moveLeft (store : Int → Int) (g : Game) : Option Game :=
  indices.foldlM (fun (g : Game) i => do
    let res ← moveLeftRow store (g.board i) g.score
    pure { board := Function.update g.board i res.1, score := res.2 }) g

/-- The loops of `rotate90` filling `newBoard`:
`newBoard[j][GRID_SIZE-1-i] = g.board[i][j]` for all `i`, `j`. -/
def rotate90Board (b : Board) : Board :=
  indices.foldl
    (fun nb i => indices.foldl
      (fun nb j => Function.update nb j (Function.update (nb j) (Fin.rev i) (b i j))) nb)
    (fun _ _ => 0)

/-- The method `rotate90`. -/
def rotate90 (g : Game) : Game :=
  { board := rotate90Board g.board, score := g.score }

/-- The method `rotate180`. -/
def rotate180 (g : Game) : Game := rotate90 (rotate90 g)

/-- The method `moveRight`. -/
def moveRight (store : Int → Int) (g : Game) : Option Game :=
  (moveLeft store (rotate180 g)).map rotate180

/-- The first inner loop of `moveUp` / `moveDown`: the non-zero values of column `col`,
appended to `newCol` in the order `rows` in which the loop visits the rows. -/
def collectColumn (b : Board) (col : Fin GRID_SIZE) (rows : List (Fin GRID_SIZE)) : List Int :=
  rows.foldl (fun newCol row => if b row col ≠ 0 then newCol ++ [b row col] else newCol) []

/-- One iteration of the merge loop of `moveUp` / `moveDown` at index `i`:
`if newCol[i] == newCol[i+1] { newCol[i] *= 2; newCol[i+1] = 0 }`. -/
def mergeAt (store : Int → Int) (newCol : List Int) (i : Nat) : Option (List Int) := do
  let a ← newCol[i]?
  let b ← newCol[i + 1]?
  if a = b then pure ((newCol.set i (store (a * 2))).set (i + 1) 0) else pure newCol

/-- The merge loop `for i := 0; i < len(newCol)-1; i++` of `moveUp` / `moveDown`. -/
def mergeAdjacent (store : Int → Int) (newCol : List Int) : Option (List Int) :=
  (List.range (newCol.length - 1)).foldlM (mergeAt store) newCol

/-- The loop `for _, num := range newCol` of `moveUp` / `moveDown` building `finalCol`. -/
def dropMerged (newCol : List Int) : List Int :=
  newCol.foldl (fun finalCol num => if num ≠ 0 then finalCol ++ [num] else finalCol) []

/-- The loop `for len(finalCol) < GRID_SIZE { finalCol = append(finalCol, 0) }`, run for at
most `fuel` iterations. -/
def fillZerosLoop : Nat → List Int → List Int
  | 0, finalCol => finalCol
  | fuel + 1, finalCol =>
    if finalCol.length < GRID_SIZE then fillZerosLoop fuel (finalCol ++ [0]) else finalCol

/-- The fill loop of `moveUp` / `moveDown`; it stops after at most `GRID_SIZE` appends. -/
def fillZeros (finalCol : List Int) : List Int := fillZerosLoop GRID_SIZE finalCol

/-- The line `finalCol` that `moveUp` / `moveDown` compute for column `col`, the rows being
visited in the order `rows`. -/
def finalColumn (store : Int → Int) (b : Board) (col : Fin GRID_SIZE)
    (rows : List (Fin GRID_SIZE)) : Option (List Int) :=
  (mergeAdjacent store (collectColumn b col rows)).map
    fun newCol => fillZeros (dropMerged newCol)

/-- The copy-back loop of `moveUp` / `moveDown`: `g.board[row][col] = finalCol[i]` where
`row` runs through `rows` and `i` counts from `0`. -/
def copyBack (b : Board) (col : Fin GRID_SIZE) (finalCol : List Int) (rows : List (Fin GRID_SIZE)) :
    Option Board :=
  rows.enum.foldlM (fun (b : Board) (p : Nat × Fin GRID_SIZE) => do
    let v ← finalCol[p.1]?
    pure (Function.update b p.2 (Function.update (b p.2) col v))) b

/-- The body of the outer loop of `moveUp` (`rows = [0,1,2,3]`) and of `moveDown`
(`rows = [3,2,1,0]`) for one column. -/
def moveColumn (store : Int → Int) (rows : List (Fin GRID_SIZE)) (b : Board)
    (col : Fin GRID_SIZE) : Option Board := do
  let finalCol ← finalColumn store b col rows
  copyBack b col finalCol rows

/-- The method `moveUp`. -/
def moveUp (store : Int → Int) (g : Game) : Option Game :=
  (indices.foldlM (moveColumn store indices) g.board).map
    fun b => { board := b, score := g.score }

/-- The method `moveDown`. -/
def moveDown (store : Int → Int) (g : Game) : Option Game :=
  (indices.foldlM (moveColumn store indices.reverse) g.board).map
    fun b => { board := b, score := g.score }

/-- The method `boardsEqual`: `false` as soon as two cells differ. -/
def boardsEqual (b1 b2 : Board) : Bool :=
  !(indices.any fun i => indices.any fun j => b1 i j != b2 i j)

/-- The method `IsGameOver`, with the state it leaves behind. -/
def IsGameOver (g : Game) : Bool × Game :=
  if indices.any fun i => indices.any fun j => g.board i j == 0 then (false, g)
  else if indices.any fun i => indicesButLast.any fun j =>
      g.board i j.castSucc == g.board i j.succ then (false, g)
  else if indices.any fun j => indicesButLast.any fun i =>
      g.board i.castSucc j == g.board i.succ j then (false, g)
  else (true, g)

/-- One outcome of the random source for a call of `AddRandomTile`: the raw draw from
which `rand.Intn(n)` yields `draw % n` (any value of `[0, n)` arises so), and whether the
comparison `rand.Float32() < 0.9` holds. -/
structure Rand where
  draw : Nat
  small : Bool

/-- The loops of `AddRandomTile` that build `emptyTiles`. -/
def emptyTiles (b : Board) : List (Fin GRID_SIZE × Fin GRID_SIZE) :=
  indices.foldl (fun acc i =>
    indices.foldl (fun acc j => if b i j = 0 then acc ++ [(i, j)] else acc) acc) []

/-- The assignment `g.board[pos[0]][pos[1]] = v`. -/
def setCell (g : Game) (pos : Fin GRID_SIZE × Fin GRID_SIZE) (v : Int) : Game :=
  { board := Function.update g.board pos.1 (Function.update (g.board pos.1) pos.2 v),
    score := g.score }

/-- The method `AddRandomTile`. -/
def AddRandomTile (g : Game) (rnd : Rand) : Option Game :=
  if 0 < (emptyTiles g.board).length then do
    let pos ← (emptyTiles g.board)[rnd.draw % (emptyTiles g.board).length]?
    if rnd.small then pure (setCell g pos 2) else pure (setCell g pos 4)
  else some g

/-- The `switch direction` of `Move`; a string that is none of the four cases moves nothing. -/
def slide (store : Int → Int) (direction : String) (g : Game) : Option Game :=
  if direction = "up" then moveUp store g
  else if direction = "down" then moveDown store g
  else if direction = "left" then moveLeft store g
  else if direction = "right" then moveRight store g
  else some g

/-- The method `Move`. -/
def Move (store : Int → Int) (direction : String) (g : Game) (rnd : Rand) : Option Game := do
  let original := g.board
  let g1 ← slide store direction g
  if !boardsEqual original g1.board then AddRandomTile g1 rnd else pure g1

/-- The function `NewGame`; the two spawns consume the outcomes `r1` and `r2`. -/
def NewGame (r1 r2 : Rand) : Option Game := do
  let g1 ← AddRandomTile { board := fun _ _ => 0, score := 0 } r1
  AddRandomTile g1 r2

/-- The four direction strings that `Update` passes to `Move`. -/
def directions : List String := ["up", "down", "left", "right"]

/-- A sequence of `Move` calls, one per key press handled by `Update`, each with its
direction string and the outcome of the random source it consumes. -/
def play (store : Int → Int) (g : Game) (moves : List (String × Rand)) : Option Game :=
  moves.foldlM (fun g m => Move store m.1 g m.2) g

/-! # Lines, and the slides as functions on lists -/

/-- The row whose first cells are the entries of `l`, the other cells being `0`. -/
def lineOf (l : List Int) : Row := fun k => l.getD k.val 0

/-- What one iteration of the inner loop of `moveLeft` does to the tiles placed so far
(`acc.1`, last placed first) and to the score (`acc.2`) when it meets the cell `x`. -/
def chainPush (store : Int → Int) (acc : List Int × Int) (x : Int) : List Int × Int :=
  if x = 0 then acc
  else match acc.1 with
    | [] => ([x], acc.2)
    | top :: rest =>
      if top = x then (store (top * 2) :: rest, store (acc.2 + store (top * 2)))
      else (x :: top :: rest, acc.2)

/-- The state of the inner loop of `moveLeft` in which the tiles `acc.1` (last placed first)
have been placed and the score is `acc.2`. -/
def absState (acc : List Int × Int) : RowState :=
  { newRow := lineOf acc.1.reverse, pos := acc.1.length, score := acc.2 }

/-- A row read as the list of its cells, in the order of the loop over `indices`. -/
def toLine (r : Row) : List Int := indices.map r

/-- The tiles placed (last placed first) and the score after the inner loop of `moveLeft`
has gone through the cells `l`. -/
def chain (store : Int → Int) (acc : List Int × Int) (l : List Int) : List Int × Int :=
  l.foldl (chainPush store) acc

/-- The tiles of the row that `moveLeft` makes of `row`, from the left. -/
def leftTiles (store : Int → Int) (row : Row) : List Int :=
  (chain store ([], 0) (toLine row)).1.reverse

/-- The score that the loop body of `moveLeft` leaves after the row `row`, from the score
`s`. -/
def leftScore (store : Int → Int) (row : Row) (s : Int) : Int :=
  (chain store ([], s) (toLine row)).2

/-- A line read from its other end. -/
def revLine (r : Row) : Row := fun k => r (Fin.rev k)

/-- Column `c` of the board, as a line indexed from the top. -/
def column (b : Board) (c : Fin GRID_SIZE) : Row := fun r => b r c

/-- What the merge loop of `moveUp` / `moveDown` makes of a line of non-zero values. -/
def onceMerge (store : Int → Int) : List Int → List Int
  | [] => []
  | [a] => [a]
  | a :: b :: rest =>
    if a = b then store (a * 2) :: 0 :: onceMerge store rest
    else a :: onceMerge store (b :: rest)

/-- The merged values that the inner loop of `moveLeft` adds to the score, in order, while it
goes through the cells `l` with the tiles `stk` (last placed first) already placed. -/
def chainGains (store : Int → Int) : List Int → List Int → List Int
  | _, [] => []
  | stk, x :: t =>
    (if x ≠ 0 ∧ stk.head? = some x then [store (x * 2)] else [])
      ++ chainGains store (chainPush store (stk, 0) x).1 t

/-! # The line algorithm of the specification -/

/-- Spec, Move step 1 (Compact): the non-zero values of the line, order preserved. -/
def specCompact (line : List Int) : List Int := line.filter fun v => v ≠ 0

/-- Spec, Move step 2 (Merge): scanning from the left, equal elements at positions `i` and
`i+1` are combined into position `i` with the value doubled, position `i+1` is zeroed, the
doubled value is added to the score, and the scan resumes at `i+2`. The result is the
scanned sequence and the amount added to the score. -/
def specMerge : List Int → List Int × Int
  | [] => ([], 0)
  | [a] => ([a], 0)
  | a :: b :: rest =>
    if a = b then ((a * 2) :: 0 :: (specMerge rest).1, a * 2 + (specMerge rest).2)
    else (a :: (specMerge (b :: rest)).1, (specMerge (b :: rest)).2)

/-- Spec, Move step 4 (Pad): trailing zeros up to `n` cells. -/
def specPad (n : Nat) (line : List Int) : List Int := line ++ List.replicate (n - line.length) 0

/-- Spec, Move steps 1 to 4: the line that a move makes of `line`, read in processing order. -/
def specLine (line : List Int) : List Int :=
  specPad line.length (specCompact (specMerge (specCompact line)).1)

/-- Spec, Move step 2: what the move adds to the score for `line`. -/
def specGain (line : List Int) : Int := (specMerge (specCompact line)).2

/-! # Predicates and boards used in the statements -/

/-- The line that `moveUp` / `moveDown` make of the line `line` read in processing order:
collect the non-zero values, run the merge loop, drop the zeros, fill with zeros. -/
def upLine (store : Int → Int) (line : List Int) : List Int :=
  specPad line.length (specCompact (onceMerge store (specCompact line)))

/-- No zero of the line is followed by a non-zero value. -/
def Compacted (line : List Int) : Prop := line.Pairwise fun a b => a = 0 → b = 0

instance (line : List Int) : Decidable (Compacted line) := by
  unfold Compacted
  infer_instance

/-- A board whose first row is `[a, b, c, d]`, the other rows being empty. -/
def rowBoard (a b c d : Int) : Board :=
  ![![a, b, c, d], ![0, 0, 0, 0], ![0, 0, 0, 0], ![0, 0, 0, 0]]

/-- A board whose first column is `[a, b, c, d]` from the top, the other columns being empty. -/
def columnBoard (a b c d : Int) : Board :=
  ![![a, 0, 0, 0], ![b, 0, 0, 0], ![c, 0, 0, 0], ![d, 0, 0, 0]]

/-- The largest power of two that a 64-bit `int` holds, `2^62`. -/
def maxTile : Int := 4611686018427387904

/-- The least value of a 64-bit `int`, `-2^63`. -/
def minInt : Int := -9223372036854775808

/-- The greatest value of a 64-bit `int`, `2^63 - 1`. -/
def maxInt : Int := 9223372036854775807

/-- The value is a power of two that is at least 2. -/
def IsTile (v : Int) : Prop := ∃ k : Nat, 1 ≤ k ∧ v = 2 ^ k

/-- The sum of the sixteen cells of the board, row by row. -/
def boardSum (b : Board) : Int := (indices.map fun i => (toLine (b i)).sum).sum

/-- Every cell of the board is non-negative. -/
def NonNegative (b : Board) : Prop := ∀ i j, 0 ≤ b i j

instance (b : Board) : Decidable (NonNegative b) := by
  unfold NonNegative
  infer_instance

/-- Every value of the line is a 64-bit `int`: it lies between `-2^63` and `2^63 - 1`. -/
def FitsInt64 (line : List Int) : Prop := ∀ y ∈ line, minInt ≤ y ∧ y ≤ maxInt

instance (line : List Int) : Decidable (FitsInt64 line) := by
  unfold FitsInt64
  infer_instance

/-- Every cell of the board is a 64-bit `int` other than the minimum value `-2^63`. -/
def AboveMinInt (b : Board) : Prop :=
  ∀ i j, -9223372036854775808 < b i j ∧ b i j < 9223372036854775808

instance (b : Board) : Decidable (AboveMinInt b) := by
  unfold AboveMinInt
  infer_instance

/-- The score is a 64-bit `int` that leaves room below `2^63` for twice the sum of the
cells, which bounds what a move can add to it. -/
def ScoreRoom (g : Game) : Prop :=
  minInt ≤ g.score ∧ g.score + 2 * boardSum g.board ≤ maxInt

instance (g : Game) : Decidable (ScoreRoom g) := by
  unfold ScoreRoom
  infer_instance

/-- The session whose rows are those of `g` read from the right. -/
def mirror (g : Game) : Game := { board := fun i => revLine (g.board i), score := g.score }

/-- Every cell of the board is 0 or a power of two that is at least 2. -/
def ValidBoard (b : Board) : Prop := ∀ i j, b i j = 0 ∨ IsTile (b i j)

/-- The session whose grid is the transpose of the grid of `g`. -/
def transpose (g : Game) : Game := { board := fun i j => g.board j i, score := g.score }

/-- The number of non-zero values of a line. -/
def tiles (line : List Int) : Nat := line.countP fun v => v ≠ 0

/-- The number of non-zero cells of the board. -/
def tileCount (b : Board) : Nat := (indices.map fun i => tiles (toLine (b i))).sum

/-- No cell of the line is empty. -/
def Full (r : Row) : Prop := ∀ j, r j ≠ 0

/-- No two neighbouring cells of the line hold equal values. -/
def AdjDistinct (r : Row) : Prop := r 0 ≠ r 1 ∧ r 1 ≠ r 2 ∧ r 2 ≠ r 3

/-- The row that `moveLeft` makes of the row `r`. -/
def newLeft (store : Int → Int) (r : Row) : Row := lineOf (leftTiles store r)

/-- The line that `moveUp` makes of a column read from the top, and `moveDown` of a column
read from the bottom. -/
def newUp (store : Int → Int) (r : Row) : Row := lineOf (upLine store (toLine r))

/-- What the proofs about stuck grids need of a line transformation `f`: it never adds
tiles, a line it fixes is compacted, it fixes a full line without equal neighbours, and it
leaves the last cell empty on a full line with equal neighbours. -/
structure LineOp (f : Row → Row) : Prop where
  count_le : ∀ r, tiles (toLine (f r)) ≤ tiles (toLine r)
  compacted : ∀ r, f r = r → Compacted (toLine r)
  fixed : ∀ r, Full r → AdjDistinct r → f r = r
  merged : ∀ r, Full r → ¬ AdjDistinct r → f r 3 = 0

/-- The transformation `f` applied to a line read from its other end. -/
def conj (f : Row → Row) (r : Row) : Row := revLine (f (revLine r))

/-- The board whose rows are the images under `f` of the rows of `b`. -/
def rowwise (f : Row → Row) (b : Board) : Board := fun i => f (b i)

/-- The board whose columns are the images under `f` of the columns of `b`. -/
def colwise (f : Row → Row) (b : Board) : Board := fun r c => f (column b c) r

/-- A full board on which no two neighbours are equal. -/
def checkerBoard : Board := ![![2, 4, 2, 4], ![4, 2, 4, 2], ![2, 4, 2, 4], ![4, 2, 4, 2]]

/-- The number of values of the list that are at least `t`. -/
def countGE (t : Int) (l : List Int) : Nat := l.countP fun v => t ≤ v

/-- The sixteen cells of the board, row by row. -/
def cells (b : Board) : List Int :=
  toLine (b 0) ++ (toLine (b 1) ++ (toLine (b 2) ++ toLine (b 3)))

/-- For each `k` from 1 to 18, at most `18 - k` values of the list are `2^k` or more: the
list holds no value from `2^18` on, at most one from `2^17` on, at most two from `2^16` on,
and so on. Merging two equal values into their double keeps this, and so does a spawn on a
board of sixteen cells. -/
def WithinCapacity (l : List Int) : Prop :=
  ∀ k : Nat, 1 ≤ k → k ≤ 18 → countGE (2 ^ k) l + k ≤ 18

/-- Every cell of the line is 0 or at least 2. -/
def TileRow (r : Row) : Prop := ∀ j, r j = 0 ∨ 2 ≤ r j

/-- What a line transformation `f` keeps in the proofs about sessions started by `NewGame`:
cells that are 0 or at least 2, and the capacity bound of the line together with any other
cells `frame`. -/
def KeepsCapacity (f : Row → Row) : Prop :=
  ∀ (frame : List Int) (r : Row), TileRow r → WithinCapacity (toLine r ++ frame) →
    TileRow (f r) ∧ WithinCapacity (toLine (f r) ++ frame)

/-- The invariant of the sessions reached from `NewGame`: every cell is 0 or at least 2, the
cells are within the capacity bound, and the score lies between 0 and `2^22` times the sum
of the cells. -/
def Playable (g : Game) : Prop :=
  (∀ i, TileRow (g.board i)) ∧ WithinCapacity (cells g.board) ∧ 0 ≤ g.score ∧
    g.score ≤ 4194304 * boardSum g.board

/-! # Lemmas and theorems -/


/-! ## The 64-bit wrap-around -/

theorem wrap64_of_range (x : Int) (h1 : -9223372036854775808 ≤ x)
    (h2 : x < 9223372036854775808) : wrap64 x = x := by
  unfold wrap64
  omega

theorem wrap64_range (x : Int) :
    -9223372036854775808 ≤ wrap64 x ∧ wrap64 x < 9223372036854775808 := by
  unfold wrap64
  omega

theorem wrap64_double_ne_zero (x : Int) (h0 : x ≠ 0) (h1 : -9223372036854775808 < x)
    (h2 : x < 9223372036854775808) : wrap64 (x * 2) ≠ 0 := by
  unfold wrap64
  omega

theorem wrap64_modEq (x : Int) : wrap64 x ≡ x [ZMOD 18446744073709551616] := by
  unfold wrap64
  rw [Int.ModEq]
  omega

theorem wrap64_comm (s a b : Int) :
    wrap64 (wrap64 (s + a) + b) = wrap64 (wrap64 (s + b) + a) := by
  unfold wrap64
  omega

/-! ## The slide to the left in closed form -/

theorem chainPush_length (store : Int → Int) (acc : List Int × Int) (x : Int) :
    (chainPush store acc x).1.length ≤ acc.1.length + 1 := by
  unfold chainPush
  split_ifs with h
  · omega
  · rcases acc with ⟨_ | ⟨top, rest⟩, s⟩
    · simp
    · simp only []
      split_ifs <;> simp

theorem update_lineOf (l : List Int) (k : Nat) (hk : k < GRID_SIZE) (v : Int) (hl : k < l.length) :
    Function.update (lineOf l) ⟨k, hk⟩ v = lineOf (l.set k v) := by
  funext i
  simp only [lineOf, Function.update_apply]
  by_cases h : i = ⟨k, hk⟩
  · subst h
    simp [List.getD_eq_getElem?_getD, hl]
  · have h' : k ≠ i.val := fun e => h (Fin.ext e.symm)
    simp [h, List.getD_eq_getElem?_getD, List.getElem?_set_ne h']

theorem update_lineOf_append (l : List Int) (hk : l.length < GRID_SIZE) (v : Int) :
    Function.update (lineOf l) ⟨l.length, hk⟩ v = lineOf (l ++ [v]) := by
  funext i
  simp only [lineOf, Function.update_apply]
  by_cases h : i = ⟨l.length, hk⟩
  · subst h
    simp [List.getD_eq_getElem?_getD]
  · have h' : i.val ≠ l.length := fun e => h (Fin.ext e)
    simp only [h, if_false, List.getD_eq_getElem?_getD]
    rcases Nat.lt_or_gt_of_ne h' with h1 | h1
    · rw [List.getElem?_append_left h1]
    · rw [List.getElem?_eq_none (by omega), List.getElem?_eq_none (by simp; omega)]

theorem readAt_lineOf (l : List Int) (k : Nat) (hk : k < GRID_SIZE) :
    readAt (lineOf l) k = some (l.getD k 0) := by
  simp [readAt, hk, lineOf]

theorem moveLeftStep_abs (store : Int → Int) (row : Row) (acc : List Int × Int)
    (j : Fin GRID_SIZE) (h : acc.1.length ≤ j.val) :
    moveLeftStep store row (absState acc) j
      = some (absState (chainPush store acc (row j))) := by
  have hj := j.isLt
  rcases acc with ⟨stk, s⟩
  simp only [] at h
  unfold moveLeftStep chainPush
  by_cases h0 : row j = 0
  · simp [h0]
  · simp only [h0, ne_eq, not_false_eq_true, if_true, if_false]
    have hlen : stk.reverse.length < GRID_SIZE := by simp; omega
    have hplace : ∀ v, placeTile (absState (stk, s)) v = some (absState (v :: stk, s)) := by
      intro v
      have := update_lineOf_append stk.reverse hlen v
      simp only [List.length_reverse] at this
      simp [placeTile, absState, writeAt, this]
      omega
    rcases stk with _ | ⟨top, rest⟩
    · rw [if_neg (by simp [absState])]
      exact hplace _
    · have hpos : 0 < (absState (top :: rest, s)).pos := by simp [absState]
      rw [if_pos hpos]
      have hk : rest.length < GRID_SIZE := by simp at h; omega
      have hrd : readAt (absState (top :: rest, s)).newRow ((absState (top :: rest, s)).pos - 1)
          = some top := by
        simp [absState, readAt_lineOf _ _ hk, List.getD_eq_getElem?_getD]
      simp only [hrd, Option.bind_eq_bind, Option.some_bind]
      by_cases ht : top = row j
      · rw [if_pos ht, if_pos ht]
        have hset : (rest.reverse ++ [top]).set rest.length (store (top * 2))
            = rest.reverse ++ [store (top * 2)] := by
          rw [List.set_append_right _ _ (by simp)]
          simp
        have hup := update_lineOf (rest.reverse ++ [top]) rest.length hk (store (top * 2))
          (by simp)
        rw [hset] at hup
        simp only [mergeTile, hrd, Option.bind_eq_bind, Option.some_bind]
        simp [absState, writeAt, hk, hup, readAt_lineOf _ _ hk, List.getD_eq_getElem?_getD]
      · simp only [ht, if_false]
        exact hplace _

theorem chain_length (store : Int → Int) (l : List Int) (acc : List Int × Int) :
    (chain store acc l).1.length ≤ acc.1.length + l.length := by
  induction l generalizing acc with
  | nil => simp [chain]
  | cons x t ih =>
    have h1 := ih (chainPush store acc x)
    have h2 := chainPush_length store acc x
    simp only [chain, List.foldl_cons, List.length_cons] at h1 ⊢
    omega

theorem moveLeftRow_eq (store : Int → Int) (row : Row) (s : Int) :
    moveLeftRow store row s =
      some (lineOf (chain store ([], s) (toLine row)).1.reverse,
        (chain store ([], s) (toLine row)).2) := by
  have hinit : ({ newRow := fun _ => 0, pos := 0, score := s } : RowState) = absState ([], s) := by
    simp only [absState, List.reverse_nil, List.length_nil, RowState.mk.injEq, and_true]
    funext k
    simp [lineOf]
  have l1 := chain_length store [row 0] ([], s)
  have l2 := chain_length store [row 0, row 1] ([], s)
  have l3 := chain_length store [row 0, row 1, row 2] ([], s)
  simp only [chain, List.foldl_cons, List.foldl_nil, List.length_cons, List.length_nil] at l1 l2 l3
  simp only [moveLeftRow, hinit, indices, toLine, chain, List.foldlM_cons, List.foldlM_nil,
    List.map_cons, List.map_nil, List.foldl_cons, List.foldl_nil]
  rw [moveLeftStep_abs store row _ 0 (by simp)]
  simp only [Option.bind_eq_bind, Option.some_bind]
  rw [moveLeftStep_abs store row _ 1 (by simpa using l1)]
  simp only [Option.bind_eq_bind, Option.some_bind]
  rw [moveLeftStep_abs store row _ 2 (by simpa using l2)]
  simp only [Option.bind_eq_bind, Option.some_bind]
  rw [moveLeftStep_abs store row _ 3 (by simpa using l3)]
  simp [absState]

theorem chainPush_fst (store : Int → Int) (acc : List Int × Int) (x : Int) :
    (chainPush store acc x).1 = (chainPush store (acc.1, 0) x).1 := by
  rcases acc with ⟨stk, s⟩
  unfold chainPush
  by_cases h0 : x = 0
  · simp [h0]
  · rcases stk with _ | ⟨top, rest⟩
    · simp [h0]
    · by_cases ht : top = x <;> simp [h0, ht]

theorem chain_fst (store : Int → Int) (l : List Int) (acc : List Int × Int) :
    (chain store acc l).1 = (chain store (acc.1, 0) l).1 := by
  induction l generalizing acc with
  | nil => simp [chain]
  | cons x t ih =>
    simp only [chain, List.foldl_cons] at ih ⊢
    rw [ih (chainPush store acc x), ih (chainPush store (acc.1, 0) x), chainPush_fst store acc x]

theorem moveLeftRow_some (store : Int → Int) (row : Row) (s : Int) :
    moveLeftRow store row s = some (lineOf (leftTiles store row), leftScore store row s) := by
  rw [moveLeftRow_eq, chain_fst]
  rfl

theorem moveLeft_some (store : Int → Int) (g : Game) :
    moveLeft store g = some
      { board := fun i => lineOf (leftTiles store (g.board i)),
        score := leftScore store (g.board 3) (leftScore store (g.board 2)
          (leftScore store (g.board 1) (leftScore store (g.board 0) g.score))) } := by
  simp only [moveLeft, indices, List.foldlM_cons, List.foldlM_nil, moveLeftRow_some,
    Option.bind_eq_bind, Option.some_bind, Option.pure_def]
  simp only [Option.some.injEq, Game.mk.injEq]
  refine ⟨?_, ?_⟩
  · funext i
    fin_cases i <;> rfl
  · simp [Function.update_apply]

/-! ## The rotations in closed form -/

theorem rotate90Board_apply (b : Board) (a c : Fin GRID_SIZE) :
    rotate90Board b a c = b (Fin.rev c) a := by
  fin_cases a <;> fin_cases c <;> rfl

theorem rotate180_board (g : Game) (a c : Fin GRID_SIZE) :
    (rotate180 g).board a c = g.board (Fin.rev a) (Fin.rev c) := by
  simp [rotate180, rotate90, rotate90Board_apply]

theorem rotate180_score (g : Game) : (rotate180 g).score = g.score := rfl

theorem moveRight_some (store : Int → Int) (g : Game) :
    moveRight store g = some
      { board := fun i => revLine (lineOf (leftTiles store (revLine (g.board i)))),
        score := leftScore store (revLine (g.board 0)) (leftScore store (revLine (g.board 1))
          (leftScore store (revLine (g.board 2))
            (leftScore store (revLine (g.board 3)) g.score))) } := by
  have hrow : ∀ i, (rotate180 g).board i = revLine (g.board (Fin.rev i)) := by
    intro i
    funext k
    simp [rotate180_board, revLine]
  simp only [moveRight, moveLeft_some, Option.map_some', hrow, rotate180_score]
  simp only [Option.some.injEq]
  have hb : ∀ (x y : Game), x.board = y.board → x.score = y.score → x = y := by
    intro x y h1 h2
    cases x; cases y; simp_all
  apply hb
  · funext i k
    simp [rotate180_board, revLine]
  · simp only [rotate180_score]
    rfl

/-! ## The slide of a column in closed form -/

theorem foldl_append_if {α : Type} (p : α → Prop) [DecidablePred p] (f : α → Int) (l : List α)
    (acc : List Int) :
    l.foldl (fun a x => if p x then a ++ [f x] else a) acc
      = acc ++ (l.filter fun x => p x).map f := by
  induction l generalizing acc with
  | nil => simp
  | cons x t ih =>
    simp only [List.foldl_cons, ih]
    by_cases h : p x <;> simp [h, List.filter_cons]

theorem collectColumn_eq (b : Board) (col : Fin GRID_SIZE) (rows : List (Fin GRID_SIZE)) :
    collectColumn b col rows = specCompact (rows.map fun r => b r col) := by
  unfold collectColumn specCompact
  rw [foldl_append_if (fun r => b r col ≠ 0) (fun r => b r col)]
  simp [List.filter_map, Function.comp_def]

theorem dropMerged_eq (l : List Int) : dropMerged l = specCompact l := by
  unfold dropMerged specCompact
  rw [foldl_append_if (fun v => v ≠ 0) (fun v => v)]
  simp

theorem fillZerosLoop_eq (fuel : Nat) (l : List Int) :
    fillZerosLoop fuel l = l ++ List.replicate (min fuel (GRID_SIZE - l.length)) 0 := by
  induction fuel generalizing l with
  | zero => simp [fillZerosLoop]
  | succ n ih =>
    unfold fillZerosLoop
    by_cases h : l.length < GRID_SIZE
    · rw [if_pos h, ih]
      have e : min (n + 1) (GRID_SIZE - l.length) = min n (GRID_SIZE - (l ++ [0]).length) + 1 := by
        simp only [List.length_append, List.length_singleton]
        omega
      rw [e, List.replicate_succ, List.append_assoc]
      rfl
    · rw [if_neg h]
      have e : GRID_SIZE - l.length = 0 := by omega
      simp [e]

theorem fillZeros_eq (l : List Int) : fillZeros l = specPad GRID_SIZE l := by
  unfold fillZeros specPad
  rw [fillZerosLoop_eq]
  congr 2
  omega

theorem mergeAdjacent_eq (store : Int → Int) (l : List Int) (hlen : l.length ≤ GRID_SIZE)
    (hnz : ∀ x ∈ l, x ≠ 0) : mergeAdjacent store l = some (onceMerge store l) := by
  rcases l with _ | ⟨a, _ | ⟨b, _ | ⟨c, _ | ⟨d, _ | ⟨e, t⟩⟩⟩⟩⟩
  · rfl
  · rfl
  · rcases eq_or_ne a b with rfl | h1 <;>
      simp [mergeAdjacent, mergeAt, onceMerge, List.range_succ, *]
  · simp only [List.mem_cons, List.mem_singleton, List.not_mem_nil, or_false, forall_eq_or_imp,
      forall_eq] at hnz
    obtain ⟨ha, hb, hc⟩ := hnz
    by_cases h1 : a = b <;> by_cases h2 : b = c <;> subst_vars <;>
      simp [mergeAdjacent, mergeAt, onceMerge, List.range_succ, Ne.symm ha, Ne.symm hb,
        Ne.symm hc, *]
  · simp only [List.mem_cons, List.mem_singleton, List.not_mem_nil, or_false, forall_eq_or_imp,
      forall_eq] at hnz
    obtain ⟨ha, hb, hc, hd⟩ := hnz
    by_cases h1 : a = b <;> by_cases h2 : b = c <;> by_cases h3 : c = d <;> subst_vars <;>
      simp [mergeAdjacent, mergeAt, onceMerge, List.range_succ, Ne.symm ha, Ne.symm hb,
        Ne.symm hc, Ne.symm hd, *]
  · simp only [List.length_cons] at hlen
    change _ ≤ 4 at hlen
    omega

theorem specCompact_ne_zero (l : List Int) : ∀ x ∈ specCompact l, x ≠ 0 := by
  intro x hx
  simpa [specCompact] using (List.mem_filter.mp hx).2

theorem specCompact_length_le (l : List Int) : (specCompact l).length ≤ l.length :=
  List.length_filter_le _ _

theorem specMerge_length (l : List Int) : (specMerge l).1.length = l.length := by
  induction l using specMerge.induct with
  | case1 => rfl
  | case2 a => rfl
  | case3 a rest ih => simp [specMerge, ih]
  | case4 a b rest h ih => simp [specMerge, h, ih]

theorem specLine_length (l : List Int) : (specLine l).length = l.length := by
  have h1 := specCompact_length_le (specMerge (specCompact l)).1
  have h2 := specMerge_length (specCompact l)
  have h3 := specCompact_length_le l
  simp only [specLine, specPad, List.length_append, List.length_replicate]
  omega

theorem onceMerge_length (store : Int → Int) (l : List Int) :
    (onceMerge store l).length = l.length := by
  induction l using onceMerge.induct store with
  | case1 => rfl
  | case2 a => rfl
  | case3 a rest ih => simp [onceMerge, ih]
  | case4 a b rest h ih => simp [onceMerge, h, ih]

theorem upLine_length (store : Int → Int) (l : List Int) : (upLine store l).length = l.length := by
  have h1 := specCompact_length_le (onceMerge store (specCompact l))
  have h2 := onceMerge_length store (specCompact l)
  have h3 := specCompact_length_le l
  simp only [upLine, specPad, List.length_append, List.length_replicate]
  omega

theorem finalColumn_eq (store : Int → Int) (b : Board) (col : Fin GRID_SIZE)
    (rows : List (Fin GRID_SIZE)) (h : rows.length = GRID_SIZE) :
    finalColumn store b col rows = some (upLine store (rows.map fun r => b r col)) := by
  have hl : (specCompact (rows.map fun r => b r col)).length ≤ GRID_SIZE := by
    have := specCompact_length_le (rows.map fun r => b r col)
    simp only [List.length_map, h] at this
    exact this
  simp only [finalColumn, collectColumn_eq, mergeAdjacent_eq store _ hl (specCompact_ne_zero _),
    Option.map_some', dropMerged_eq, fillZeros_eq, upLine, List.length_map, h]

theorem forall_fin4 {P : Fin GRID_SIZE → Prop} (h0 : P 0) (h1 : P 1) (h2 : P 2) (h3 : P 3) :
    ∀ i, P i := by
  intro i
  fin_cases i
  · exact h0
  · exact h1
  · exact h2
  · exact h3

theorem copyBack_indices (b : Board) (col : Fin GRID_SIZE) (l : List Int)
    (h : l.length = GRID_SIZE) :
    copyBack b col l indices = some fun r c => if c = col then lineOf l r else b r c := by
  rcases l with _ | ⟨w, _ | ⟨x, _ | ⟨y, _ | ⟨z, _ | ⟨e, t⟩⟩⟩⟩⟩ <;> simp [GRID_SIZE] at h
  simp only [copyBack, indices, List.enum, List.enumFrom, List.foldlM_cons, List.foldlM_nil]
  simp only [List.getElem?_cons_zero, List.getElem?_cons_succ, Option.bind_eq_bind,
    Option.some_bind, Option.pure_def, Option.some.injEq]
  funext r c
  revert r
  by_cases hc : c = col
  · subst hc
    apply forall_fin4 <;> simp [Function.update_apply, lineOf]
    rfl
  · apply forall_fin4 <;> simp [Function.update_apply, hc]

theorem copyBack_reverse (b : Board) (col : Fin GRID_SIZE) (l : List Int)
    (h : l.length = GRID_SIZE) :
    copyBack b col l indices.reverse =
      some fun r c => if c = col then lineOf l (Fin.rev r) else b r c := by
  rcases l with _ | ⟨w, _ | ⟨x, _ | ⟨y, _ | ⟨z, _ | ⟨e, t⟩⟩⟩⟩⟩ <;> simp [GRID_SIZE] at h
  simp only [copyBack, indices, List.reverse_cons, List.reverse_nil, List.nil_append,
    List.cons_append, List.enum, List.enumFrom, List.foldlM_cons, List.foldlM_nil]
  simp only [List.getElem?_cons_zero, List.getElem?_cons_succ, Option.bind_eq_bind,
    Option.some_bind, Option.pure_def, Option.some.injEq]
  funext r c
  revert r
  by_cases hc : c = col
  · subst hc
    apply forall_fin4 <;> simp [Function.update_apply, lineOf, Fin.rev] <;> rfl
  · apply forall_fin4 <;> simp [Function.update_apply, hc]

theorem moveColumn_indices (store : Int → Int) (b : Board) (col : Fin GRID_SIZE) :
    moveColumn store indices b col = some fun r c =>
      if c = col then lineOf (upLine store (indices.map fun r => b r col)) r else b r c := by
  simp only [moveColumn, finalColumn_eq store b col indices rfl, Option.bind_eq_bind,
    Option.some_bind]
  exact copyBack_indices b col _ (by rw [upLine_length]; rfl)

theorem moveColumn_reverse (store : Int → Int) (b : Board) (col : Fin GRID_SIZE) :
    moveColumn store indices.reverse b col = some fun r c =>
      if c = col then lineOf (upLine store (indices.reverse.map fun r => b r col)) (Fin.rev r)
      else b r c := by
  simp only [moveColumn, finalColumn_eq store b col indices.reverse rfl, Option.bind_eq_bind,
    Option.some_bind]
  exact copyBack_reverse b col _ (by rw [upLine_length]; rfl)

theorem moveUp_some (store : Int → Int) (g : Game) :
    moveUp store g = some
      { board := fun r c => lineOf (upLine store (indices.map fun r => g.board r c)) r,
        score := g.score } := by
  unfold moveUp
  have h : indices.foldlM (moveColumn store indices) g.board
      = some fun r c => lineOf (upLine store (indices.map fun r => g.board r c)) r := by
    rw [show indices.foldlM (moveColumn store indices) g.board
      = ([0, 1, 2, 3] : List (Fin GRID_SIZE)).foldlM (moveColumn store indices) g.board
      from rfl]
    simp only [List.foldlM_cons, List.foldlM_nil, moveColumn_indices, Option.bind_eq_bind,
      Option.some_bind, Option.pure_def, Option.some.injEq]
    funext r c
    revert c
    apply forall_fin4 <;> simp [indices]
  rw [h]
  rfl

theorem moveDown_some (store : Int → Int) (g : Game) :
    moveDown store g = some
      { board := fun r c =>
          lineOf (upLine store (indices.reverse.map fun r => g.board r c)) (Fin.rev r),
        score := g.score } := by
  unfold moveDown
  have h : indices.foldlM (moveColumn store indices.reverse) g.board
      = some fun r c =>
          lineOf (upLine store (indices.reverse.map fun r => g.board r c)) (Fin.rev r) := by
    rw [show indices.foldlM (moveColumn store indices.reverse) g.board
      = ([0, 1, 2, 3] : List (Fin GRID_SIZE)).foldlM (moveColumn store indices.reverse)
        g.board from rfl]
    simp only [List.foldlM_cons, List.foldlM_nil, moveColumn_reverse, Option.bind_eq_bind,
      Option.some_bind, Option.pure_def, Option.some.injEq]
    funext r c
    revert c
    apply forall_fin4 <;> simp [indices]
  rw [h]
  rfl


/-! ## Properties of the lines produced, whatever the width of the integers -/

theorem toLine_lineOf (l : List Int) (h : l.length ≤ GRID_SIZE) :
    toLine (lineOf l) = specPad GRID_SIZE l := by
  rcases l with _ | ⟨w, _ | ⟨x, _ | ⟨y, _ | ⟨z, _ | ⟨e, t⟩⟩⟩⟩⟩
  · rfl
  · rfl
  · rfl
  · rfl
  · rfl
  · simp only [List.length_cons] at h
    change _ ≤ 4 at h
    omega

theorem toLine_lineOf_eq (l : List Int) (h : l.length = GRID_SIZE) : toLine (lineOf l) = l := by
  rw [toLine_lineOf l (le_of_eq h)]
  simp [specPad, h]

theorem leftTiles_length (store : Int → Int) (row : Row) :
    (leftTiles store row).length ≤ GRID_SIZE := by
  have := chain_length store (toLine row) ([], 0)
  simpa [leftTiles, toLine, indices] using this

theorem compacted_pad (n : Nat) (l : List Int) (h : ∀ x ∈ l, x ≠ 0) :
    Compacted (specPad n l) := by
  unfold Compacted specPad
  rw [List.pairwise_append]
  refine ⟨?_, ?_, ?_⟩
  · exact List.Pairwise.imp_of_mem (R := fun _ _ => True) (fun ha _ _ e => absurd e (h _ ha))
      (List.pairwise_of_forall fun _ _ => trivial)
  · rw [List.pairwise_replicate]
    exact Or.inr fun _ => rfl
  · intro a _ b hb _
    exact (List.mem_replicate.mp hb).2

theorem upLine_compacted (store : Int → Int) (l : List Int) : Compacted (upLine store l) :=
  compacted_pad _ _ (specCompact_ne_zero _)

theorem specLine_compacted (l : List Int) : Compacted (specLine l) :=
  compacted_pad _ _ (specCompact_ne_zero _)

theorem specCompact_cons (x : Int) (t : List Int) :
    specCompact (x :: t) = if x = 0 then specCompact t else x :: specCompact t := by
  by_cases h : x = 0 <;> simp [specCompact, List.filter_cons, h]

theorem specCompact_nil : specCompact [] = [] := rfl

theorem specCompact_eq_self (l : List Int) (h : ∀ x ∈ l, x ≠ 0) : specCompact l = l := by
  unfold specCompact
  rw [List.filter_eq_self]
  intro x hx
  simpa using h x hx

theorem chainPush_zero (store : Int → Int) (acc : List Int × Int) :
    chainPush store acc 0 = acc := by
  simp [chainPush]

theorem chainPush_cases (store : Int → Int) (acc : List Int × Int) (x : Int) (hx : x ≠ 0) :
    chainPush store acc x = (x :: acc.1, acc.2) ∨
      (chainPush store acc x).1.length = acc.1.length := by
  rcases acc with ⟨stk, s⟩
  unfold chainPush
  rw [if_neg hx]
  rcases stk with _ | ⟨top, rest⟩
  · exact Or.inl rfl
  · by_cases ht : top = x
    · right
      simp [ht]
    · left
      simp [ht]

theorem chain_length_le (store : Int → Int) (l : List Int) (acc : List Int × Int) :
    (chain store acc l).1.length ≤ acc.1.length + (specCompact l).length := by
  induction l generalizing acc with
  | nil => simp [chain, specCompact]
  | cons x t ih =>
    have h1 := ih (chainPush store acc x)
    rw [specCompact_cons]
    simp only [chain, List.foldl_cons] at h1 ⊢
    by_cases hx : x = 0
    · rw [if_pos hx]
      rw [hx, chainPush_zero] at h1 ⊢
      exact h1
    · rw [if_neg hx]
      have h2 := chainPush_length store acc x
      simp only [List.length_cons]
      omega

theorem chain_no_merge (store : Int → Int) (l : List Int) (acc : List Int × Int)
    (h : (chain store acc l).1.length = acc.1.length + (specCompact l).length) :
    chain store acc l = ((specCompact l).reverse ++ acc.1, acc.2) := by
  induction l generalizing acc with
  | nil => simp [chain, specCompact]
  | cons x t ih =>
    have h1 := chain_length_le store t (chainPush store acc x)
    rw [specCompact_cons] at h ⊢
    simp only [chain, List.foldl_cons] at h h1 ih ⊢
    by_cases hx : x = 0
    · rw [if_pos hx] at h ⊢
      rw [hx, chainPush_zero] at h ⊢
      exact ih acc h
    · rw [if_neg hx] at h ⊢
      simp only [List.length_cons] at h
      rcases chainPush_cases store acc x hx with e | e
      · rw [e] at h ⊢
        rw [ih (x :: acc.1, acc.2) (by simp only [List.length_cons]; omega)]
        simp
      · omega

theorem leftTiles_length_le (store : Int → Int) (r : Row) :
    (leftTiles store r).length ≤ (specCompact (toLine r)).length := by
  have := chain_length_le store (toLine r) ([], 0)
  simpa [leftTiles] using this

theorem leftTiles_of_length (store : Int → Int) (r : Row)
    (h : (leftTiles store r).length = (specCompact (toLine r)).length) :
    leftTiles store r = specCompact (toLine r) ∧ ∀ s, leftScore store r s = s := by
  have h0 := chain_no_merge store (toLine r) ([], 0) (by simpa [leftTiles] using h)
  refine ⟨by simp [leftTiles, h0], fun s => ?_⟩
  have hs := chain_no_merge store (toLine r) ([], s) (by
    rw [chain_fst]
    simpa [leftTiles] using h)
  simp [leftScore, hs]

/-! ## Sums of lines, exactly and modulo a power of two -/

theorem chainPush_sum (store : Int → Int) (n : Int) (hs : ∀ x, store x ≡ x [ZMOD n])
    (acc : List Int × Int) (x : Int) :
    (chainPush store acc x).1.sum ≡ acc.1.sum + x [ZMOD n] := by
  rcases acc with ⟨stk, s⟩
  unfold chainPush
  by_cases h0 : x = 0
  · simp [h0, Int.ModEq.refl]
  · rw [if_neg h0]
    rcases stk with _ | ⟨top, rest⟩
    · simp [Int.ModEq.refl]
    · by_cases ht : top = x
      · subst ht
        simp only [if_true, List.sum_cons]
        have e : top + rest.sum + top = top * 2 + rest.sum := by omega
        rw [e]
        exact (hs (top * 2)).add_right _
      · simp only [ht, if_false, List.sum_cons]
        have e : top + rest.sum + x = x + (top + rest.sum) := by omega
        rw [e]

theorem chain_sum (store : Int → Int) (n : Int) (hs : ∀ x, store x ≡ x [ZMOD n])
    (l : List Int) (acc : List Int × Int) :
    (chain store acc l).1.sum ≡ acc.1.sum + l.sum [ZMOD n] := by
  induction l generalizing acc with
  | nil => simp [chain, Int.ModEq.refl]
  | cons x t ih =>
    have h1 := ih (chainPush store acc x)
    have h2 := chainPush_sum store n hs acc x
    simp only [chain, List.foldl_cons, List.sum_cons] at h1 ⊢
    have e : acc.1.sum + (x + t.sum) = acc.1.sum + x + t.sum := by omega
    rw [e]
    exact h1.trans (h2.add_right _)

theorem leftTiles_sum (store : Int → Int) (n : Int) (hs : ∀ x, store x ≡ x [ZMOD n])
    (row : Row) : (leftTiles store row).sum ≡ (toLine row).sum [ZMOD n] := by
  have := chain_sum store n hs (toLine row) ([], 0)
  simpa [leftTiles, List.sum_reverse] using this

theorem specCompact_sum (l : List Int) : (specCompact l).sum = l.sum := by
  induction l with
  | nil => rfl
  | cons x t ih =>
    have e : specCompact (x :: t) = if x ≠ 0 then x :: specCompact t else specCompact t := by
      by_cases h : x = 0 <;> simp [specCompact, List.filter_cons, h]
    rw [e]
    by_cases h : x = 0
    · simp [h, ih]
    · simp [h, ih]

theorem specMerge_sum (l : List Int) : (specMerge l).1.sum = l.sum := by
  induction l using specMerge.induct with
  | case1 => rfl
  | case2 a => rfl
  | case3 a rest ih =>
    simp only [specMerge, if_true, List.sum_cons, ih]
    omega
  | case4 a b rest h ih =>
    simp only [specMerge, h, if_false, List.sum_cons] at ih ⊢
    omega

theorem specPad_sum (n : Nat) (l : List Int) : (specPad n l).sum = l.sum := by
  simp [specPad]

theorem specLine_sum (l : List Int) : (specLine l).sum = l.sum := by
  rw [specLine, specPad_sum, specCompact_sum, specMerge_sum, specCompact_sum]

theorem onceMerge_sum (store : Int → Int) (n : Int) (hs : ∀ x, store x ≡ x [ZMOD n])
    (l : List Int) : (onceMerge store l).sum ≡ l.sum [ZMOD n] := by
  induction l using onceMerge.induct store with
  | case1 => exact Int.ModEq.refl _
  | case2 a => exact Int.ModEq.refl _
  | case3 a rest ih =>
    simp only [onceMerge, if_true, List.sum_cons, zero_add]
    have e : a + (a + rest.sum) = a * 2 + rest.sum := by omega
    rw [e]
    exact (hs (a * 2)).add ih
  | case4 a b rest h ih =>
    simp only [onceMerge, h, if_false, List.sum_cons] at ih ⊢
    exact ih.add_left a

theorem upLine_sum (store : Int → Int) (n : Int) (hs : ∀ x, store x ≡ x [ZMOD n])
    (l : List Int) : (upLine store l).sum ≡ l.sum [ZMOD n] := by
  rw [upLine, specPad_sum, specCompact_sum]
  have := onceMerge_sum store n hs (specCompact l)
  rw [specCompact_sum] at this
  exact this

theorem id_modEq (n : Int) : ∀ x, id x ≡ x [ZMOD n] := fun _ => Int.ModEq.refl _

/-! ## The slides over unbounded integers -/

theorem onceMerge_id (l : List Int) : onceMerge id l = (specMerge l).1 := by
  induction l using specMerge.induct with
  | case1 => rfl
  | case2 a => rfl
  | case3 a rest ih => simp [onceMerge, specMerge, ih]
  | case4 a b rest h ih => simp [onceMerge, specMerge, h, ih]

theorem upLine_id (l : List Int) : upLine id l = specLine l := by
  rw [upLine, specLine, onceMerge_id]

theorem specMerge_nonneg (l : List Int) (h : ∀ x ∈ l, 0 ≤ x) :
    ∀ y ∈ (specMerge l).1, 0 ≤ y := by
  induction l using specMerge.induct with
  | case1 => simp [specMerge]
  | case2 a => simpa [specMerge] using h
  | case3 a rest ih =>
    simp only [List.mem_cons, forall_eq_or_imp] at h
    simp only [specMerge, if_true, List.mem_cons, forall_eq_or_imp]
    exact ⟨by omega, le_refl _, ih h.2.2⟩
  | case4 a b rest hab ih =>
    simp only [List.mem_cons, forall_eq_or_imp] at h
    simp only [specMerge, hab, if_false, List.mem_cons, forall_eq_or_imp]
    exact ⟨h.1, ih (by simpa using h.2)⟩

theorem specLine_nonneg (l : List Int) (h : ∀ x ∈ l, 0 ≤ x) : ∀ y ∈ specLine l, 0 ≤ y := by
  intro y hy
  simp only [specLine, specPad, List.mem_append, List.mem_replicate] at hy
  rcases hy with hy | hy
  · unfold specCompact at hy
    refine specMerge_nonneg (specCompact l) (fun x hx => h x ?_) y (List.mem_filter.mp hy).1
    unfold specCompact at hx
    exact (List.mem_filter.mp hx).1
  · omega

/-! ## The two merge routines at concrete inputs -/

/-- C1, the code at the failing input: `moveLeft` turns the row `[2,2,4,0]` into `[8,0,0,0]`
(the 4 made by the first merge is merged again with the next 4) and adds 12 to the score,
where the merge-once algorithm of the spec gives `[4,4,0,0]` and 4. -/
theorem moveLeft_merges_merged_tile :
    (moveLeft wrap64 { board := rowBoard 2 2 4 0, score := 0 }).map
        (fun g => (toLine (g.board 0), g.score)) = some ([8, 0, 0, 0], 12)
      ∧ specLine [2, 2, 4, 0] = [4, 4, 0, 0] ∧ specGain [2, 2, 4, 0] = 4 := by
  decide

/-- C2, the code at the failing input: `moveUp` merges the column `[2,2,0,0]` into
`[4,0,0,0]` and leaves the score at 0, where the spec adds 4; `moveDown` likewise; and
`moveLeft` adds 12 for the row `[2,2,4,0]`, where the tiles created by merging once sum to 4. -/
theorem moveUp_moveDown_leave_score :
    (moveUp wrap64 { board := columnBoard 2 2 0 0, score := 0 }).map
        (fun g => (toLine (column g.board 0), g.score)) = some ([4, 0, 0, 0], 0)
      ∧ (moveDown wrap64 { board := columnBoard 2 2 0 0, score := 0 }).map
        (fun g => (toLine (column g.board 0), g.score)) = some ([0, 0, 0, 4], 0)
      ∧ specGain [2, 2, 0, 0] = 4
      ∧ (moveLeft wrap64 { board := rowBoard 2 2 4 0, score := 0 }).map
        (fun g => g.score) = some 12
      ∧ specGain [2, 2, 4, 0] = 4 := by
  decide

/-- C15, the code at the failing input: on the column `[2,2,4,0]` (from the top) `moveUp`
gives `[4,4,0,0]`, while transposing, applying `moveLeft` and transposing back gives
`[8,0,0,0]`; on the column `[0,4,2,2]` `moveDown` gives `[0,0,4,4]`, while `moveRight`
between two transpositions gives `[0,0,0,8]`. -/
theorem moveUp_differs_from_transposed_moveLeft :
    (moveUp wrap64 { board := columnBoard 2 2 4 0, score := 0 }).map
        (fun g => toLine (column g.board 0)) = some [4, 4, 0, 0]
      ∧ (moveLeft wrap64 (transpose { board := columnBoard 2 2 4 0, score := 0 })).map
        (fun g => toLine (column (transpose g).board 0)) = some [8, 0, 0, 0]
      ∧ (moveDown wrap64 { board := columnBoard 0 4 2 2, score := 0 }).map
        (fun g => toLine (column g.board 0)) = some [0, 0, 4, 4]
      ∧ (moveRight wrap64 (transpose { board := columnBoard 0 4 2 2, score := 0 })).map
        (fun g => toLine (column (transpose g).board 0)) = some [0, 0, 0, 8] := by
  decide

/-! ## Game over, the spawn and `Move` -/

theorem any_indices (p : Fin GRID_SIZE → Bool) : indices.any p = true ↔ ∃ i, p i = true := by
  constructor
  · intro h
    obtain ⟨i, _, hi⟩ := List.any_eq_true.mp h
    exact ⟨i, hi⟩
  · rintro ⟨i, hi⟩
    refine List.any_eq_true.mpr ⟨i, ?_, hi⟩
    revert i
    apply forall_fin4 <;> simp [indices]

theorem any_indicesButLast (p : Fin 3 → Bool) : indicesButLast.any p = true ↔ ∃ i, p i = true := by
  constructor
  · intro h
    obtain ⟨i, _, hi⟩ := List.any_eq_true.mp h
    exact ⟨i, hi⟩
  · rintro ⟨i, hi⟩
    refine List.any_eq_true.mpr ⟨i, ?_, hi⟩
    fin_cases i <;> simp [indicesButLast]

theorem isGameOver_eq_true_iff (g : Game) :
    (IsGameOver g).1 = true ↔
      (∀ i j, g.board i j ≠ 0) ∧
      (∀ (i : Fin GRID_SIZE) (j : Fin 3), g.board i j.castSucc ≠ g.board i j.succ) ∧
      (∀ (i : Fin 3) (j : Fin GRID_SIZE), g.board i.castSucc j ≠ g.board i.succ j) := by
  unfold IsGameOver
  simp only [any_indices, any_indicesButLast, beq_iff_eq]
  by_cases h1 : ∃ i j, g.board i j = 0
  · rw [if_pos h1]
    refine ⟨fun h => by simp at h, ?_⟩
    rintro ⟨h, -, -⟩
    obtain ⟨i, j, e⟩ := h1
    exact absurd e (h i j)
  · rw [if_neg h1]
    by_cases h2 : ∃ i, ∃ j : Fin 3, g.board i j.castSucc = g.board i j.succ
    · rw [if_pos h2]
      refine ⟨fun h => by simp at h, ?_⟩
      rintro ⟨-, h, -⟩
      obtain ⟨i, j, e⟩ := h2
      exact absurd e (h i j)
    · rw [if_neg h2]
      by_cases h3 : ∃ j, ∃ i : Fin 3, g.board i.castSucc j = g.board i.succ j
      · rw [if_pos h3]
        refine ⟨fun h => by simp at h, ?_⟩
        rintro ⟨-, -, h⟩
        obtain ⟨j, i, e⟩ := h3
        exact absurd e (h i j)
      · rw [if_neg h3]
        refine ⟨fun _ => ⟨?_, ?_, ?_⟩, fun _ => rfl⟩
        · exact fun i j e => h1 ⟨i, j, e⟩
        · exact fun i j e => h2 ⟨i, j, e⟩
        · exact fun i j e => h3 ⟨j, i, e⟩

theorem isGameOver_state (g : Game) : (IsGameOver g).2 = g := by
  unfold IsGameOver
  split_ifs <;> rfl

/-- C5: `IsGameOver` returns true exactly when no cell is 0, no two horizontally adjacent
cells of a row are equal and no two vertically adjacent cells of a column are equal; and
the state after the call is the state before it (grid and score). -/
theorem IsGameOver_iff (g : Game) :
    ((IsGameOver g).1 = true ↔
        (∀ i j, g.board i j ≠ 0) ∧
        (∀ (i : Fin GRID_SIZE) (j : Fin 3), g.board i j.castSucc ≠ g.board i j.succ) ∧
        (∀ (i : Fin 3) (j : Fin GRID_SIZE), g.board i.castSucc j ≠ g.board i.succ j)) ∧
      (IsGameOver g).2 = g :=
  ⟨isGameOver_eq_true_iff g, isGameOver_state g⟩

theorem mem_foldl_append {α β : Type} (f : α → List β) (l : List α) (acc : List β) (y : β) :
    y ∈ l.foldl (fun a x => a ++ f x) acc ↔ y ∈ acc ∨ ∃ x ∈ l, y ∈ f x := by
  induction l generalizing acc with
  | nil => simp
  | cons x t ih =>
    simp only [List.foldl_cons, ih, List.mem_append, List.mem_cons, exists_eq_or_imp]
    tauto

theorem mem_indices (i : Fin GRID_SIZE) : i ∈ indices := by
  revert i
  apply forall_fin4 <;> simp [indices]

theorem mem_emptyTiles (b : Board) (pos : Fin GRID_SIZE × Fin GRID_SIZE) :
    pos ∈ emptyTiles b ↔ b pos.1 pos.2 = 0 := by
  have inner : ∀ (i : Fin GRID_SIZE) (acc : List (Fin GRID_SIZE × Fin GRID_SIZE)),
      indices.foldl (fun acc j => if b i j = 0 then acc ++ [(i, j)] else acc) acc
        = acc ++ (indices.filter fun j => b i j = 0).map fun j => (i, j) := by
    intro i acc
    induction indices generalizing acc with
    | nil => simp
    | cons x t ih =>
      simp only [List.foldl_cons, ih]
      by_cases h : b i x = 0 <;> simp [h, List.filter_cons]
  unfold emptyTiles
  simp only [inner]
  rw [mem_foldl_append (fun i => (indices.filter fun j => b i j = 0).map fun j => (i, j))]
  rcases pos with ⟨i, j⟩
  simp only [List.not_mem_nil, false_or, List.mem_map, List.mem_filter, Prod.mk.injEq,
    decide_eq_true_eq]
  constructor
  · rintro ⟨x, -, y, ⟨-, hy⟩, rfl, rfl⟩
    exact hy
  · intro h
    exact ⟨i, mem_indices i, j, ⟨mem_indices j, h⟩, rfl, rfl⟩

theorem emptyTiles_eq_nil (b : Board) : emptyTiles b = [] ↔ ∀ i j, b i j ≠ 0 := by
  rw [List.eq_nil_iff_forall_not_mem]
  constructor
  · intro h i j e
    exact h (i, j) ((mem_emptyTiles b (i, j)).mpr e)
  · intro h pos hp
    exact h pos.1 pos.2 ((mem_emptyTiles b pos).mp hp)

theorem AddRandomTile_full (g : Game) (rnd : Rand) (h : ∀ i j, g.board i j ≠ 0) :
    AddRandomTile g rnd = some g := by
  simp [AddRandomTile, (emptyTiles_eq_nil g.board).mpr h]

theorem AddRandomTile_spawn (g : Game) (rnd : Rand) (h : ∃ i j, g.board i j = 0) :
    ∃ pos, g.board pos.1 pos.2 = 0 ∧
      (emptyTiles g.board)[rnd.draw % (emptyTiles g.board).length]? = some pos ∧
      AddRandomTile g rnd = some (setCell g pos (if rnd.small then 2 else 4)) := by
  have hne : emptyTiles g.board ≠ [] := by
    intro e
    obtain ⟨i, j, hij⟩ := h
    exact (emptyTiles_eq_nil g.board).mp e i j hij
  have hlen : 0 < (emptyTiles g.board).length := List.length_pos.mpr hne
  have hlt : rnd.draw % (emptyTiles g.board).length < (emptyTiles g.board).length :=
    Nat.mod_lt _ hlen
  refine ⟨(emptyTiles g.board)[rnd.draw % (emptyTiles g.board).length], ?_, ?_, ?_⟩
  · exact (mem_emptyTiles g.board _).mp (List.getElem_mem _)
  · exact List.getElem?_eq_getElem hlt
  · unfold AddRandomTile
    rw [if_pos hlen, List.getElem?_eq_getElem hlt]
    cases rnd.small <;> rfl

theorem AddRandomTile_total (g : Game) (rnd : Rand) : ∃ g', AddRandomTile g rnd = some g' := by
  by_cases h : ∃ i j, g.board i j = 0
  · obtain ⟨pos, -, -, e⟩ := AddRandomTile_spawn g rnd h
    exact ⟨_, e⟩
  · refine ⟨g, AddRandomTile_full g rnd ?_⟩
    intro i j e
    exact h ⟨i, j, e⟩

theorem setCell_board (g : Game) (pos : Fin GRID_SIZE × Fin GRID_SIZE) (v : Int)
    (a b : Fin GRID_SIZE) :
    (setCell g pos v).board a b = if a = pos.1 ∧ b = pos.2 then v else g.board a b := by
  unfold setCell
  by_cases h1 : a = pos.1
  · subst h1
    by_cases h2 : b = pos.2 <;> simp [h2]
  · simp [h1]

theorem boardsEqual_iff (b1 b2 : Board) : boardsEqual b1 b2 = true ↔ ∀ i j, b1 i j = b2 i j := by
  unfold boardsEqual
  rw [Bool.not_eq_true', ← Bool.not_eq_true, any_indices]
  simp only [any_indices, bne_iff_ne, ne_eq, not_exists, not_not]

theorem slide_total (store : Int → Int) (direction : String) (g : Game) :
    ∃ g1, slide store direction g = some g1 := by
  unfold slide
  split_ifs
  · exact ⟨_, moveUp_some store g⟩
  · exact ⟨_, moveDown_some store g⟩
  · exact ⟨_, moveLeft_some store g⟩
  · exact ⟨_, moveRight_some store g⟩
  · exact ⟨g, rfl⟩

theorem Move_of_slide (store : Int → Int) (direction : String) (g g1 : Game) (rnd : Rand)
    (h : slide store direction g = some g1) :
    Move store direction g rnd = if ∀ i j, g.board i j = g1.board i j then some g1
      else AddRandomTile g1 rnd := by
  unfold Move
  simp only [h, Option.bind_eq_bind, Option.some_bind, Option.pure_def]
  by_cases e : ∀ i j, g.board i j = g1.board i j
  · rw [if_pos e, (boardsEqual_iff _ _).mpr e]
    rfl
  · rw [if_neg e]
    have : boardsEqual g.board g1.board = false := by
      rw [← Bool.not_eq_true, boardsEqual_iff]
      exact e
    rw [this]
    rfl

/-- C6: for every grid, every direction string (the four directions among them) and every
outcome of the random source, whatever the width of the integers (`store`, so for the
64-bit program `wrap64`), the slide/merge step of `Move` returns a grid `g1`; if every
cell of `g1` equals the cell of the grid before, `Move` returns `g1` and its grid is the
grid before (nothing is spawned); if some cell differs, `Move` returns the result of one
call of `AddRandomTile` on `g1`, which exists. -/
theorem Move_spawns_iff_changed (store : Int → Int) (direction : String) (g : Game)
    (rnd : Rand) :
    ∃ g1, slide store direction g = some g1 ∧
      ((∀ i j, g1.board i j = g.board i j) →
        Move store direction g rnd = some g1 ∧ g1.board = g.board) ∧
      ((∃ i j, g1.board i j ≠ g.board i j) →
        ∃ g', AddRandomTile g1 rnd = some g' ∧ Move store direction g rnd = some g') := by
  obtain ⟨g1, h1⟩ := slide_total store direction g
  refine ⟨g1, h1, ?_, ?_⟩
  · intro h
    rw [Move_of_slide store direction g g1 rnd h1, if_pos fun i j => (h i j).symm]
    exact ⟨rfl, funext fun i => funext fun j => h i j⟩
  · rintro ⟨i, j, h⟩
    obtain ⟨g', h'⟩ := AddRandomTile_total g1 rnd
    refine ⟨g', h', ?_⟩
    rw [Move_of_slide store direction g g1 rnd h1, if_neg, h']
    intro e
    exact h (e i j).symm

/-- C7: for every grid and every outcome of the random source, `AddRandomTile` returns a
state with the same score in which every non-empty cell is unchanged; on a grid without
empty cell it returns the state unchanged; otherwise exactly one cell changes, it was 0 and
becomes 2 when the comparison `rand.Float32() < 0.9` holds and 4 when it fails. On the empty
grid one cell becomes 2 or 4 and the others remain 0. -/
theorem AddRandomTile_frame (g : Game) (rnd : Rand) :
    ∃ g', AddRandomTile g rnd = some g' ∧ g'.score = g.score ∧
      (∀ i j, g.board i j ≠ 0 → g'.board i j = g.board i j) ∧
      ((∀ i j, g.board i j ≠ 0) → g' = g) ∧
      ((∃ i j, g.board i j = 0) → ∃ i j, g.board i j = 0 ∧
        g'.board i j = (if rnd.small then 2 else 4) ∧
        ∀ a b, (a ≠ i ∨ b ≠ j) → g'.board a b = g.board a b) ∧
      ((∀ i j, g.board i j = 0) → ∃ i j, (g'.board i j = 2 ∨ g'.board i j = 4) ∧
        ∀ a b, (a ≠ i ∨ b ≠ j) → g'.board a b = 0) := by
  by_cases h : ∃ i j, g.board i j = 0
  · obtain ⟨pos, hpos, -, e⟩ := AddRandomTile_spawn g rnd h
    have hother : ∀ a b, (a ≠ pos.1 ∨ b ≠ pos.2) →
        (setCell g pos (if rnd.small then 2 else 4)).board a b = g.board a b := by
      intro a b hab
      rw [setCell_board, if_neg]
      tauto
    have hcell : (setCell g pos (if rnd.small then 2 else 4)).board pos.1 pos.2
        = if rnd.small then 2 else 4 := by
      rw [setCell_board, if_pos ⟨rfl, rfl⟩]
    refine ⟨_, e, rfl, ?_, ?_, ?_, ?_⟩
    · intro i j hij
      apply hother
      by_contra hc
      push_neg at hc
      rw [hc.1, hc.2] at hij
      exact hij hpos
    · intro hfull
      exact absurd hpos (hfull _ _)
    · intro _
      exact ⟨pos.1, pos.2, hpos, hcell, hother⟩
    · intro hz
      refine ⟨pos.1, pos.2, ?_, fun a b hab => ?_⟩
      · rw [hcell]
        cases rnd.small <;> simp
      · rw [hother a b hab]
        exact hz a b
  · have hfull : ∀ i j, g.board i j ≠ 0 := fun i j e => h ⟨i, j, e⟩
    refine ⟨g, AddRandomTile_full g rnd hfull, rfl, fun _ _ _ => rfl, fun _ => rfl, ?_, ?_⟩
    · intro h'
      exact absurd h' h
    · intro hz
      exact absurd (hz 0 0) (hfull 0 0)


/-- C12: for every outcome of the random source `NewGame` returns a session with score 0
whose grid has two distinct cells `p` and `q`, each holding 2 or 4, and 0 in the fourteen
other cells. -/
theorem NewGame_two_tiles (r1 r2 : Rand) :
    ∃ g0, NewGame r1 r2 = some g0 ∧ g0.score = 0 ∧
      ∃ p q : Fin GRID_SIZE × Fin GRID_SIZE, p ≠ q ∧
        (g0.board p.1 p.2 = 2 ∨ g0.board p.1 p.2 = 4) ∧
        (g0.board q.1 q.2 = 2 ∨ g0.board q.1 q.2 = 4) ∧
        ∀ a b, (a, b) ≠ p → (a, b) ≠ q → g0.board a b = 0 := by
  obtain ⟨p, -, -, h1⟩ := AddRandomTile_spawn { board := fun _ _ => 0, score := 0 } r1
    ⟨0, 0, rfl⟩
  have hv1 : (if r1.small then (2 : Int) else 4) = 2 ∨ (if r1.small then (2 : Int) else 4) = 4 := by
    cases r1.small <;> simp
  have hv2 : (if r2.small then (2 : Int) else 4) = 2 ∨ (if r2.small then (2 : Int) else 4) = 4 := by
    cases r2.small <;> simp
  have hp : (setCell { board := fun _ _ => 0, score := 0 } p
      (if r1.small then 2 else 4)).board p.1 p.2 = if r1.small then 2 else 4 := by
    rw [setCell_board, if_pos ⟨rfl, rfl⟩]
  have hempty : ∃ i j, (setCell { board := fun _ _ => 0, score := 0 } p
      (if r1.small then 2 else 4)).board i j = 0 := by
    by_cases hp0 : p.1 = 0
    · refine ⟨1, 0, ?_⟩
      rw [setCell_board, if_neg]
      rintro ⟨e, -⟩
      rw [hp0] at e
      exact absurd e (by decide)
    · refine ⟨0, 0, ?_⟩
      rw [setCell_board, if_neg]
      rintro ⟨e, -⟩
      exact hp0 e.symm
  obtain ⟨q, hq, -, h2⟩ := AddRandomTile_spawn _ r2 hempty
  have hpq : p ≠ q := by
    intro e
    rw [← e, hp] at hq
    rcases hv1 with h | h <;> rw [h] at hq <;> omega
  refine ⟨setCell (setCell { board := fun _ _ => 0, score := 0 } p (if r1.small then 2 else 4))
    q (if r2.small then 2 else 4), ?_, rfl, p, q, hpq, ?_, ?_, ?_⟩
  · simp only [NewGame, h1, Option.bind_eq_bind, Option.some_bind]
    exact h2
  · rw [setCell_board, if_neg, hp]
    · exact hv1
    · rintro ⟨e1, e2⟩
      exact hpq (Prod.ext e1 e2)
  · rw [setCell_board, if_pos ⟨rfl, rfl⟩]
    exact hv2
  · intro a b hap haq
    rw [setCell_board, if_neg, setCell_board, if_neg]
    · rintro ⟨e1, e2⟩
      exact hap (Prod.ext e1 e2)
    · rintro ⟨e1, e2⟩
      exact haq (Prod.ext e1 e2)

/-- C13: for every grid, four successive calls of `rotate90` give back the grid cell for
cell, and the score is unchanged. -/
theorem rotate90_four_times (g : Game) :
    rotate90 (rotate90 (rotate90 (rotate90 g))) = g ∧
      (∀ i j, (rotate90 (rotate90 (rotate90 (rotate90 g)))).board i j = g.board i j) ∧
      (rotate90 (rotate90 (rotate90 (rotate90 g)))).score = g.score := by
  have h : rotate90 (rotate90 (rotate90 (rotate90 g))) = g := by
    cases g with
    | mk b s =>
      simp only [rotate90, Game.mk.injEq, and_true]
      funext i j
      simp only [rotate90Board_apply, Fin.rev_rev]
  refine ⟨h, ?_, ?_⟩
  · intro i j
    rw [h]
  · rw [h]

theorem slide_up (store : Int → Int) (g : Game) : slide store "up" g = moveUp store g := by
  simp [slide]

theorem slide_down (store : Int → Int) (g : Game) :
    slide store "down" g = moveDown store g := by
  simp [slide]

theorem slide_left (store : Int → Int) (g : Game) :
    slide store "left" g = moveLeft store g := by
  simp [slide]

theorem slide_right (store : Int → Int) (g : Game) :
    slide store "right" g = moveRight store g := by
  simp [slide]

theorem revLine_revLine (r : Row) : revLine (revLine r) = r := by
  funext k
  simp [revLine]

theorem column_moveUp (store : Int → Int) (g : Game) (c : Fin GRID_SIZE) :
    toLine (column (fun r c => lineOf (upLine store (indices.map fun r => g.board r c)) r) c)
      = upLine store (toLine (column g.board c)) := by
  have h : column (fun r c => lineOf (upLine store (indices.map fun r => g.board r c)) r) c
      = lineOf (upLine store (toLine (column g.board c))) := rfl
  rw [h]
  exact toLine_lineOf_eq _ (by rw [upLine_length]; rfl)

theorem column_moveDown (store : Int → Int) (g : Game) (c : Fin GRID_SIZE) :
    toLine (revLine (column
        (fun r c =>
          lineOf (upLine store (indices.reverse.map fun r => g.board r c)) (Fin.rev r)) c))
      = upLine store (toLine (revLine (column g.board c))) := by
  have h : revLine (column
      (fun r c => lineOf (upLine store (indices.reverse.map fun r => g.board r c)) (Fin.rev r)) c)
      = lineOf (upLine store (toLine (revLine (column g.board c)))) := by
    funext k
    simp only [revLine, column, Fin.rev_rev]
    rfl
  rw [h]
  exact toLine_lineOf_eq _ (by rw [upLine_length]; rfl)

theorem lineOf_nonneg (l : List Int) (h : ∀ y ∈ l, 0 ≤ y) (k : Fin GRID_SIZE) :
    0 ≤ lineOf l k := by
  unfold lineOf
  rw [List.getD_eq_getElem?_getD]
  by_cases hk : k.val < l.length
  · rw [List.getElem?_eq_getElem hk]
    exact h _ (List.getElem_mem _)
  · rw [List.getElem?_eq_none (by omega)]
    exact le_refl _

theorem mem_toLine (r : Row) (x : Int) : x ∈ toLine r ↔ ∃ j, r j = x := by
  simp only [toLine, List.mem_map]
  constructor
  · rintro ⟨j, -, e⟩
    exact ⟨j, e⟩
  · rintro ⟨j, e⟩
    exact ⟨j, mem_indices j, e⟩

theorem AddRandomTile_nonneg (g : Game) (rnd : Rand) (h : NonNegative g.board) :
    ∃ g', AddRandomTile g rnd = some g' ∧ g'.score = g.score ∧ NonNegative g'.board := by
  by_cases he : ∃ i j, g.board i j = 0
  · obtain ⟨pos, -, -, e⟩ := AddRandomTile_spawn g rnd he
    refine ⟨_, e, rfl, fun a b => ?_⟩
    rw [setCell_board]
    by_cases hc : a = pos.1 ∧ b = pos.2
    · rw [if_pos hc]
      cases rnd.small <;> simp
    · rw [if_neg hc]
      exact h a b
  · exact ⟨g, AddRandomTile_full g rnd (fun i j e => he ⟨i, j, e⟩), rfl, h⟩

theorem NewGame_nonneg (r1 r2 : Rand) :
    ∃ g0, NewGame r1 r2 = some g0 ∧ g0.score = 0 ∧ NonNegative g0.board := by
  obtain ⟨g1, h1, s1, n1⟩ := AddRandomTile_nonneg { board := fun _ _ => 0, score := 0 } r1
    (fun _ _ => le_refl _)
  obtain ⟨g2, h2, s2, n2⟩ := AddRandomTile_nonneg g1 r2 n1
  refine ⟨g2, ?_, by rw [s2, s1], n2⟩
  simp only [NewGame, h1, Option.bind_eq_bind, Option.some_bind]
  exact h2

/-! ## Totality and index ranges -/

theorem moveLeft_prefix (store : Int → Int) (row : Row) (s : Int) (k : Fin GRID_SIZE) :
    ∃ st, (indices.take k.val).foldlM (moveLeftStep store row)
        { newRow := fun _ => 0, pos := 0, score := s } = some st ∧ st.pos ≤ k.val := by
  have hinit : ({ newRow := fun _ => 0, pos := 0, score := s } : RowState) = absState ([], s) := by
    simp only [absState, List.reverse_nil, List.length_nil, RowState.mk.injEq, and_true]
    funext k
    simp [lineOf]
  have l1 := chain_length store [row 0] ([], s)
  have l2 := chain_length store [row 0, row 1] ([], s)
  have l3 := chain_length store [row 0, row 1, row 2] ([], s)
  simp only [chain, List.foldl_cons, List.foldl_nil, List.length_cons, List.length_nil] at l1 l2 l3
  rw [hinit]
  revert k
  apply forall_fin4
  · exact ⟨absState ([], s), rfl, le_refl _⟩
  · refine ⟨absState (chainPush store ([], s) (row 0)), ?_, ?_⟩
    · show ([0] : List (Fin GRID_SIZE)).foldlM (moveLeftStep store row) _ = _
      simp only [List.foldlM_cons, List.foldlM_nil]
      rw [moveLeftStep_abs store row _ 0 (by simp)]
      rfl
    · simpa [absState] using l1
  · refine ⟨absState (chainPush store (chainPush store ([], s) (row 0)) (row 1)), ?_, ?_⟩
    · show ([0, 1] : List (Fin GRID_SIZE)).foldlM (moveLeftStep store row) _ = _
      simp only [List.foldlM_cons, List.foldlM_nil]
      rw [moveLeftStep_abs store row _ 0 (by simp)]
      simp only [Option.bind_eq_bind, Option.some_bind]
      rw [moveLeftStep_abs store row _ 1 (by simpa using l1)]
      rfl
    · simpa [absState] using l2
  · refine ⟨absState
        (chainPush store (chainPush store (chainPush store ([], s) (row 0)) (row 1)) (row 2)),
      ?_, ?_⟩
    · show ([0, 1, 2] : List (Fin GRID_SIZE)).foldlM (moveLeftStep store row) _ = _
      simp only [List.foldlM_cons, List.foldlM_nil]
      rw [moveLeftStep_abs store row _ 0 (by simp)]
      simp only [Option.bind_eq_bind, Option.some_bind]
      rw [moveLeftStep_abs store row _ 1 (by simpa using l1)]
      simp only [Option.bind_eq_bind, Option.some_bind]
      rw [moveLeftStep_abs store row _ 2 (by simpa using l2)]
      rfl
    · simpa [absState] using l3

theorem collectColumn_length (b : Board) (col : Fin GRID_SIZE) (rows : List (Fin GRID_SIZE)) :
    (collectColumn b col rows).length ≤ rows.length := by
  rw [collectColumn_eq]
  simpa using specCompact_length_le (rows.map fun r => b r col)

/-- C19: for every grid, whatever the width of the integers (`store`, so for the 64-bit
program `wrap64`), no operation of the engine fails on an index. In `moveUp` and
`moveDown` the collected line of a column has at most 4 entries and the padded line
`finalCol` exists with length exactly 4, so `finalCol[r]` is defined for each of the four
rows; in `moveLeft`, when the inner loop reaches column `k` of a row the write position
`pos` is at most `k`, hence at most 3; in `AddRandomTile` the chosen index is below the
length of `emptyTiles` whenever that list is non-empty; and `moveLeft`, `moveRight`,
`moveUp`, `moveDown`, `AddRandomTile`, `Move` and `NewGame` all return a state. -/
theorem operations_total (store : Int → Int) (g : Game) (rnd rnd2 : Rand) (direction : String)
    (i col k : Fin GRID_SIZE) :
    ((collectColumn g.board col indices).length ≤ GRID_SIZE ∧
        (collectColumn g.board col indices.reverse).length ≤ GRID_SIZE) ∧
      (∃ finalCol, finalColumn store g.board col indices = some finalCol ∧
        finalCol.length = GRID_SIZE ∧ ∀ r : Fin GRID_SIZE, ∃ v, finalCol[r.val]? = some v) ∧
      (∃ finalCol, finalColumn store g.board col indices.reverse = some finalCol ∧
        finalCol.length = GRID_SIZE ∧ ∀ r : Fin GRID_SIZE, ∃ v, finalCol[r.val]? = some v) ∧
      (∃ st, (indices.take k.val).foldlM (moveLeftStep store (g.board i))
          { newRow := fun _ => 0, pos := 0, score := g.score } = some st ∧
        st.pos ≤ k.val ∧ st.pos ≤ 3) ∧
      (0 < (emptyTiles g.board).length →
        rnd.draw % (emptyTiles g.board).length < (emptyTiles g.board).length ∧
        ∃ pos, (emptyTiles g.board)[rnd.draw % (emptyTiles g.board).length]? = some pos) ∧
      ((∃ g', moveLeft store g = some g') ∧ (∃ g', moveRight store g = some g') ∧
        (∃ g', moveUp store g = some g') ∧ (∃ g', moveDown store g = some g') ∧
        (∃ g', AddRandomTile g rnd = some g') ∧ (∃ g', Move store direction g rnd = some g') ∧
        ∃ g', NewGame rnd rnd2 = some g') := by
  have hfinal : ∀ rows : List (Fin GRID_SIZE), rows.length = GRID_SIZE →
      ∃ finalCol, finalColumn store g.board col rows = some finalCol ∧
        finalCol.length = GRID_SIZE ∧ ∀ r : Fin GRID_SIZE, ∃ v, finalCol[r.val]? = some v := by
    intro rows hrows
    have hlen : (upLine store (rows.map fun r => g.board r col)).length = GRID_SIZE := by
      rw [upLine_length, List.length_map, hrows]
    refine ⟨_, finalColumn_eq store g.board col rows hrows, hlen, fun r => ?_⟩
    exact ⟨_, List.getElem?_eq_getElem (by rw [hlen]; exact r.isLt)⟩
  refine ⟨⟨collectColumn_length _ _ _, collectColumn_length _ _ _⟩, hfinal _ rfl, hfinal _ rfl,
    ?_, ?_, ?_⟩
  · obtain ⟨st, h1, h2⟩ := moveLeft_prefix store (g.board i) g.score k
    exact ⟨st, h1, h2, le_trans h2 (Nat.lt_succ_iff.mp k.isLt)⟩
  · intro hpos
    have hlt := Nat.mod_lt rnd.draw hpos
    exact ⟨hlt, _, List.getElem?_eq_getElem hlt⟩
  · refine ⟨⟨_, moveLeft_some store g⟩, ⟨_, moveRight_some store g⟩, ⟨_, moveUp_some store g⟩,
      ⟨_, moveDown_some store g⟩, AddRandomTile_total g rnd, ?_, ?_⟩
    · obtain ⟨g1, h1⟩ := slide_total store direction g
      rw [Move_of_slide store direction g g1 rnd h1]
      split_ifs
      · exact ⟨g1, rfl⟩
      · exact AddRandomTile_total g1 rnd
    · obtain ⟨g0, h0, -, -⟩ := NewGame_nonneg rnd rnd2
      exact ⟨g0, h0⟩


/-! ## Moves that change nothing, and the number of tiles -/

theorem tiles_eq (l : List Int) : tiles l = (specCompact l).length := by
  unfold tiles specCompact
  rw [List.countP_eq_length_filter]

theorem lineOf_toLine (r : Row) : lineOf (toLine r) = r := by
  funext k
  revert k
  apply forall_fin4 <;> rfl

theorem tiles_le_four (r : Row) : tiles (toLine r) ≤ 4 := by
  have := List.countP_le_length (fun v : Int => decide (v ≠ 0)) (l := toLine r)
  simpa [tiles, toLine, indices] using this

theorem full_iff_tiles (r : Row) : Full r ↔ tiles (toLine r) = 4 := by
  constructor
  · intro h
    rw [tiles_eq, specCompact_eq_self]
    · rfl
    · intro x hx
      obtain ⟨j, rfl⟩ := (mem_toLine r x).mp hx
      exact h j
  · intro h j
    rw [tiles_eq] at h
    have hl : (specCompact (toLine r)).length = (toLine r).length := h
    unfold specCompact at hl
    have := (List.filter_length_eq_length.mp hl) (r j) ((mem_toLine r _).mpr ⟨j, rfl⟩)
    simpa using this

theorem lineOf_short (l : List Int) (h : l.length ≤ 3) : lineOf l 3 = 0 := by
  unfold lineOf
  rw [List.getD_eq_getElem?_getD, List.getElem?_eq_none (by simpa using h)]
  rfl

theorem revLine_eq_iff (a b : Row) : revLine a = b ↔ a = revLine b := by
  constructor
  · intro h
    rw [← h, revLine_revLine]
  · intro h
    rw [h, revLine_revLine]


theorem tiles_le_length (l : List Int) : tiles l ≤ l.length :=
  List.countP_le_length _

theorem tiles_specPad (n : Nat) (l : List Int) : tiles (specPad n l) = tiles l := by
  simp [tiles, specPad, List.countP_append, List.countP_replicate]

theorem left_unchanged (store : Int → Int) (r : Row) (h : lineOf (leftTiles store r) = r) :
    leftTiles store r = specCompact (toLine r) ∧ ∀ s, leftScore store r s = s := by
  apply leftTiles_of_length
  have e : toLine r = specPad GRID_SIZE (leftTiles store r) := by
    rw [← toLine_lineOf _ (leftTiles_length store r), h]
  have h1 := leftTiles_length_le store r
  have h2 := tiles_le_length (leftTiles store r)
  have h3 : tiles (toLine r) = tiles (leftTiles store r) := by
    rw [e, tiles_specPad]
  rw [tiles_eq (toLine r)] at h3
  omega

theorem slide_unchanged_score (store : Int → Int) (direction : String) (g g1 : Game)
    (h1 : slide store direction g = some g1) (hb : ∀ i j, g1.board i j = g.board i j) :
    g1.score = g.score := by
  have hrow : ∀ i, g1.board i = g.board i := fun i => funext fun j => hb i j
  unfold slide at h1
  split_ifs at h1
  · rw [moveUp_some] at h1
    rw [← Option.some.inj h1]
  · rw [moveDown_some] at h1
    rw [← Option.some.inj h1]
  · rw [moveLeft_some] at h1
    have e := Option.some.inj h1
    subst e
    have g0 := (left_unchanged store _ (hrow 0)).2
    have g1 := (left_unchanged store _ (hrow 1)).2
    have g2 := (left_unchanged store _ (hrow 2)).2
    have g3 := (left_unchanged store _ (hrow 3)).2
    simp only [g0, g1, g2, g3]
  · rw [moveRight_some] at h1
    have e := Option.some.inj h1
    subst e
    have g0 := (left_unchanged store _ ((revLine_eq_iff _ _).mp (hrow 0))).2
    have g1 := (left_unchanged store _ ((revLine_eq_iff _ _).mp (hrow 1))).2
    have g2 := (left_unchanged store _ ((revLine_eq_iff _ _).mp (hrow 2))).2
    have g3 := (left_unchanged store _ ((revLine_eq_iff _ _).mp (hrow 3))).2
    simp only [g0, g1, g2, g3]
  · rw [← Option.some.inj h1]

/-- C18: for every grid (so for those whose cells are 0 or powers of two), every direction
string and every outcome of the random source, whatever the width of the integers (`store`,
so for the 64-bit program `wrap64`), if the slide/merge step of `Move` returns a grid equal
cell for cell to the grid before, then it returns the score before as well (no merge took
place), and `Move` returns the session it was given, grid and score. -/
theorem unchanged_slide_keeps_session (store : Int → Int) (direction : String) (g : Game)
    (rnd : Rand) :
    ∃ g1, slide store direction g = some g1 ∧
      ((∀ i j, g1.board i j = g.board i j) →
        g1.score = g.score ∧ Move store direction g rnd = some g) := by
  obtain ⟨g1, h1⟩ := slide_total store direction g
  refine ⟨g1, h1, fun hb => ?_⟩
  have hs := slide_unchanged_score store direction g g1 h1 hb
  refine ⟨hs, ?_⟩
  rw [Move_of_slide store direction g g1 rnd h1, if_pos fun i j => (hb i j).symm]
  have hbd : g1.board = g.board := funext fun i => funext fun j => hb i j
  cases g1
  cases g
  simp only at hs hbd
  rw [hs, hbd]

theorem lineOp_newLeft (store : Int → Int) : LineOp (newLeft store) where
  count_le := by
    intro r
    unfold newLeft
    rw [toLine_lineOf _ (leftTiles_length store r), tiles_specPad, tiles_eq (toLine r)]
    exact le_trans (tiles_le_length _) (leftTiles_length_le store r)
  compacted := by
    intro r h
    have e : toLine r = specPad GRID_SIZE (leftTiles store r) := by
      rw [← toLine_lineOf _ (leftTiles_length store r)]
      exact congrArg toLine h.symm
    rw [e, (left_unchanged store r h).1]
    exact compacted_pad _ _ (specCompact_ne_zero _)
  fixed := by
    intro r hf hd
    have h0 := hf 0
    have h1 := hf 1
    have h2 := hf 2
    have h3 := hf 3
    obtain ⟨d1, d2, d3⟩ := hd
    have e : leftTiles store r = toLine r := by
      simp [leftTiles, toLine, indices, chain, chainPush, h0, h1, h2, h3, d1, d2, d3]
    rw [newLeft, e, lineOf_toLine]
  merged := by
    intro r hf hd
    have h0 := hf 0
    have h1 := hf 1
    have h2 := hf 2
    have h3 := hf 3
    apply lineOf_short
    have hlen : (leftTiles store r).length = (chain store ([], 0) (toLine r)).1.length := by
      simp [leftTiles]
    rw [hlen]
    by_cases d1 : r 0 = r 1
    · have e : chain store ([], 0) (toLine r)
          = chain store ([store (r 0 * 2)], store (0 + store (r 0 * 2))) [r 2, r 3] := by
        simp [toLine, indices, chain, chainPush, h0, h1, d1.symm]
      rw [e]
      exact chain_length store [r 2, r 3] _
    · by_cases d2 : r 1 = r 2
      · have e : chain store ([], 0) (toLine r)
            = chain store ([store (r 1 * 2), r 0], store (0 + store (r 1 * 2))) [r 3] := by
          simp [toLine, indices, chain, chainPush, h0, h1, h2, d1, d2.symm]
        rw [e]
        exact chain_length store [r 3] _
      · have d3 : r 2 = r 3 := by
          by_contra d3
          exact hd ⟨d1, d2, d3⟩
        have e : chain store ([], 0) (toLine r)
            = ([store (r 2 * 2), r 1, r 0], store (0 + store (r 2 * 2))) := by
          simp [toLine, indices, chain, chainPush, h0, h1, h2, h3, d1, d2, d3.symm]
        rw [e]
        exact le_refl _

theorem tiles_upLine_le (store : Int → Int) (l : List Int) : tiles (upLine store l) ≤ tiles l := by
  unfold upLine
  rw [tiles_specPad, tiles_eq, tiles_eq l, specCompact_eq_self _ (specCompact_ne_zero _)]
  exact le_trans (specCompact_length_le _) (le_of_eq (onceMerge_length store _))

theorem upLine_full (store : Int → Int) (l : List Int) (h : ∀ x ∈ l, x ≠ 0) :
    upLine store l = specPad l.length (specCompact (onceMerge store l)) := by
  unfold upLine
  rw [specCompact_eq_self l h]

theorem lineOf_specPad_short (l : List Int) (h : l.length ≤ 3) :
    lineOf (specPad GRID_SIZE l) 3 = 0 := by
  rcases l with _ | ⟨w, _ | ⟨x, _ | ⟨y, _ | ⟨z, t⟩⟩⟩⟩
  · rfl
  · rfl
  · rfl
  · rfl
  · simp only [List.length_cons] at h
    omega

theorem lineOp_newUp (store : Int → Int) : LineOp (newUp store) where
  count_le := by
    intro r
    unfold newUp
    rw [toLine_lineOf_eq _ (by rw [upLine_length]; rfl)]
    exact tiles_upLine_le store _
  compacted := by
    intro r h
    have e : toLine r = upLine store (toLine r) := by
      rw [← toLine_lineOf_eq (upLine store (toLine r)) (by rw [upLine_length]; rfl)]
      exact congrArg toLine h.symm
    rw [e]
    exact upLine_compacted store _
  fixed := by
    intro r hf hd
    have h0 := hf 0
    have h1 := hf 1
    have h2 := hf 2
    have h3 := hf 3
    obtain ⟨d1, d2, d3⟩ := hd
    have e : upLine store (toLine r) = toLine r := by
      simp [upLine, specPad, specCompact, onceMerge, toLine, indices, h0, h1, h2, h3, d1, d2,
        d3]
    rw [newUp, e, lineOf_toLine]
  merged := by
    intro r hf hd
    have h0 := hf 0
    have h1 := hf 1
    have h2 := hf 2
    have h3 := hf 3
    have hfull : ∀ x ∈ toLine r, x ≠ 0 := by
      intro x hx
      obtain ⟨j, rfl⟩ := (mem_toLine r x).mp hx
      exact hf j
    unfold newUp
    rw [upLine_full store _ hfull]
    apply lineOf_specPad_short
    by_cases d1 : r 0 = r 1
    · have e : specCompact (onceMerge store (toLine r))
          = specCompact (store (r 0 * 2) :: 0 :: onceMerge store [r 2, r 3]) := by
        simp [toLine, indices, onceMerge, d1.symm]
      have hl := specCompact_length_le (onceMerge store [r 2, r 3])
      rw [onceMerge_length] at hl
      rw [e, specCompact_cons, specCompact_cons, if_pos rfl]
      split_ifs
      · simpa using le_trans hl (by simp)
      · simpa using hl
    · by_cases d2 : r 1 = r 2
      · have e : specCompact (onceMerge store (toLine r))
            = specCompact (r 0 :: store (r 1 * 2) :: 0 :: onceMerge store [r 3]) := by
          simp [toLine, indices, onceMerge, d1, d2.symm]
        have hl := specCompact_length_le (onceMerge store [r 3])
        rw [onceMerge_length] at hl
        rw [e, specCompact_cons, specCompact_cons, specCompact_cons, if_pos rfl, if_neg h0]
        split_ifs
        · simpa using le_trans hl (by simp)
        · simpa using hl
      · have d3 : r 2 = r 3 := by
          by_contra d3
          exact hd ⟨d1, d2, d3⟩
        have e : specCompact (onceMerge store (toLine r))
            = specCompact (r 0 :: r 1 :: store (r 2 * 2) :: 0 :: onceMerge store []) := by
          simp [toLine, indices, onceMerge, d1, d2, d3.symm]
        rw [e, specCompact_cons, specCompact_cons, specCompact_cons, specCompact_cons,
          if_pos rfl, if_neg h0, if_neg h1]
        split_ifs <;> simp [onceMerge, specCompact_nil]

/-! ## Lines read from either end, and boards line by line -/

theorem toLine_revLine (r : Row) : toLine (revLine r) = (toLine r).reverse := rfl

theorem tiles_revLine (r : Row) : tiles (toLine (revLine r)) = tiles (toLine r) := by
  rw [toLine_revLine, tiles, tiles, List.countP_reverse]

theorem full_revLine (r : Row) : Full (revLine r) ↔ Full r := by
  constructor
  · intro h j
    have := h (Fin.rev j)
    simpa [revLine] using this
  · intro h j
    exact h _

theorem adjDistinct_revLine (r : Row) : AdjDistinct (revLine r) ↔ AdjDistinct r := by
  have e0 : revLine r 0 = r 3 := rfl
  have e1 : revLine r 1 = r 2 := rfl
  have e2 : revLine r 2 = r 1 := rfl
  have e3 : revLine r 3 = r 0 := rfl
  unfold AdjDistinct
  rw [e0, e1, e2, e3]
  constructor
  · rintro ⟨a, b, c⟩
    exact ⟨Ne.symm c, Ne.symm b, Ne.symm a⟩
  · rintro ⟨a, b, c⟩
    exact ⟨Ne.symm c, Ne.symm b, Ne.symm a⟩

theorem LineOp.full_fixed {f : Row → Row} (hf : LineOp f) (r : Row) (h : Full (f r)) :
    f r = r := by
  have h1 := (full_iff_tiles (f r)).mp h
  have h2 := hf.count_le r
  have h3 := tiles_le_four r
  have hfull : Full r := (full_iff_tiles r).mpr (by omega)
  by_cases hd : AdjDistinct r
  · exact hf.fixed r hfull hd
  · exact absurd (hf.merged r hfull hd) (h 3)

theorem LineOp.adjDistinct_of_fixed {f : Row → Row} (hf : LineOp f) (r : Row) (h : f r = r)
    (hfull : Full r) : AdjDistinct r := by
  by_contra hd
  have := hf.merged r hfull hd
  rw [h] at this
  exact hfull 3 this

theorem conj_fixed_iff (f : Row → Row) (r : Row) : conj f r = r ↔ f (revLine r) = revLine r := by
  unfold conj
  rw [revLine_eq_iff]

theorem conj_count_le {f : Row → Row} (hf : LineOp f) (r : Row) :
    tiles (toLine (conj f r)) ≤ tiles (toLine r) := by
  unfold conj
  rw [tiles_revLine, ← tiles_revLine r]
  exact hf.count_le _

theorem conj_full_fixed {f : Row → Row} (hf : LineOp f) (r : Row) (h : Full (conj f r)) :
    conj f r = r := by
  rw [conj_fixed_iff]
  exact hf.full_fixed _ ((full_revLine _).mp h)

theorem conj_fixed {f : Row → Row} (hf : LineOp f) (r : Row) (hfull : Full r)
    (hd : AdjDistinct r) : conj f r = r := by
  rw [conj_fixed_iff]
  exact hf.fixed _ ((full_revLine r).mpr hfull) ((adjDistinct_revLine r).mpr hd)

theorem full_or_empty (r : Row) (h1 : Compacted (toLine r)) (h2 : Compacted (toLine (revLine r))) :
    Full r ∨ ∀ j, r j = 0 := by
  have e0 : revLine r 0 = r 3 := rfl
  have e1 : revLine r 1 = r 2 := rfl
  have e2 : revLine r 2 = r 1 := rfl
  have e3 : revLine r 3 = r 0 := rfl
  simp only [Compacted, toLine, indices, List.map_cons, List.map_nil, List.pairwise_cons,
    List.mem_cons, List.mem_singleton, List.not_mem_nil, forall_eq_or_imp, forall_eq,
    List.Pairwise.nil, and_true, e0, e1, e2, e3, IsEmpty.forall_iff, implies_true] at h1 h2
  by_cases z0 : r 0 = 0 <;> by_cases z1 : r 1 = 0 <;> by_cases z2 : r 2 = 0 <;>
    by_cases z3 : r 3 = 0 <;> simp_all [Full, forall_fin4] <;>
    first
    | (right; apply forall_fin4 <;> assumption)
    | (left; apply forall_fin4 <;> assumption)

theorem slide_left_board (store : Int → Int) (g : Game) :
    ∃ g1, slide store "left" g = some g1 ∧ g1.board = rowwise (newLeft store) g.board :=
  ⟨_, (slide_left store g).trans (moveLeft_some store g), rfl⟩

theorem slide_right_board (store : Int → Int) (g : Game) :
    ∃ g1, slide store "right" g = some g1 ∧ g1.board = rowwise (conj (newLeft store)) g.board :=
  ⟨_, (slide_right store g).trans (moveRight_some store g), rfl⟩

theorem slide_up_board (store : Int → Int) (g : Game) :
    ∃ g1, slide store "up" g = some g1 ∧ g1.board = colwise (newUp store) g.board :=
  ⟨_, (slide_up store g).trans (moveUp_some store g), rfl⟩

theorem slide_down_board (store : Int → Int) (g : Game) :
    ∃ g1, slide store "down" g = some g1 ∧ g1.board = colwise (conj (newUp store)) g.board :=
  ⟨_, (slide_down store g).trans (moveDown_some store g), rfl⟩

theorem tileCount_columns (b : Board) :
    tileCount b = (indices.map fun c => tiles (toLine (column b c))).sum := by
  simp only [tileCount, tiles, toLine, column, indices, List.map_cons, List.map_nil,
    List.sum_cons, List.sum_nil, List.countP_cons, List.countP_nil]
  omega

theorem tileCount_rowwise (f : Row → Row) (b : Board)
    (hf : ∀ r, tiles (toLine (f r)) ≤ tiles (toLine r)) :
    tileCount (rowwise f b) ≤ tileCount b := by
  have h0 := hf (b 0)
  have h1 := hf (b 1)
  have h2 := hf (b 2)
  have h3 := hf (b 3)
  simp only [tileCount, rowwise, indices, List.map_cons, List.map_nil, List.sum_cons,
    List.sum_nil]
  omega

theorem column_colwise (f : Row → Row) (b : Board) (c : Fin GRID_SIZE) :
    column (colwise f b) c = f (column b c) := rfl

theorem tileCount_colwise (f : Row → Row) (b : Board)
    (hf : ∀ r, tiles (toLine (f r)) ≤ tiles (toLine r)) :
    tileCount (colwise f b) ≤ tileCount b := by
  have h0 := hf (column b 0)
  have h1 := hf (column b 1)
  have h2 := hf (column b 2)
  have h3 := hf (column b 3)
  rw [tileCount_columns, tileCount_columns]
  simp only [column_colwise, indices, List.map_cons, List.map_nil, List.sum_cons, List.sum_nil]
  omega

theorem rowwise_full_fixed (f : Row → Row) (b : Board) (hf : ∀ r, Full (f r) → f r = r)
    (h : ∀ i j, rowwise f b i j ≠ 0) : rowwise f b = b := by
  funext i
  exact hf (b i) (fun j => h i j)

theorem colwise_full_fixed (f : Row → Row) (b : Board) (hf : ∀ r, Full (f r) → f r = r)
    (h : ∀ i j, colwise f b i j ≠ 0) : colwise f b = b := by
  funext r c
  have := hf (column b c) (fun j => h j c)
  exact congrFun this r

theorem boardSum_columns (b : Board) :
    boardSum b = (indices.map fun c => (toLine (column b c)).sum).sum := by
  simp only [boardSum, toLine, column, indices, List.map_cons, List.map_nil, List.sum_cons,
    List.sum_nil]
  omega

theorem toLine_revLine_sum (r : Row) : (toLine (revLine r)).sum = (toLine r).sum := by
  have h0 : Fin.rev (0 : Fin GRID_SIZE) = 3 := rfl
  have h1 : Fin.rev (1 : Fin GRID_SIZE) = 2 := rfl
  have h2 : Fin.rev (2 : Fin GRID_SIZE) = 1 := rfl
  have h3 : Fin.rev (3 : Fin GRID_SIZE) = 0 := rfl
  simp only [toLine, revLine, indices, List.map_cons, List.map_nil, List.sum_cons, List.sum_nil,
    h0, h1, h2, h3]
  omega


theorem boardSum_congr (n : Int) (b b' : Board)
    (h : ∀ i, (toLine (b' i)).sum ≡ (toLine (b i)).sum [ZMOD n]) :
    boardSum b' ≡ boardSum b [ZMOD n] := by
  simp only [boardSum, indices, List.map_cons, List.map_nil, List.sum_cons, List.sum_nil]
  exact (h 0).add ((h 1).add ((h 2).add ((h 3).add (Int.ModEq.refl 0))))

theorem boardSum_congr_columns (n : Int) (b b' : Board)
    (h : ∀ c, (toLine (column b' c)).sum ≡ (toLine (column b c)).sum [ZMOD n]) :
    boardSum b' ≡ boardSum b [ZMOD n] := by
  simp only [boardSum_columns, indices, List.map_cons, List.map_nil, List.sum_cons, List.sum_nil]
  exact (h 0).add ((h 1).add ((h 2).add ((h 3).add (Int.ModEq.refl 0))))

theorem newLeft_sum (store : Int → Int) (n : Int) (hs : ∀ x, store x ≡ x [ZMOD n]) (r : Row) :
    (toLine (newLeft store r)).sum ≡ (toLine r).sum [ZMOD n] := by
  unfold newLeft
  rw [toLine_lineOf _ (leftTiles_length store r), specPad_sum]
  exact leftTiles_sum store n hs r

theorem newUp_sum (store : Int → Int) (n : Int) (hs : ∀ x, store x ≡ x [ZMOD n]) (r : Row) :
    (toLine (newUp store r)).sum ≡ (toLine r).sum [ZMOD n] := by
  unfold newUp
  rw [toLine_lineOf_eq _ (by rw [upLine_length]; rfl)]
  exact upLine_sum store n hs _

theorem conj_sum (n : Int) (f : Row → Row)
    (hf : ∀ r, (toLine (f r)).sum ≡ (toLine r).sum [ZMOD n]) (r : Row) :
    (toLine (conj f r)).sum ≡ (toLine r).sum [ZMOD n] := by
  unfold conj
  rw [toLine_revLine_sum, ← toLine_revLine_sum r]
  exact hf _

theorem slide_shape (store : Int → Int) (n : Int) (hs : ∀ x, store x ≡ x [ZMOD n])
    (direction : String) (g : Game) :
    ∃ g1, slide store direction g = some g1 ∧
      (g1.board = g.board ∨
        ∃ f : Row → Row, (∀ r, tiles (toLine (f r)) ≤ tiles (toLine r)) ∧
          (∀ r, Full (f r) → f r = r) ∧
          (∀ r, (toLine (f r)).sum ≡ (toLine r).sum [ZMOD n]) ∧
          (g1.board = rowwise f g.board ∨ g1.board = colwise f g.board)) := by
  unfold slide
  split_ifs
  · exact ⟨_, moveUp_some store g, Or.inr ⟨newUp store, (lineOp_newUp store).count_le,
      (lineOp_newUp store).full_fixed, newUp_sum store n hs, Or.inr rfl⟩⟩
  · exact ⟨_, moveDown_some store g, Or.inr ⟨conj (newUp store),
      conj_count_le (lineOp_newUp store), conj_full_fixed (lineOp_newUp store),
      conj_sum n (newUp store) (newUp_sum store n hs), Or.inr rfl⟩⟩
  · exact ⟨_, moveLeft_some store g, Or.inr ⟨newLeft store, (lineOp_newLeft store).count_le,
      (lineOp_newLeft store).full_fixed, newLeft_sum store n hs, Or.inl rfl⟩⟩
  · exact ⟨_, moveRight_some store g, Or.inr ⟨conj (newLeft store),
      conj_count_le (lineOp_newLeft store), conj_full_fixed (lineOp_newLeft store),
      conj_sum n (newLeft store) (newLeft_sum store n hs), Or.inl rfl⟩⟩
  · exact ⟨g, rfl, Or.inl rfl⟩

theorem slide_boardSum (store : Int → Int) (n : Int) (hs : ∀ x, store x ≡ x [ZMOD n])
    (direction : String) (g g1 : Game) (h : slide store direction g = some g1) :
    boardSum g1.board ≡ boardSum g.board [ZMOD n] := by
  obtain ⟨g2, h2, hshape⟩ := slide_shape store n hs direction g
  rw [h] at h2
  have e := Option.some.inj h2
  subst e
  rcases hshape with e | ⟨f, -, -, hs, e | e⟩
  · rw [e]
  · rw [e]
    exact boardSum_congr n _ _ fun i => hs (g.board i)
  · rw [e]
    exact boardSum_congr_columns n _ _ fun c => hs (column g.board c)

theorem slide_boardSum_id (direction : String) (g g1 : Game)
    (h : slide id direction g = some g1) : boardSum g1.board = boardSum g.board :=
  Int.modEq_zero_iff.mp (slide_boardSum id 0 (id_modEq 0) direction g g1 h)


theorem boardSum_setCell (g : Game) (pos : Fin GRID_SIZE × Fin GRID_SIZE) (v : Int)
    (h : g.board pos.1 pos.2 = 0) :
    boardSum (setCell g pos v).board = boardSum g.board + v := by
  rcases pos with ⟨i, j⟩
  revert h
  revert j
  revert i
  apply forall_fin4 <;> apply forall_fin4 <;> intro h <;>
    simp only [] at h <;>
    simp [boardSum, toLine, indices, setCell, h] <;>
    omega

theorem tileCount_setCell (g : Game) (pos : Fin GRID_SIZE × Fin GRID_SIZE) (v : Int)
    (h : g.board pos.1 pos.2 = 0) (hv : v ≠ 0) :
    tileCount (setCell g pos v).board = tileCount g.board + 1 := by
  rcases pos with ⟨i, j⟩
  revert h
  revert j
  revert i
  apply forall_fin4 <;> apply forall_fin4 <;> intro h <;>
    simp only [] at h <;>
    simp [tileCount, tiles, toLine, indices, setCell, List.countP_cons, h, hv] <;>
    omega


/-- C17: for every grid (so for those whose cells are 0 or powers of two), every direction
string and every outcome of the random source, whatever the width of the integers (`store`,
so for the 64-bit program `wrap64`), the slide/merge step of `Move` returns a
grid with at most as many non-zero cells as before; and if that grid differs from the grid
before, it has an empty cell, so that the `AddRandomTile` call of `Move` is not a no-op:
it changes exactly one cell, from 0 to 2 or 4, and the number of non-zero cells grows by
one. -/
theorem slide_never_adds_tiles (store : Int → Int) (direction : String) (g : Game) (rnd : Rand) :
    ∃ g1, slide store direction g = some g1 ∧ tileCount g1.board ≤ tileCount g.board ∧
      ((∃ i j, g1.board i j ≠ g.board i j) →
        (∃ i j, g1.board i j = 0) ∧
        ∃ g' i j, AddRandomTile g1 rnd = some g' ∧ Move store direction g rnd = some g' ∧
          g1.board i j = 0 ∧ (g'.board i j = 2 ∨ g'.board i j = 4) ∧
          (∀ a b, (a ≠ i ∨ b ≠ j) → g'.board a b = g1.board a b) ∧
          tileCount g'.board = tileCount g1.board + 1) := by
  obtain ⟨g1, h1, hshape⟩ := slide_shape store 1 (fun _ => Int.modEq_one) direction g
  refine ⟨g1, h1, ?_, ?_⟩
  · rcases hshape with e | ⟨f, hc, -, -, e | e⟩
    · rw [e]
    · rw [e]
      exact tileCount_rowwise f g.board hc
    · rw [e]
      exact tileCount_colwise f g.board hc
  · rintro ⟨i, j, hij⟩
    have hempty : ∃ i j, g1.board i j = 0 := by
      by_contra hne
      have hfull : ∀ i j, g1.board i j ≠ 0 := fun a b e => hne ⟨a, b, e⟩
      rcases hshape with e | ⟨f, -, hf, -, e | e⟩
      · exact hij (by rw [e])
      · rw [e] at hfull
        rw [e, rowwise_full_fixed f g.board hf hfull] at hij
        exact hij rfl
      · rw [e] at hfull
        rw [e, colwise_full_fixed f g.board hf hfull] at hij
        exact hij rfl
    refine ⟨hempty, ?_⟩
    obtain ⟨pos, hpos, -, hadd⟩ := AddRandomTile_spawn g1 rnd hempty
    have hv : (if rnd.small then (2 : Int) else 4) ≠ 0 := by
      cases rnd.small <;> simp
    refine ⟨_, pos.1, pos.2, hadd, ?_, hpos, ?_, ?_, tileCount_setCell g1 pos _ hpos hv⟩
    · rw [Move_of_slide store direction g g1 rnd h1, if_neg, hadd]
      intro e
      exact hij (e i j).symm
    · rw [setCell_board, if_pos ⟨rfl, rfl⟩]
      cases rnd.small <;> simp
    · intro a b hab
      rw [setCell_board, if_neg]
      tauto


/-- C9: for every grid, cell values being unbounded integers (`store` is `id`), and each of
the four directions, the slide/merge step of `Move` returns a grid whose sixteen cells have
the same sum as the cells of the grid before. -/
theorem slide_preserves_boardSum (g : Game) :
    (∃ g', slide id "left" g = some g' ∧ boardSum g'.board = boardSum g.board) ∧
      (∃ g', slide id "right" g = some g' ∧ boardSum g'.board = boardSum g.board) ∧
      (∃ g', slide id "up" g = some g' ∧ boardSum g'.board = boardSum g.board) ∧
      (∃ g', slide id "down" g = some g' ∧ boardSum g'.board = boardSum g.board) := by
  obtain ⟨gl, hl⟩ := slide_total id "left" g
  obtain ⟨gr, hr⟩ := slide_total id "right" g
  obtain ⟨gu, hu⟩ := slide_total id "up" g
  obtain ⟨gd, hd⟩ := slide_total id "down" g
  exact ⟨⟨gl, hl, slide_boardSum_id _ g gl hl⟩, ⟨gr, hr, slide_boardSum_id _ g gr hr⟩,
    ⟨gu, hu, slide_boardSum_id _ g gu hu⟩, ⟨gd, hd, slide_boardSum_id _ g gd hd⟩⟩

/-! ## Game over and the absence of a move -/

theorem adjDistinct_iff (r : Row) : AdjDistinct r ↔ ∀ j : Fin 3, r j.castSucc ≠ r j.succ := by
  constructor
  · rintro ⟨a, b, c⟩ j
    fin_cases j
    · exact a
    · exact b
    · exact c
  · intro h
    exact ⟨h 0, h 1, h 2⟩

theorem adjDistinct_column_iff (b : Board) (c : Fin GRID_SIZE) :
    AdjDistinct (column b c) ↔ ∀ i : Fin 3, b i.castSucc c ≠ b i.succ c :=
  adjDistinct_iff (column b c)

theorem gameOver_iff_lines (g : Game) :
    (IsGameOver g).1 = true ↔
      (∀ i, Full (g.board i)) ∧ (∀ i, AdjDistinct (g.board i)) ∧
        ∀ c, AdjDistinct (column g.board c) := by
  rw [isGameOver_eq_true_iff]
  constructor
  · rintro ⟨h1, h2, h3⟩
    exact ⟨fun i j => h1 i j, fun i => (adjDistinct_iff _).mpr (h2 i),
      fun c => (adjDistinct_column_iff _ c).mpr fun i => h3 i c⟩
  · rintro ⟨h1, h2, h3⟩
    exact ⟨fun i j => h1 i j, fun i => (adjDistinct_iff _).mp (h2 i),
      fun i c => (adjDistinct_column_iff _ c).mp (h3 c) i⟩


theorem stuck_of_lines (store : Int → Int) (b : Board) (h1 : ∀ i, Full (b i))
    (h2 : ∀ i, AdjDistinct (b i)) (h3 : ∀ c, AdjDistinct (column b c)) :
    rowwise (newLeft store) b = b ∧ rowwise (conj (newLeft store)) b = b ∧
      colwise (newUp store) b = b ∧ colwise (conj (newUp store)) b = b := by
  have hcol : ∀ c, Full (column b c) := fun c i => h1 i c
  refine ⟨?_, ?_, ?_, ?_⟩
  · funext i
    exact (lineOp_newLeft store).fixed (b i) (h1 i) (h2 i)
  · funext i
    exact conj_fixed (lineOp_newLeft store) (b i) (h1 i) (h2 i)
  · funext r c
    exact congrFun ((lineOp_newUp store).fixed (column b c) (hcol c) (h3 c)) r
  · funext r c
    exact congrFun (conj_fixed (lineOp_newUp store) (column b c) (hcol c) (h3 c)) r

theorem line_full_or_empty {f : Row → Row} (hf : LineOp f) (r : Row) (h1 : f r = r)
    (h2 : conj f r = r) : Full r ∨ ∀ j, r j = 0 :=
  full_or_empty r (hf.compacted r h1)
    (hf.compacted (revLine r) ((conj_fixed_iff f r).mp h2))

theorem lines_of_stuck (store : Int → Int) (b : Board) (ht : ∃ i j, b i j ≠ 0)
    (hl : rowwise (newLeft store) b = b) (hr : rowwise (conj (newLeft store)) b = b)
    (hu : colwise (newUp store) b = b) (hd : colwise (conj (newUp store)) b = b) :
    (∀ i, Full (b i)) ∧ (∀ i, AdjDistinct (b i)) ∧ ∀ c, AdjDistinct (column b c) := by
  have hl' : ∀ i, newLeft store (b i) = b i := fun i => congrFun hl i
  have hr' : ∀ i, conj (newLeft store) (b i) = b i := fun i => congrFun hr i
  have hu' : ∀ c, newUp store (column b c) = column b c := by
    intro c
    funext r
    exact congrFun (congrFun hu r) c
  have hd' : ∀ c, conj (newUp store) (column b c) = column b c := by
    intro c
    funext r
    exact congrFun (congrFun hd r) c
  obtain ⟨i0, j0, h0⟩ := ht
  have hrow0 : Full (b i0) := by
    rcases line_full_or_empty (lineOp_newLeft store) (b i0) (hl' i0) (hr' i0) with h | h
    · exact h
    · exact absurd (h j0) h0
  have hcol : ∀ c, Full (column b c) := by
    intro c
    rcases line_full_or_empty (lineOp_newUp store) (column b c) (hu' c) (hd' c) with h | h
    · exact h
    · exact absurd (h i0) (hrow0 c)
  have hrow : ∀ i, Full (b i) := fun i j => hcol j i
  exact ⟨hrow, fun i => (lineOp_newLeft store).adjDistinct_of_fixed (b i) (hl' i) (hrow i),
    fun c => (lineOp_newUp store).adjDistinct_of_fixed (column b c) (hu' c) (hcol c)⟩

theorem slide_changed_empty (store : Int → Int) (direction : String) (g g1 : Game)
    (h1 : slide store direction g = some g1) (hne : g1.board ≠ g.board) :
    ∃ i j, g1.board i j = 0 := by
  obtain ⟨g2, h2, hshape⟩ := slide_shape store 1 (fun _ => Int.modEq_one) direction g
  rw [h1] at h2
  have e := Option.some.inj h2
  subst e
  by_contra hcon
  have hfull : ∀ i j, g1.board i j ≠ 0 := fun a b e => hcon ⟨a, b, e⟩
  rcases hshape with e | ⟨f, -, hf, -, e | e⟩
  · exact hne e
  · rw [e] at hfull
    exact hne (by rw [e, rowwise_full_fixed f g.board hf hfull])
  · rw [e] at hfull
    exact hne (by rw [e, colwise_full_fixed f g.board hf hfull])

theorem Move_unchanged_iff (store : Int → Int) (n : Int) (hs : ∀ x, store x ≡ x [ZMOD n])
    (h2 : ¬ (2 : Int) ≡ 0 [ZMOD n]) (h4 : ¬ (4 : Int) ≡ 0 [ZMOD n])
    (direction : String) (g : Game) (rnd : Rand) :
    (∃ g', Move store direction g rnd = some g' ∧ g'.board = g.board) ↔
      ∃ g1, slide store direction g = some g1 ∧ g1.board = g.board := by
  obtain ⟨g1, h1⟩ := slide_total store direction g
  constructor
  · rintro ⟨g', hm, hb⟩
    refine ⟨g1, h1, ?_⟩
    by_contra hne
    obtain ⟨pos, hpos, -, hadd⟩ := AddRandomTile_spawn g1 rnd
      (slide_changed_empty store direction g g1 h1 hne)
    rw [Move_of_slide store direction g g1 rnd h1, if_neg, hadd] at hm
    · have e := Option.some.inj hm
      have hsum := boardSum_setCell g1 pos (if rnd.small then 2 else 4) hpos
      rw [e, hb] at hsum
      have hmod := slide_boardSum store n hs direction g g1 h1
      have hv : (if rnd.small then (2 : Int) else 4) ≡ 0 [ZMOD n] := by
        have h5 : boardSum g1.board + (if rnd.small then (2 : Int) else 4)
            ≡ boardSum g1.board + 0 [ZMOD n] := by
          rw [← hsum, add_zero]
          exact hmod.symm
        exact Int.ModEq.add_left_cancel' _ h5
      cases hsmall : rnd.small
      · rw [hsmall] at hv
        exact h4 (by simpa using hv)
      · rw [hsmall] at hv
        exact h2 (by simpa using hv)
    · intro e
      exact hne (funext fun i => funext fun j => (e i j).symm)
  · rintro ⟨g2, h2, hb⟩
    rw [h1] at h2
    have e := Option.some.inj h2
    subst e
    refine ⟨g1, ?_, hb⟩
    rw [Move_of_slide store direction g g1 rnd h1, if_pos]
    intro i j
    rw [hb]

theorem unchanged_iff_of_board {store : Int → Int} {direction : String} {g : Game} {B : Board}
    (h : ∃ g1, slide store direction g = some g1 ∧ g1.board = B) :
    (∃ g1, slide store direction g = some g1 ∧ g1.board = g.board) ↔ B = g.board := by
  obtain ⟨g1, h1, e⟩ := h
  constructor
  · rintro ⟨g2, h2, hb⟩
    rw [h1] at h2
    have e2 := Option.some.inj h2
    subst e2
    rw [← e]
    exact hb
  · intro hh
    exact ⟨g1, h1, e.trans hh⟩

theorem stuck_iff (store : Int → Int) (g : Game) :
    (∀ d ∈ directions, ∃ g1, slide store d g = some g1 ∧ g1.board = g.board) ↔
      rowwise (newLeft store) g.board = g.board ∧
        rowwise (conj (newLeft store)) g.board = g.board ∧
        colwise (newUp store) g.board = g.board ∧
        colwise (conj (newUp store)) g.board = g.board := by
  simp only [directions, List.mem_cons, List.mem_singleton, List.not_mem_nil, or_false,
    forall_eq_or_imp, forall_eq]
  rw [unchanged_iff_of_board (slide_up_board store g),
    unchanged_iff_of_board (slide_down_board store g),
    unchanged_iff_of_board (slide_left_board store g),
    unchanged_iff_of_board (slide_right_board store g)]
  tauto

theorem gameOver_iff_stuck (store : Int → Int) (g : Game) (h : ∃ i j, g.board i j ≠ 0) :
    (IsGameOver g).1 = true ↔
      ∀ d ∈ directions, ∃ g1, slide store d g = some g1 ∧ g1.board = g.board := by
  rw [stuck_iff, gameOver_iff_lines]
  constructor
  · rintro ⟨h1, h2, h3⟩
    exact stuck_of_lines store g.board h1 h2 h3
  · rintro ⟨hl, hr, hu, hd⟩
    exact lines_of_stuck store g.board h hl hr hu hd

theorem store_modEq (store : Int → Int) (hstore : store = wrap64 ∨ store = id) :
    ∃ n : Int, (∀ x, store x ≡ x [ZMOD n]) ∧ ¬ (2 : Int) ≡ 0 [ZMOD n] ∧
      ¬ (4 : Int) ≡ 0 [ZMOD n] := by
  rcases hstore with e | e
  · subst e
    exact ⟨18446744073709551616, wrap64_modEq, by decide, by decide⟩
  · subst e
    exact ⟨0, id_modEq 0, by decide, by decide⟩

/-- C14: for the 64-bit program (`store` is `wrap64`) as for unbounded integers (`store` is
`id`), and for every grid that holds at least one non-zero tile (so for such grids of zeros
and powers of two), `IsGameOver` returns true if and only if the slide/merge step of each
of the four directions returns the grid unchanged, if and only if `Move` in each of the four
directions, for every outcome of the random source, returns the grid unchanged; and when
`IsGameOver` returns false, the slide/merge step of at least one direction changes the
grid. -/
theorem IsGameOver_iff_no_move (store : Int → Int) (hstore : store = wrap64 ∨ store = id)
    (g : Game) (h : ∃ i j, g.board i j ≠ 0) :
    ((IsGameOver g).1 = true ↔
        ∀ d ∈ directions, ∃ g1, slide store d g = some g1 ∧ g1.board = g.board) ∧
      ((IsGameOver g).1 = true ↔
        ∀ d ∈ directions, ∀ rnd,
          ∃ g', Move store d g rnd = some g' ∧ g'.board = g.board) ∧
      ((IsGameOver g).1 = false →
        ∃ d ∈ directions, ∃ g1, slide store d g = some g1 ∧ g1.board ≠ g.board) := by
  have key := gameOver_iff_stuck store g h
  obtain ⟨n, hs, h2, h4⟩ := store_modEq store hstore
  refine ⟨key, ?_, ?_⟩
  · rw [key]
    constructor
    · intro hst d hd rnd
      exact (Move_unchanged_iff store n hs h2 h4 d g rnd).mpr (hst d hd)
    · intro hm d hd
      exact (Move_unchanged_iff store n hs h2 h4 d g { draw := 0, small := true }).mp
        (hm d hd _)
  · intro hfalse
    have hns : ¬ ∀ d ∈ directions, ∃ g1, slide store d g = some g1 ∧ g1.board = g.board := by
      rw [← key, hfalse]
      exact Bool.false_ne_true
    push_neg at hns
    obtain ⟨d, hd, hne⟩ := hns
    obtain ⟨g1, h1⟩ := slide_total store d g
    exact ⟨d, hd, g1, h1, hne g1 h1⟩

/-- C14 on the checkerboard of 2s and 4s, for the 64-bit program: the game is over and no
slide changes the grid. -/
theorem IsGameOver_iff_no_move_witness :
    (wrap64 = wrap64 ∨ wrap64 = id) ∧ (∃ i j, checkerBoard i j ≠ 0) ∧
      ∀ d ∈ directions, ∃ g1, slide wrap64 d { board := checkerBoard, score := 0 } = some g1 ∧
        g1.board = checkerBoard :=
  ⟨Or.inl rfl, ⟨0, 0, by decide⟩,
    (IsGameOver_iff_no_move wrap64 (Or.inl rfl) { board := checkerBoard, score := 0 }
      ⟨0, 0, by decide⟩).1.mp (by decide)⟩

/-! ## Right as mirrored left -/

theorem chainPush_eq (store : Int → Int) (stk : List Int) (s x : Int) :
    chainPush store (stk, s) x = ((chainPush store (stk, 0) x).1,
      (if x ≠ 0 ∧ stk.head? = some x then [store (x * 2)] else []).foldl
        (fun s a => store (s + a)) s) := by
  unfold chainPush
  by_cases hx : x = 0
  · simp [hx]
  · rcases stk with _ | ⟨top, rest⟩
    · simp [hx]
    · by_cases ht : top = x
      · subst ht
        simp [hx]
      · simp [hx, ht]

theorem chain_snd (store : Int → Int) (l : List Int) (stk : List Int) (s : Int) :
    (chain store (stk, s) l).2 =
      (chainGains store stk l).foldl (fun s a => store (s + a)) s := by
  induction l generalizing stk s with
  | nil => rfl
  | cons x t ih =>
    have e : chain store (stk, s) (x :: t) = chain store (chainPush store (stk, s) x) t := rfl
    rw [e, chainPush_eq, ih, chainGains, List.foldl_append]

theorem foldl_swap {α β : Type} (op : β → α → β)
    (hc : ∀ s a b, op (op s a) b = op (op s b) a) (l : List α) (s : β) (a : α) :
    l.foldl op (op s a) = op (l.foldl op s) a := by
  induction l generalizing s with
  | nil => rfl
  | cons b t ih => rw [List.foldl_cons, List.foldl_cons, hc, ih]

theorem foldl_comm {α β : Type} (op : β → α → β)
    (hc : ∀ s a b, op (op s a) b = op (op s b) a) (l l' : List α) (s : β) :
    l.foldl op (l'.foldl op s) = l'.foldl op (l.foldl op s) := by
  induction l generalizing s with
  | nil => rfl
  | cons b t ih =>
    rw [List.foldl_cons, List.foldl_cons, ← ih (op s b), foldl_swap op hc l' s b]

theorem leftScore_comm (store : Int → Int)
    (hc : ∀ s a b, store (store (s + a) + b) = store (store (s + b) + a)) (r r' : Row)
    (s : Int) :
    leftScore store r (leftScore store r' s) = leftScore store r' (leftScore store r s) := by
  simp only [leftScore, chain_snd]
  exact foldl_comm _ hc _ _ s

theorem store_comm (store : Int → Int) (hstore : store = wrap64 ∨ store = id) :
    ∀ s a b, store (store (s + a) + b) = store (store (s + b) + a) := by
  rcases hstore with e | e
  · subst e
    exact wrap64_comm
  · subst e
    intro s a b
    simp only [id]
    omega

/-- C16: for the 64-bit program (`store` is `wrap64`) as for unbounded integers (`store` is
`id`), and for every grid, `moveRight` and `moveLeft` return; row `i` of the grid after
`moveRight` is the reverse of the row that the loop body of `moveLeft` makes of the
reversed old row `i` (so also of row `i` of `moveLeft` on the grid with every row reversed),
and `moveRight` adds to the score what `moveLeft` adds on the grid with every row reversed. -/
theorem moveRight_is_mirrored_moveLeft (store : Int → Int)
    (hstore : store = wrap64 ∨ store = id) (g : Game) :
    ∃ gR gL, moveRight store g = some gR ∧ moveLeft store (mirror g) = some gL ∧
      (∀ i, ∃ row' s', moveLeftRow store (revLine (g.board i)) g.score = some (row', s') ∧
        gR.board i = revLine row' ∧ gL.board i = row') ∧
      gR.score - g.score = gL.score - (mirror g).score := by
  refine ⟨_, _, moveRight_some store g, moveLeft_some store (mirror g), ?_, ?_⟩
  · intro i
    exact ⟨_, _, moveLeftRow_some store _ _, rfl, rfl⟩
  · have hc := leftScore_comm store (store_comm store hstore)
    simp only [mirror]
    rw [hc (revLine (g.board 2)) (revLine (g.board 3)),
      hc (revLine (g.board 1)) (revLine (g.board 3)),
      hc (revLine (g.board 0)) (revLine (g.board 3)),
      hc (revLine (g.board 1)) (revLine (g.board 2)),
      hc (revLine (g.board 0)) (revLine (g.board 2)),
      hc (revLine (g.board 0)) (revLine (g.board 1))]

/-- C16 for the 64-bit program on the grid whose first row is `[2,2,4,4]`: `moveRight` makes
`[0,0,4,8]` of it and adds 12 to the score, as `moveLeft` does on the row `[4,4,2,2]`. -/
theorem moveRight_is_mirrored_moveLeft_witness :
    (wrap64 = wrap64 ∨ wrap64 = id) ∧
      ∃ gR gL, moveRight wrap64 { board := rowBoard 2 2 4 4, score := 0 } = some gR ∧
        moveLeft wrap64 (mirror { board := rowBoard 2 2 4 4, score := 0 }) = some gL ∧
        (∀ i, ∃ row' s',
          moveLeftRow wrap64 (revLine (rowBoard 2 2 4 4 i)) 0 = some (row', s') ∧
          gR.board i = revLine row' ∧ gL.board i = row') ∧
        gR.score - 0 = gL.score - 0 :=
  ⟨Or.inl rfl,
    moveRight_is_mirrored_moveLeft wrap64 (Or.inl rfl) { board := rowBoard 2 2 4 4, score := 0 }⟩

/-! ## The tile invariant over unbounded integers -/

theorem isTile_double {v : Int} (h : IsTile v) : IsTile (v * 2) := by
  obtain ⟨k, hk, rfl⟩ := h
  exact ⟨k + 1, by omega, by rw [pow_succ]⟩

theorem lineOf_mem (l : List Int) (k : Fin GRID_SIZE) : lineOf l k = 0 ∨ lineOf l k ∈ l := by
  unfold lineOf
  rw [List.getD_eq_getElem?_getD]
  by_cases hk : k.val < l.length
  · rw [List.getElem?_eq_getElem hk]
    exact Or.inr (List.getElem_mem _)
  · rw [List.getElem?_eq_none (by omega)]
    exact Or.inl rfl

theorem chainPush_tiles (acc : List Int × Int) (x : Int) (h : ∀ y ∈ acc.1, IsTile y)
    (hx : x = 0 ∨ IsTile x) : ∀ y ∈ (chainPush id acc x).1, IsTile y := by
  rcases acc with ⟨stk, s⟩
  unfold chainPush
  by_cases h0 : x = 0
  · rw [if_pos h0]
    exact h
  · rw [if_neg h0]
    have hx' : IsTile x := hx.resolve_left h0
    rcases stk with _ | ⟨top, rest⟩
    · intro y hy
      rw [List.mem_singleton.mp hy]
      exact hx'
    · have h1 : IsTile top := h top (List.mem_cons_self _ _)
      have h2 : ∀ y ∈ rest, IsTile y := fun y hy => h y (List.mem_cons_of_mem _ hy)
      by_cases ht : top = x
      · simp only [ht, if_true]
        intro y hy
        rcases List.mem_cons.mp hy with e | e
        · rw [e]
          exact isTile_double hx'
        · exact h2 y e
      · simp only [ht, if_false]
        intro y hy
        rcases List.mem_cons.mp hy with e | e
        · rw [e]
          exact hx'
        · exact h y e

theorem chain_tiles (l : List Int) (acc : List Int × Int) (h : ∀ y ∈ acc.1, IsTile y)
    (hl : ∀ x ∈ l, x = 0 ∨ IsTile x) : ∀ y ∈ (chain id acc l).1, IsTile y := by
  induction l generalizing acc with
  | nil => simpa [chain] using h
  | cons x t ih =>
    exact ih (chainPush id acc x)
      (chainPush_tiles acc x h (hl x (List.mem_cons_self _ _)))
      (fun y hy => hl y (List.mem_cons_of_mem _ hy))

theorem leftLine_valid (r : Row) (h : ∀ j, r j = 0 ∨ IsTile (r j)) (k : Fin GRID_SIZE) :
    lineOf (leftTiles id r) k = 0 ∨ IsTile (lineOf (leftTiles id r) k) := by
  rcases lineOf_mem (leftTiles id r) k with e | e
  · exact Or.inl e
  · right
    refine chain_tiles (toLine r) ([], 0) (by simp) ?_ _ (by simpa [leftTiles] using e)
    intro x hx
    obtain ⟨j, rfl⟩ := (mem_toLine r x).mp hx
    exact h j

theorem specMerge_tiles (l : List Int) (h : ∀ x ∈ l, IsTile x) :
    ∀ y ∈ (specMerge l).1, y = 0 ∨ IsTile y := by
  induction l using specMerge.induct with
  | case1 => simp [specMerge]
  | case2 a =>
    intro y hy
    exact Or.inr (h y (by simpa [specMerge] using hy))
  | case3 a rest ih =>
    simp only [List.mem_cons, forall_eq_or_imp] at h
    simp only [specMerge, if_true, List.mem_cons, forall_eq_or_imp]
    exact ⟨Or.inr (isTile_double h.1), Or.inl trivial, ih h.2.2⟩
  | case4 a b rest hab ih =>
    simp only [List.mem_cons, forall_eq_or_imp] at h
    simp only [specMerge, hab, if_false, List.mem_cons, forall_eq_or_imp]
    exact ⟨Or.inr h.1, ih (by simpa using h.2)⟩

theorem specLine_valid (r : Row) (h : ∀ j, r j = 0 ∨ IsTile (r j)) (k : Fin GRID_SIZE) :
    lineOf (specLine (toLine r)) k = 0 ∨ IsTile (lineOf (specLine (toLine r)) k) := by
  rcases lineOf_mem (specLine (toLine r)) k with e | e
  · exact Or.inl e
  · simp only [specLine, specPad, List.mem_append, List.mem_replicate] at e
    rcases e with e | e
    · unfold specCompact at e
      refine specMerge_tiles (specCompact (toLine r)) ?_ _ (List.mem_filter.mp e).1
      intro x hx
      unfold specCompact at hx
      obtain ⟨hx1, hx2⟩ := List.mem_filter.mp hx
      obtain ⟨j, rfl⟩ := (mem_toLine r x).mp hx1
      exact (h j).resolve_left (by simpa using hx2)
    · exact Or.inl e.2

theorem slide_valid (direction : String) (g : Game) (h : ValidBoard g.board) :
    ∃ g1, slide id direction g = some g1 ∧ ValidBoard g1.board := by
  unfold slide
  split_ifs
  · have hu := moveUp_some id g
    simp only [upLine_id] at hu
    exact ⟨_, hu, fun i j => specLine_valid (column g.board j) (fun r => h r j) i⟩
  · have hd := moveDown_some id g
    simp only [upLine_id] at hd
    exact ⟨_, hd, fun i j => specLine_valid (revLine (column g.board j)) (fun r => h _ j) _⟩
  · exact ⟨_, moveLeft_some id g, fun i j => leftLine_valid (g.board i) (h i) j⟩
  · exact ⟨_, moveRight_some id g,
      fun i j => leftLine_valid (revLine (g.board i)) (fun k => h i _) _⟩
  · exact ⟨g, rfl, h⟩

theorem AddRandomTile_valid (g : Game) (rnd : Rand) (h : ValidBoard g.board) :
    ∃ g', AddRandomTile g rnd = some g' ∧ ValidBoard g'.board := by
  by_cases he : ∃ i j, g.board i j = 0
  · obtain ⟨pos, -, -, e⟩ := AddRandomTile_spawn g rnd he
    refine ⟨_, e, fun a b => ?_⟩
    rw [setCell_board]
    by_cases hc : a = pos.1 ∧ b = pos.2
    · rw [if_pos hc]
      right
      cases rnd.small
      · exact ⟨2, by omega, rfl⟩
      · exact ⟨1, by omega, rfl⟩
    · rw [if_neg hc]
      exact h a b
  · exact ⟨g, AddRandomTile_full g rnd (fun i j e => he ⟨i, j, e⟩), h⟩

/-- C11: the predicate `every cell is 0 or a power of two that is at least 2` is an
invariant, cell values being unbounded integers (`store` is `id`): the grid returned by
`NewGame` satisfies it, and if a grid satisfies it then so do the grid returned by `Move`,
for every direction string and every outcome of the random source, and the grid returned by
`AddRandomTile`. -/
theorem tile_invariant (g : Game) (h : ValidBoard g.board) (direction : String)
    (rnd r1 r2 : Rand) :
    (∃ g0, NewGame r1 r2 = some g0 ∧ ValidBoard g0.board) ∧
      (∃ g', Move id direction g rnd = some g' ∧ ValidBoard g'.board) ∧
      (∃ g', AddRandomTile g rnd = some g' ∧ ValidBoard g'.board) := by
  refine ⟨?_, ?_, AddRandomTile_valid g rnd h⟩
  · obtain ⟨g1, h1, v1⟩ := AddRandomTile_valid { board := fun _ _ => 0, score := 0 } r1
      (fun _ _ => Or.inl rfl)
    obtain ⟨g2, h2, v2⟩ := AddRandomTile_valid g1 r2 v1
    refine ⟨g2, ?_, v2⟩
    simp only [NewGame, h1, Option.bind_eq_bind, Option.some_bind]
    exact h2
  · obtain ⟨g1, h1, v1⟩ := slide_valid direction g h
    rw [Move_of_slide id direction g g1 rnd h1]
    split_ifs
    · exact ⟨g1, rfl, v1⟩
    · exact AddRandomTile_valid g1 rnd v1

theorem validBoard_rowBoard_2_2_4_0 : ValidBoard (rowBoard 2 2 4 0) := by
  intro i j
  revert j
  revert i
  apply forall_fin4 <;> apply forall_fin4 <;>
    first
    | exact Or.inl rfl
    | exact Or.inr ⟨1, le_refl 1, rfl⟩
    | exact Or.inr ⟨2, by decide, rfl⟩

/-- C11 on the grid with first row `[2,2,4,0]`, moved left. -/
theorem tile_invariant_witness :
    ValidBoard (rowBoard 2 2 4 0) ∧
      ∃ g', Move id "left" { board := rowBoard 2 2 4 0, score := 0 } { draw := 3, small := false }
        = some g' ∧ ValidBoard g'.board :=
  ⟨validBoard_rowBoard_2_2_4_0,
    (tile_invariant { board := rowBoard 2 2 4 0, score := 0 } validBoard_rowBoard_2_2_4_0 "left"
      { draw := 3, small := false } { draw := 0, small := true } { draw := 0, small := true }).2.1⟩


/-! ## The column slides against the line algorithm of the specification -/

theorem onceMerge_wrap64 (l : List Int)
    (h : ∀ y ∈ (specMerge l).1, -9223372036854775808 ≤ y ∧ y < 9223372036854775808) :
    onceMerge wrap64 l = (specMerge l).1 := by
  induction l using specMerge.induct with
  | case1 => rfl
  | case2 a => rfl
  | case3 a rest ih =>
    simp only [specMerge, if_true, List.mem_cons, forall_eq_or_imp] at h
    simp only [onceMerge, specMerge, if_true]
    rw [ih h.2.2, wrap64_of_range _ h.1.1 h.1.2]
  | case4 a b rest hab ih =>
    simp only [specMerge, hab, if_false, List.mem_cons, forall_eq_or_imp] at h
    simp only [onceMerge, specMerge, hab, if_false]
    rw [ih h.2]

theorem upLine_wrap64 (l : List Int) (h : FitsInt64 (specLine l)) :
    upLine wrap64 l = specLine l := by
  unfold upLine specLine
  rw [onceMerge_wrap64]
  intro y hy
  by_cases h0 : y = 0
  · subst h0
    decide
  · have hm : y ∈ specLine l := by
      simp only [specLine, specPad, List.mem_append]
      left
      unfold specCompact
      exact List.mem_filter.mpr ⟨hy, by simpa using h0⟩
    have := h y hm
    simp only [minInt, maxInt] at this
    omega

theorem isTile_maxTile : IsTile maxTile := ⟨62, by decide, by decide⟩

theorem not_exists_of_map {α β : Type} (o : Option α) (f : α → β) (b : β) (P : β → Prop)
    (h : o.map f = some b) (hn : ¬ P b) : ¬ ∃ a, o = some a ∧ P (f a) := by
  rintro ⟨a, rfl, hp⟩
  simp only [Option.map_some', Option.some.injEq] at h
  rw [h] at hp
  exact hn hp

/-- C3, the claim at a grid of zeros and powers of two: on the column `[2^62, 2^62, 0, 0]`
(from the top) `moveUp` of the 64-bit program makes the column `[-2^63, 0, 0, 0]`, the
doubling having wrapped around, where the line algorithm of the spec gives
`[2^63, 0, 0, 0]`; so `moveUp` does not return a grid whose column is the line of the
spec. -/
theorem moveUp_column_overflow :
    ValidBoard (columnBoard maxTile maxTile 0 0) ∧
      (moveUp wrap64 { board := columnBoard maxTile maxTile 0 0, score := 0 }).map
          (fun g => toLine (column g.board 0)) = some [minInt, 0, 0, 0] ∧
      specLine (toLine (column (columnBoard maxTile maxTile 0 0) 0))
        = [9223372036854775808, 0, 0, 0] ∧
      ¬ ∃ g', moveUp wrap64 { board := columnBoard maxTile maxTile 0 0, score := 0 } = some g' ∧
        toLine (column g'.board 0)
          = specLine (toLine (column (columnBoard maxTile maxTile 0 0) 0)) := by
  refine ⟨?_, by decide, by decide, ?_⟩
  · intro i j
    revert j
    revert i
    apply forall_fin4 <;> apply forall_fin4 <;>
      first
      | exact Or.inl rfl
      | exact Or.inr isTile_maxTile
  · exact not_exists_of_map _ (fun g : Game => toLine (column g.board 0)) [minInt, 0, 0, 0]
      (fun l => l = specLine (toLine (column (columnBoard maxTile maxTile 0 0) 0)))
      (by decide) (by decide)

/-- C3: for every grid (so for those whose cells are 0 or powers of two) and every column
`c`, if every value of the merge-once line of the spec (compact, merge equal neighbours once
resuming at `i+2`, re-compact, pad) of the old column read top to bottom is a 64-bit `int`,
that is below `2^63` (so whenever no cell exceeds `2^61`), then `moveUp` of the 64-bit
program returns a grid whose column `c`, read top to bottom, is that line; and if every
value of that line of the old column read bottom to top is a 64-bit `int`, then `moveDown`
returns a grid whose column `c`, read bottom to top, is that line. -/
theorem moveUp_moveDown_column_spec (g : Game) (c : Fin GRID_SIZE) :
    (FitsInt64 (specLine (toLine (column g.board c))) →
        ∃ g', moveUp wrap64 g = some g' ∧
          toLine (column g'.board c) = specLine (toLine (column g.board c))) ∧
      (FitsInt64 (specLine (toLine (revLine (column g.board c)))) →
        ∃ g', moveDown wrap64 g = some g' ∧
          toLine (revLine (column g'.board c))
            = specLine (toLine (revLine (column g.board c)))) := by
  refine ⟨fun h => ⟨_, moveUp_some wrap64 g, ?_⟩, fun h => ⟨_, moveDown_some wrap64 g, ?_⟩⟩
  · rw [column_moveUp]
    exact upLine_wrap64 _ h
  · rw [column_moveDown]
    exact upLine_wrap64 _ h

/-- C3 on the column `[2,2,4,0]`: `moveUp` makes `[4,4,0,0]` of it, as the spec says. -/
theorem moveUp_moveDown_column_spec_witness :
    FitsInt64 (specLine (toLine (column (columnBoard 2 2 4 0) 0))) ∧
      ∃ g', moveUp wrap64 { board := columnBoard 2 2 4 0, score := 0 } = some g' ∧
        toLine (column g'.board 0) = specLine (toLine (column (columnBoard 2 2 4 0) 0)) :=
  ⟨by decide,
    (moveUp_moveDown_column_spec { board := columnBoard 2 2 4 0, score := 0 } 0).1
      (by decide)⟩

/-! ## Three equal tiles in a row -/

theorem isTile_pos {v : Int} (h : IsTile v) : 2 ≤ v := by
  obtain ⟨k, hk, rfl⟩ := h
  calc (2 : Int) = 2 ^ 1 := by norm_num
    _ ≤ 2 ^ k := pow_le_pow_right₀ (by norm_num) hk

theorem leftTiles_three (store : Int → Int) (e : Fin GRID_SIZE) (v : Int) (hv : v ≠ 0)
    (h2 : store (v * 2) ≠ v) :
    leftTiles store (fun j => if j = e then 0 else v) = [store (v * 2), v]
      ∧ ∀ s, leftScore store (fun j => if j = e then 0 else v) s
        = store (s + store (v * 2)) := by
  revert e
  apply forall_fin4 <;>
    simp [leftTiles, leftScore, toLine, indices, chain, chainPush, hv, h2]

/-- C4, the claim at the power of two `2^62` and at the score `2^63 - 1`: `moveLeft` of the
64-bit program turns the row `[2^62, 0, 2^62, 2^62]` into `[-2^63, 2^62, 0, 0]` and adds
`-2^63` to the score 0, the doubling having wrapped around, so the row is not
`[2v, v, 0, 0]`; and for the row `[2,0,2,2]` at the score `2^63 - 1` the new score is
`-2^63 + 3`, not the old score plus 4. -/
theorem moveLeft_three_equal_tiles_overflow :
    IsTile maxTile ∧
      (moveLeft wrap64 { board := rowBoard maxTile 0 maxTile maxTile, score := 0 }).map
          (fun g => (toLine (g.board 0), g.score)) = some ([minInt, maxTile, 0, 0], minInt) ∧
      (¬ ∃ g', moveLeft wrap64 { board := rowBoard maxTile 0 maxTile maxTile, score := 0 }
          = some g' ∧ toLine (g'.board 0) = [2 * maxTile, maxTile, 0, 0]) ∧
      (moveLeftRow wrap64 (rowBoard 2 0 2 2 0) maxInt).map (fun p => (toLine p.1, p.2))
        = some ([4, 2, 0, 0], minInt + 3) ∧
      (moveLeftRow wrap64 (rowBoard 2 0 2 2 0) maxInt).map (fun p => (toLine p.1, p.2))
        ≠ some ([2 * 2, 2, 0, 0], maxInt + 2 * 2) :=
  ⟨isTile_maxTile, by decide,
    not_exists_of_map _ (fun g : Game => toLine (g.board 0)) [minInt, maxTile, 0, 0]
      (fun l => l = [2 * maxTile, maxTile, 0, 0]) (by decide) (by decide),
    by decide, by decide⟩

/-- C4: for every power of two `v` with `2 ≤ v < 2^62`, if the row `i` holds three tiles `v`
and one empty cell (at any position `e`), then `moveLeft` of the 64-bit program returns a
grid whose row `i` is `[2v, v, 0, 0]`, and the body of its loop for that row adds exactly
`2v` to the score `s`, whenever `s` is a 64-bit `int` and `s + 2v` is at most `2^63 - 1`:
the leading pair merges and the third tile stays apart from the merged one. -/
theorem moveLeft_three_equal_tiles (g : Game) (i e : Fin GRID_SIZE) (v : Int) (hv : IsTile v)
    (hlt : v < maxTile) (hrow : g.board i = fun j => if j = e then 0 else v) :
    (∃ g', moveLeft wrap64 g = some g' ∧ toLine (g'.board i) = [2 * v, v, 0, 0]) ∧
      ∀ s, minInt ≤ s → s + 2 * v ≤ maxInt →
        (moveLeftRow wrap64 (g.board i) s).map (fun p => (toLine p.1, p.2))
          = some ([2 * v, v, 0, 0], s + 2 * v) := by
  have hpos := isTile_pos hv
  simp only [maxTile] at hlt
  have hd : wrap64 (v * 2) = 2 * v := by
    rw [wrap64_of_range _ (by omega) (by omega), mul_comm]
  have h := leftTiles_three wrap64 e v (by omega) (by rw [hd]; omega)
  have hl : toLine (lineOf [wrap64 (v * 2), v]) = [2 * v, v, 0, 0] := by
    rw [toLine_lineOf _ (by simp [GRID_SIZE]), hd]
    rfl
  refine ⟨⟨_, moveLeft_some wrap64 g, ?_⟩, fun s hs1 hs2 => ?_⟩
  · simp only [hrow, h.1, hl]
  · simp only [minInt, maxInt] at hs1 hs2
    simp only [moveLeftRow_some, hrow, h.1, h.2, Option.map_some', hl]
    rw [hd, wrap64_of_range _ (by omega) (by omega)]

/-- C4 at `v = 2` and the row `[2,0,2,2]`: it becomes `[4,2,0,0]` and the score grows from 0
to 4. -/
theorem moveLeft_three_equal_tiles_witness :
    IsTile 2 ∧ (2 : Int) < maxTile ∧
      (rowBoard 2 0 2 2 0 = fun j => if j = 1 then 0 else 2) ∧
      (∃ g', moveLeft wrap64 { board := rowBoard 2 0 2 2, score := 0 } = some g' ∧
        toLine (g'.board 0) = [2 * 2, 2, 0, 0]) ∧
      (moveLeftRow wrap64 (rowBoard 2 0 2 2 0) 0).map (fun p => (toLine p.1, p.2))
        = some ([2 * 2, 2, 0, 0], 0 + 2 * 2) :=
  ⟨⟨1, le_refl 1, rfl⟩, by decide, by funext j; revert j; decide,
    (moveLeft_three_equal_tiles { board := rowBoard 2 0 2 2, score := 0 } 0 1 2
      ⟨1, le_refl 1, rfl⟩ (by decide) (by funext j; revert j; decide)).1,
    (moveLeft_three_equal_tiles { board := rowBoard 2 0 2 2, score := 0 } 0 1 2
      ⟨1, le_refl 1, rfl⟩ (by decide) (by funext j; revert j; decide)).2 0
      (by decide) (by decide)⟩

/-! ## Compaction -/

theorem chainPush_ne_zero (acc : List Int × Int) (x : Int) (h : ∀ y ∈ acc.1, y ≠ 0)
    (hx : -9223372036854775808 < x ∧ x < 9223372036854775808) :
    ∀ y ∈ (chainPush wrap64 acc x).1, y ≠ 0 := by
  rcases acc with ⟨stk, s⟩
  unfold chainPush
  by_cases h0 : x = 0
  · rw [if_pos h0]
    exact h
  · rw [if_neg h0]
    rcases stk with _ | ⟨top, rest⟩
    · intro y hy
      rw [List.mem_singleton.mp hy]
      exact h0
    · have h2 : ∀ y ∈ rest, y ≠ 0 := fun y hy => h y (List.mem_cons_of_mem _ hy)
      by_cases ht : top = x
      · simp only [ht, if_true]
        intro y hy
        rcases List.mem_cons.mp hy with e | e
        · rw [e]
          exact wrap64_double_ne_zero x h0 hx.1 hx.2
        · exact h2 y e
      · simp only [ht, if_false]
        intro y hy
        rcases List.mem_cons.mp hy with e | e
        · rw [e]
          exact h0
        · exact h y e

theorem chain_ne_zero (l : List Int) (acc : List Int × Int) (h : ∀ y ∈ acc.1, y ≠ 0)
    (hl : ∀ x ∈ l, -9223372036854775808 < x ∧ x < 9223372036854775808) :
    ∀ y ∈ (chain wrap64 acc l).1, y ≠ 0 := by
  induction l generalizing acc with
  | nil => simpa [chain] using h
  | cons x t ih =>
    exact ih (chainPush wrap64 acc x)
      (chainPush_ne_zero acc x h (hl x (List.mem_cons_self _ _)))
      (fun y hy => hl y (List.mem_cons_of_mem _ hy))

theorem leftTiles_ne_zero (r : Row)
    (h : ∀ j, -9223372036854775808 < r j ∧ r j < 9223372036854775808) :
    ∀ y ∈ leftTiles wrap64 r, y ≠ 0 := by
  intro y hy
  refine chain_ne_zero (toLine r) ([], 0) (by simp) ?_ y (by simpa [leftTiles] using hy)
  intro x hx
  obtain ⟨j, rfl⟩ := (mem_toLine r x).mp hx
  exact h j

theorem leftLine_compacted (r : Row)
    (h : ∀ j, -9223372036854775808 < r j ∧ r j < 9223372036854775808) :
    Compacted (toLine (lineOf (leftTiles wrap64 r))) := by
  rw [toLine_lineOf _ (leftTiles_length wrap64 r)]
  exact compacted_pad _ _ (leftTiles_ne_zero r h)

/-- C8, the claim at a grid that holds the least 64-bit integer: `moveLeft` of the 64-bit
program turns the row `[-2^63, -2^63, 5, 0]` into `[0, 5, 0, 0]`, the doubled value having
wrapped around to 0, so that a zero is followed by a non-zero value in the row that the
step to the left returns. -/
theorem slide_left_not_compacted :
    (slide wrap64 "left" { board := rowBoard minInt minInt 5 0, score := 0 }).map
        (fun g => toLine (g.board 0)) = some [0, 5, 0, 0] ∧
      ¬ ∃ g', slide wrap64 "left" { board := rowBoard minInt minInt 5 0, score := 0 }
          = some g' ∧ Compacted (toLine (g'.board 0)) :=
  ⟨by decide,
    not_exists_of_map _ (fun g : Game => toLine (g.board 0)) [0, 5, 0, 0] Compacted
      (by decide) (by decide)⟩

/-- C8: for every grid in which every cell is a 64-bit `int` other than the least one,
`-2^63`, the slide/merge step of `Move` of the 64-bit program to the left and to the right
returns a grid in which every row `k`, read from the leading edge of the move, has no zero
followed by a non-zero value; and for every grid the step up and the step down return a
grid in which every column `k`, read from the leading edge of the move, has no zero followed
by a non-zero value. -/
theorem slide_lines_compacted (g : Game) (k : Fin GRID_SIZE) :
    (AboveMinInt g.board →
        (∃ g', slide wrap64 "left" g = some g' ∧ Compacted (toLine (g'.board k))) ∧
        (∃ g', slide wrap64 "right" g = some g' ∧
          Compacted (toLine (revLine (g'.board k))))) ∧
      (∃ g', slide wrap64 "up" g = some g' ∧ Compacted (toLine (column g'.board k))) ∧
      (∃ g', slide wrap64 "down" g = some g' ∧
        Compacted (toLine (revLine (column g'.board k)))) := by
  refine ⟨fun h => ⟨⟨_, (slide_left wrap64 g).trans (moveLeft_some wrap64 g), ?_⟩,
      ⟨_, (slide_right wrap64 g).trans (moveRight_some wrap64 g), ?_⟩⟩,
    ⟨_, (slide_up wrap64 g).trans (moveUp_some wrap64 g), ?_⟩,
    ⟨_, (slide_down wrap64 g).trans (moveDown_some wrap64 g), ?_⟩⟩
  · exact leftLine_compacted _ (h k)
  · simp only [revLine_revLine]
    exact leftLine_compacted _ (fun j => h k _)
  · rw [column_moveUp]
    exact upLine_compacted wrap64 _
  · rw [column_moveDown]
    exact upLine_compacted wrap64 _

/-- C8 on the grid whose first row is `[2,0,2,4]`: the row that the step to the left makes
of it has no zero followed by a non-zero value. -/
theorem slide_lines_compacted_witness :
    AboveMinInt (rowBoard 2 0 2 4) ∧
      ∃ g', slide wrap64 "left" { board := rowBoard 2 0 2 4, score := 0 } = some g' ∧
        Compacted (toLine (g'.board 0)) :=
  ⟨by decide,
    ((slide_lines_compacted { board := rowBoard 2 0 2 4, score := 0 } 0).1 (by decide)).1⟩

/-! ## Monotonicity of the score -/

theorem sum_nonneg_of (l : List Int) (h : ∀ y ∈ l, 0 ≤ y) : 0 ≤ l.sum :=
  List.sum_nonneg h

theorem chainPush_exact (acc : List Int × Int) (x : Int) (h : ∀ y ∈ acc.1, 0 ≤ y)
    (hx : 0 ≤ x) (hsum : acc.1.sum + x < 9223372036854775808)
    (hs1 : -9223372036854775808 ≤ acc.2) (hs2 : acc.2 + 2 * x < 9223372036854775808) :
    (∀ y ∈ (chainPush wrap64 acc x).1, 0 ≤ y) ∧
      (chainPush wrap64 acc x).1.sum = acc.1.sum + x ∧
      acc.2 ≤ (chainPush wrap64 acc x).2 ∧ (chainPush wrap64 acc x).2 ≤ acc.2 + 2 * x := by
  rcases acc with ⟨stk, s⟩
  simp only at h hsum hs1 hs2
  unfold chainPush
  by_cases h0 : x = 0
  · rw [if_pos h0]
    subst h0
    exact ⟨h, by simp, le_refl _, by simp⟩
  · rw [if_neg h0]
    rcases stk with _ | ⟨top, rest⟩
    · refine ⟨?_, by simp, le_refl _, by simp only; omega⟩
      intro y hy
      rw [List.mem_singleton.mp hy]
      exact hx
    · have h2 : ∀ y ∈ rest, 0 ≤ y := fun y hy => h y (List.mem_cons_of_mem _ hy)
      have hrest := sum_nonneg_of rest h2
      simp only [List.sum_cons] at hsum
      by_cases ht : top = x
      · subst ht
        have e1 : wrap64 (top * 2) = top * 2 := wrap64_of_range _ (by omega) (by omega)
        have e2 : wrap64 (s + top * 2) = s + top * 2 :=
          wrap64_of_range _ (by omega) (by omega)
        simp only [if_true, e1, e2, List.sum_cons]
        refine ⟨?_, by omega, by omega, by omega⟩
        intro y hy
        rcases List.mem_cons.mp hy with e | e
        · rw [e]
          omega
        · exact h2 y e
      · simp only [ht, if_false, List.sum_cons]
        refine ⟨?_, by omega, le_refl _, by omega⟩
        intro y hy
        rcases List.mem_cons.mp hy with e | e
        · rw [e]
          exact hx
        · exact h y e

theorem chain_exact (l : List Int) (acc : List Int × Int) (h : ∀ y ∈ acc.1, 0 ≤ y)
    (hl : ∀ x ∈ l, 0 ≤ x) (hsum : acc.1.sum + l.sum < 9223372036854775808)
    (hs1 : -9223372036854775808 ≤ acc.2)
    (hs2 : acc.2 + 2 * l.sum < 9223372036854775808) :
    (∀ y ∈ (chain wrap64 acc l).1, 0 ≤ y) ∧
      (chain wrap64 acc l).1.sum = acc.1.sum + l.sum ∧
      acc.2 ≤ (chain wrap64 acc l).2 ∧ (chain wrap64 acc l).2 ≤ acc.2 + 2 * l.sum := by
  induction l generalizing acc with
  | nil => exact ⟨h, by simp [chain], le_refl _, by simp [chain]⟩
  | cons x t ih =>
    have hx : 0 ≤ x := hl x (List.mem_cons_self _ _)
    have ht : ∀ y ∈ t, 0 ≤ y := fun y hy => hl y (List.mem_cons_of_mem _ hy)
    have hts := sum_nonneg_of t ht
    simp only [List.sum_cons] at hsum hs2 ⊢
    obtain ⟨a1, a2, a3, a4⟩ := chainPush_exact acc x h hx (by omega) hs1 (by omega)
    obtain ⟨b1, b2, b3, b4⟩ := ih (chainPush wrap64 acc x) a1 ht (by omega) (by omega)
      (by omega)
    have e : chain wrap64 acc (x :: t) = chain wrap64 (chainPush wrap64 acc x) t := rfl
    rw [e]
    exact ⟨b1, by omega, by omega, by omega⟩

theorem toLine_sum_nonneg (r : Row) (h : ∀ j, 0 ≤ r j) : 0 ≤ (toLine r).sum := by
  apply sum_nonneg_of
  intro y hy
  obtain ⟨j, rfl⟩ := (mem_toLine r y).mp hy
  exact h j

theorem left_exact (r : Row) (s : Int) (hr : ∀ j, 0 ≤ r j)
    (hsum : (toLine r).sum < 9223372036854775808) (hs1 : -9223372036854775808 ≤ s)
    (hs2 : s + 2 * (toLine r).sum < 9223372036854775808) :
    (∀ k, 0 ≤ lineOf (leftTiles wrap64 r) k) ∧
      (toLine (lineOf (leftTiles wrap64 r))).sum = (toLine r).sum ∧
      s ≤ leftScore wrap64 r s ∧ leftScore wrap64 r s ≤ s + 2 * (toLine r).sum := by
  have hl : ∀ x ∈ toLine r, 0 ≤ x := by
    intro x hx
    obtain ⟨j, rfl⟩ := (mem_toLine r x).mp hx
    exact hr j
  obtain ⟨c1, c2, c3, c4⟩ := chain_exact (toLine r) ([], s) (by simp) hl (by simpa using hsum)
    hs1 hs2
  have hfst : (chain wrap64 ([], s) (toLine r)).1 = (chain wrap64 ([], 0) (toLine r)).1 :=
    chain_fst wrap64 _ _
  refine ⟨fun k => ?_, ?_, c3, c4⟩
  · apply lineOf_nonneg
    intro y hy
    exact c1 y (by rw [hfst]; simpa [leftTiles] using hy)
  · rw [toLine_lineOf _ (leftTiles_length wrap64 r), specPad_sum]
    have : (leftTiles wrap64 r).sum = (chain wrap64 ([], s) (toLine r)).1.sum := by
      rw [hfst, leftTiles, List.sum_reverse]
    rw [this, c2]
    simp

theorem boardSum_rows (b : Board) :
    boardSum b = (toLine (b 0)).sum + (toLine (b 1)).sum + (toLine (b 2)).sum
      + (toLine (b 3)).sum := by
  simp only [boardSum, indices, List.map_cons, List.map_nil, List.sum_cons, List.sum_nil]
  omega

theorem cell_le_boardSum (b : Board) (h : NonNegative b) (i j : Fin GRID_SIZE) :
    b i j ≤ boardSum b := by
  have h00 := h 0 0
  have h01 := h 0 1
  have h02 := h 0 2
  have h03 := h 0 3
  have h10 := h 1 0
  have h11 := h 1 1
  have h12 := h 1 2
  have h13 := h 1 3
  have h20 := h 2 0
  have h21 := h 2 1
  have h22 := h 2 2
  have h23 := h 2 3
  have h30 := h 3 0
  have h31 := h 3 1
  have h32 := h 3 2
  have h33 := h 3 3
  revert j
  revert i
  apply forall_fin4 <;> apply forall_fin4 <;>
    simp only [boardSum, toLine, indices, List.map_cons, List.map_nil, List.sum_cons,
      List.sum_nil] <;>
    omega

theorem moveLeft_safe (g : Game) (h : NonNegative g.board) (hroom : ScoreRoom g) :
    ∃ g1, moveLeft wrap64 g = some g1 ∧ NonNegative g1.board ∧
      boardSum g1.board = boardSum g.board ∧ g.score ≤ g1.score ∧
      g1.score ≤ g.score + 2 * boardSum g.board := by
  obtain ⟨hr1, hr2⟩ := hroom
  simp only [minInt, maxInt] at hr1 hr2
  rw [boardSum_rows] at hr2
  have n0 := toLine_sum_nonneg (g.board 0) (h 0)
  have n1 := toLine_sum_nonneg (g.board 1) (h 1)
  have n2 := toLine_sum_nonneg (g.board 2) (h 2)
  have n3 := toLine_sum_nonneg (g.board 3) (h 3)
  obtain ⟨a1, a2, a3, a4⟩ := left_exact (g.board 0) g.score (h 0) (by omega) (by omega)
    (by omega)
  obtain ⟨b1, b2, b3, b4⟩ := left_exact (g.board 1) (leftScore wrap64 (g.board 0) g.score)
    (h 1) (by omega) (by omega) (by omega)
  obtain ⟨c1, c2, c3, c4⟩ := left_exact (g.board 2)
    (leftScore wrap64 (g.board 1) (leftScore wrap64 (g.board 0) g.score))
    (h 2) (by omega) (by omega) (by omega)
  obtain ⟨d1, d2, d3, d4⟩ := left_exact (g.board 3)
    (leftScore wrap64 (g.board 2)
      (leftScore wrap64 (g.board 1) (leftScore wrap64 (g.board 0) g.score)))
    (h 3) (by omega) (by omega) (by omega)
  refine ⟨_, moveLeft_some wrap64 g, ?_, ?_, ?_, ?_⟩
  · apply forall_fin4
    · exact a1
    · exact b1
    · exact c1
    · exact d1
  · rw [boardSum_rows, boardSum_rows]
    simp only [a2, b2, c2, d2]
  · simp only
    omega
  · rw [boardSum_rows]
    simp only
    omega

theorem nonneg_revLine (r : Row) (h : ∀ j, 0 ≤ r j) : ∀ j, 0 ≤ revLine r j :=
  fun j => h (Fin.rev j)

theorem moveRight_safe (g : Game) (h : NonNegative g.board) (hroom : ScoreRoom g) :
    ∃ g1, moveRight wrap64 g = some g1 ∧ NonNegative g1.board ∧
      boardSum g1.board = boardSum g.board ∧ g.score ≤ g1.score ∧
      g1.score ≤ g.score + 2 * boardSum g.board := by
  obtain ⟨hr1, hr2⟩ := hroom
  simp only [minInt, maxInt] at hr1 hr2
  rw [boardSum_rows] at hr2
  have n0 := toLine_sum_nonneg (g.board 0) (h 0)
  have n1 := toLine_sum_nonneg (g.board 1) (h 1)
  have n2 := toLine_sum_nonneg (g.board 2) (h 2)
  have n3 := toLine_sum_nonneg (g.board 3) (h 3)
  have e0 := toLine_revLine_sum (g.board 0)
  have e1 := toLine_revLine_sum (g.board 1)
  have e2 := toLine_revLine_sum (g.board 2)
  have e3 := toLine_revLine_sum (g.board 3)
  obtain ⟨a1, a2, a3, a4⟩ := left_exact (revLine (g.board 3)) g.score
    (nonneg_revLine _ (h 3)) (by omega) (by omega) (by omega)
  obtain ⟨b1, b2, b3, b4⟩ := left_exact (revLine (g.board 2))
    (leftScore wrap64 (revLine (g.board 3)) g.score)
    (nonneg_revLine _ (h 2)) (by omega) (by omega) (by omega)
  obtain ⟨c1, c2, c3, c4⟩ := left_exact (revLine (g.board 1))
    (leftScore wrap64 (revLine (g.board 2)) (leftScore wrap64 (revLine (g.board 3)) g.score))
    (nonneg_revLine _ (h 1)) (by omega) (by omega) (by omega)
  obtain ⟨d1, d2, d3, d4⟩ := left_exact (revLine (g.board 0))
    (leftScore wrap64 (revLine (g.board 1))
      (leftScore wrap64 (revLine (g.board 2))
        (leftScore wrap64 (revLine (g.board 3)) g.score)))
    (nonneg_revLine _ (h 0)) (by omega) (by omega) (by omega)
  refine ⟨_, moveRight_some wrap64 g, ?_, ?_, ?_, ?_⟩
  · apply forall_fin4
    · exact fun j => d1 _
    · exact fun j => c1 _
    · exact fun j => b1 _
    · exact fun j => a1 _
  · rw [boardSum_rows, boardSum_rows]
    simp only [toLine_revLine_sum, a2, b2, c2, d2]
  · simp only
    omega
  · rw [boardSum_rows]
    simp only
    omega

theorem column_sum_le (b : Board) (h : NonNegative b) (c : Fin GRID_SIZE) :
    (toLine (column b c)).sum ≤ boardSum b := by
  have h00 := h 0 0
  have h01 := h 0 1
  have h02 := h 0 2
  have h03 := h 0 3
  have h10 := h 1 0
  have h11 := h 1 1
  have h12 := h 1 2
  have h13 := h 1 3
  have h20 := h 2 0
  have h21 := h 2 1
  have h22 := h 2 2
  have h23 := h 2 3
  have h30 := h 3 0
  have h31 := h 3 1
  have h32 := h 3 2
  have h33 := h 3 3
  revert c
  apply forall_fin4 <;>
    simp only [boardSum, toLine, column, indices, List.map_cons, List.map_nil, List.sum_cons,
      List.sum_nil] <;>
    omega

theorem up_exact (r : Row) (hr : ∀ j, 0 ≤ r j) (hsum : (toLine r).sum < 9223372036854775808) :
    (∀ k, 0 ≤ newUp wrap64 r k) ∧ (toLine (newUp wrap64 r)).sum = (toLine r).sum := by
  have hl : ∀ x ∈ toLine r, 0 ≤ x := by
    intro x hx
    obtain ⟨j, rfl⟩ := (mem_toLine r x).mp hx
    exact hr j
  have hn := specLine_nonneg _ hl
  have e : upLine wrap64 (toLine r) = specLine (toLine r) := by
    apply upLine_wrap64
    intro y hy
    have h1 := hn y hy
    have h2 := List.single_le_sum hn y hy
    rw [specLine_sum] at h2
    simp only [minInt, maxInt]
    omega
  unfold newUp
  rw [e]
  refine ⟨fun k => lineOf_nonneg _ hn k, ?_⟩
  rw [toLine_lineOf_eq _ (by rw [specLine_length]; rfl), specLine_sum]

theorem colwise_safe (f : Row → Row) (b : Board)
    (hf : ∀ c, (∀ k, 0 ≤ f (column b c) k) ∧
      (toLine (f (column b c))).sum = (toLine (column b c)).sum) :
    NonNegative (colwise f b) ∧ boardSum (colwise f b) = boardSum b := by
  refine ⟨fun i j => (hf j).1 i, ?_⟩
  exact Int.modEq_zero_iff.mp
    (boardSum_congr_columns 0 _ _ fun c => Int.modEq_zero_iff.mpr (hf c).2)

theorem conj_exact (f : Row → Row) (r : Row)
    (h : (∀ k, 0 ≤ f (revLine r) k) ∧ (toLine (f (revLine r))).sum = (toLine (revLine r)).sum) :
    (∀ k, 0 ≤ conj f r k) ∧ (toLine (conj f r)).sum = (toLine r).sum := by
  refine ⟨fun k => h.1 _, ?_⟩
  unfold conj
  rw [toLine_revLine_sum, h.2, toLine_revLine_sum]

theorem slide_safe (direction : String) (g : Game) (h : NonNegative g.board)
    (hroom : ScoreRoom g) :
    ∃ g1, slide wrap64 direction g = some g1 ∧ NonNegative g1.board ∧
      boardSum g1.board = boardSum g.board ∧ g.score ≤ g1.score ∧
      g1.score ≤ g.score + 2 * boardSum g.board := by
  have hb : 0 ≤ boardSum g.board := le_trans (h 0 0) (cell_le_boardSum g.board h 0 0)
  have hlt : ∀ c, (toLine (column g.board c)).sum < 9223372036854775808 := by
    intro c
    have := column_sum_le g.board h c
    obtain ⟨hr1, hr2⟩ := hroom
    simp only [minInt, maxInt] at hr1 hr2
    omega
  unfold slide
  split_ifs
  · obtain ⟨s1, s2⟩ := colwise_safe (newUp wrap64) g.board
      fun c => up_exact (column g.board c) (fun j => h j c) (hlt c)
    exact ⟨_, moveUp_some wrap64 g, s1, s2, le_refl _, by simp only; omega⟩
  · obtain ⟨s1, s2⟩ := colwise_safe (conj (newUp wrap64)) g.board
      fun c => conj_exact (newUp wrap64) (column g.board c)
        (up_exact (revLine (column g.board c)) (fun j => h _ c)
          (by rw [toLine_revLine_sum]; exact hlt c))
    exact ⟨_, moveDown_some wrap64 g, s1, s2, le_refl _, by simp only; omega⟩
  · exact moveLeft_safe g h hroom
  · exact moveRight_safe g h hroom
  · exact ⟨g, rfl, h, rfl, le_refl _, by omega⟩

theorem AddRandomTile_safe (g : Game) (rnd : Rand) (h : NonNegative g.board) :
    ∃ g', AddRandomTile g rnd = some g' ∧ g'.score = g.score ∧ NonNegative g'.board ∧
      boardSum g'.board ≤ boardSum g.board + 4 := by
  by_cases he : ∃ i j, g.board i j = 0
  · obtain ⟨pos, hpos, -, e⟩ := AddRandomTile_spawn g rnd he
    refine ⟨_, e, rfl, fun a b => ?_, ?_⟩
    · rw [setCell_board]
      by_cases hc : a = pos.1 ∧ b = pos.2
      · rw [if_pos hc]
        cases rnd.small <;> simp
      · rw [if_neg hc]
        exact h a b
    · rw [boardSum_setCell g pos _ hpos]
      cases rnd.small <;> simp
  · exact ⟨g, AddRandomTile_full g rnd (fun i j e => he ⟨i, j, e⟩), rfl, h, by omega⟩

theorem Move_safe (direction : String) (g : Game) (rnd : Rand) (h : NonNegative g.board)
    (hroom : ScoreRoom g) :
    ∃ g', Move wrap64 direction g rnd = some g' ∧ NonNegative g'.board ∧
      boardSum g'.board ≤ boardSum g.board + 4 ∧ g.score ≤ g'.score ∧
      g'.score ≤ g.score + 2 * boardSum g.board := by
  obtain ⟨g1, h1, hn, hb, hs1, hs2⟩ := slide_safe direction g h hroom
  rw [Move_of_slide wrap64 direction g g1 rnd h1]
  split_ifs
  · exact ⟨g1, rfl, hn, by omega, hs1, hs2⟩
  · obtain ⟨g', e, es, en, eb⟩ := AddRandomTile_safe g1 rnd hn
    exact ⟨g', e, en, by omega, by omega, by omega⟩


/-! ## Sessions started by `NewGame`: the capacity of the board bounds the tiles -/

theorem countGE_cons (t x : Int) (l : List Int) :
    countGE t (x :: l) = countGE t l + if t ≤ x then 1 else 0 := by
  simp [countGE, List.countP_cons]

theorem countGE_append (t : Int) (l l' : List Int) :
    countGE t (l ++ l') = countGE t l + countGE t l' := by
  simp [countGE, List.countP_append]

theorem countGE_reverse (t : Int) (l : List Int) : countGE t l.reverse = countGE t l := by
  simp [countGE, List.countP_reverse]

theorem countGE_anti (t t' : Int) (h : t ≤ t') (l : List Int) : countGE t' l ≤ countGE t l := by
  induction l with
  | nil => exact le_refl _
  | cons x l ih =>
    rw [countGE_cons, countGE_cons]
    split_ifs <;> omega

theorem countGE_replicate_zero (t : Int) (ht : 0 < t) (n : Nat) :
    countGE t (List.replicate n 0) = 0 := by
  induction n with
  | zero => rfl
  | succ n ih =>
    rw [List.replicate_succ, countGE_cons, ih, if_neg (by omega)]

theorem countGE_specCompact (t : Int) (ht : 0 < t) (l : List Int) :
    countGE t (specCompact l) = countGE t l := by
  induction l with
  | nil => rfl
  | cons x l ih =>
    rw [specCompact_cons]
    split_ifs with h0
    · rw [ih, countGE_cons, if_neg (by omega)]
      rfl
    · rw [countGE_cons, countGE_cons, ih]

theorem countGE_specPad (t : Int) (ht : 0 < t) (n : Nat) (l : List Int) :
    countGE t (specPad n l) = countGE t l := by
  rw [specPad, countGE_append, countGE_replicate_zero t ht]
  rfl

theorem countGE_le_length (t : Int) (l : List Int) : countGE t l ≤ l.length :=
  List.countP_le_length _

theorem two_pow_pos (k : Nat) : (0 : Int) < 2 ^ k := by positivity

theorem capacity_of_le (l l' : List Int)
    (h : ∀ k : Nat, countGE (2 ^ k) l' ≤ countGE (2 ^ k) l) (hc : WithinCapacity l) :
    WithinCapacity l' := by
  intro k hk1 hk18
  have := hc k hk1 hk18
  have := h k
  omega

theorem capacity_merge (x : Int) (hx : 2 ≤ x) (m : List Int)
    (h : WithinCapacity (x :: x :: m)) : WithinCapacity (x * 2 :: m) ∧ x < 262144 := by
  constructor
  · intro k hk1 hk18
    have hkk := h k hk1 hk18
    rw [countGE_cons, countGE_cons] at hkk
    rw [countGE_cons]
    by_cases h1 : (2 : Int) ^ k ≤ x
    · rw [if_pos h1] at hkk
      split_ifs <;> omega
    · rw [if_neg h1] at hkk
      by_cases h2 : (2 : Int) ^ k ≤ x * 2
      · rw [if_pos h2]
        obtain ⟨j, rfl⟩ : ∃ j, k = j + 1 := ⟨k - 1, by omega⟩
        have hj : (2 : Int) ^ j ≤ x := by
          rw [pow_succ] at h2
          omega
        have hj1 : 1 ≤ j := by
          rcases Nat.eq_zero_or_pos j with e | e
          · subst e
            simp only [zero_add, pow_one] at h1
            omega
          · exact e
        have hjj := h j hj1 (by omega)
        rw [countGE_cons, countGE_cons, if_pos hj] at hjj
        have hanti := countGE_anti (2 ^ j) (2 ^ (j + 1))
          (by rw [pow_succ]; have := two_pow_pos j; omega) m
        omega
      · rw [if_neg h2]
        omega
  · by_contra hcon
    have h18 := h 18 (by omega) (le_refl _)
    have e : (2 : Int) ^ 18 = 262144 := by norm_num
    rw [countGE_cons, countGE_cons, e, if_pos (by omega)] at h18
    omega

theorem chainPush_capacity (frame : List Int) (acc : List Int × Int) (x : Int) (t : List Int)
    (hstk : ∀ y ∈ acc.1, 2 ≤ y) (hx : x = 0 ∨ 2 ≤ x)
    (hcap : WithinCapacity (acc.1 ++ (x :: t) ++ frame)) :
    (∀ y ∈ (chainPush wrap64 acc x).1, 2 ≤ y) ∧
      WithinCapacity ((chainPush wrap64 acc x).1 ++ t ++ frame) := by
  rcases acc with ⟨stk, s⟩
  simp only at hstk hcap
  unfold chainPush
  by_cases h0 : x = 0
  · rw [if_pos h0]
    refine ⟨hstk, capacity_of_le _ _ (fun k => ?_) hcap⟩
    simp only [countGE_append, countGE_cons]
    omega
  · rw [if_neg h0]
    have hx2 : 2 ≤ x := hx.resolve_left h0
    rcases stk with _ | ⟨top, rest⟩
    · refine ⟨?_, capacity_of_le _ _ (fun k => ?_) hcap⟩
      · intro y hy
        rw [List.mem_singleton.mp hy]
        exact hx2
      · simp only [countGE_append, countGE_cons, List.nil_append, List.singleton_append]
        omega
    · by_cases ht : top = x
      · subst ht
        simp only [if_true]
        have hm : WithinCapacity (top :: top :: (rest ++ t ++ frame)) := by
          refine capacity_of_le _ _ (fun k => ?_) hcap
          simp only [countGE_append, countGE_cons, List.cons_append]
          omega
        obtain ⟨hm2, hlt⟩ := capacity_merge top hx2 _ hm
        have e : wrap64 (top * 2) = top * 2 := wrap64_of_range _ (by omega) (by omega)
        rw [e]
        refine ⟨?_, capacity_of_le _ _ (fun k => ?_) hm2⟩
        · intro y hy
          rcases List.mem_cons.mp hy with e1 | e1
          · rw [e1]
            omega
          · exact hstk y (List.mem_cons_of_mem _ e1)
        · simp only [countGE_append, countGE_cons, List.cons_append]
          omega
      · simp only [ht, if_false]
        refine ⟨?_, capacity_of_le _ _ (fun k => ?_) hcap⟩
        · intro y hy
          rcases List.mem_cons.mp hy with e1 | e1
          · rw [e1]
            exact hx2
          · exact hstk y e1
        · simp only [countGE_append, countGE_cons, List.cons_append]
          omega

theorem chain_capacity (frame : List Int) (l : List Int) (acc : List Int × Int)
    (hstk : ∀ y ∈ acc.1, 2 ≤ y) (hl : ∀ x ∈ l, x = 0 ∨ 2 ≤ x)
    (hcap : WithinCapacity (acc.1 ++ l ++ frame)) :
    (∀ y ∈ (chain wrap64 acc l).1, 2 ≤ y) ∧
      WithinCapacity ((chain wrap64 acc l).1 ++ frame) := by
  induction l generalizing acc with
  | nil => exact ⟨hstk, by simpa [chain] using hcap⟩
  | cons x t ih =>
    obtain ⟨a1, a2⟩ := chainPush_capacity frame acc x t hstk (hl x (List.mem_cons_self _ _))
      hcap
    exact ih (chainPush wrap64 acc x) a1 (fun y hy => hl y (List.mem_cons_of_mem _ hy)) a2

theorem tileRow_lineOf (l : List Int) (h : ∀ y ∈ l, y = 0 ∨ 2 ≤ y) : TileRow (lineOf l) := by
  intro k
  rcases lineOf_mem l k with e | e
  · exact Or.inl e
  · exact h _ e

theorem tileRow_mem (r : Row) (h : TileRow r) : ∀ x ∈ toLine r, x = 0 ∨ 2 ≤ x := by
  intro x hx
  obtain ⟨j, rfl⟩ := (mem_toLine r x).mp hx
  exact h j

theorem keepsCapacity_newLeft : KeepsCapacity (newLeft wrap64) := by
  intro frame r hr hcap
  obtain ⟨c1, c2⟩ := chain_capacity frame (toLine r) ([], 0) (by simp) (tileRow_mem r hr)
    (by simpa using hcap)
  unfold newLeft
  refine ⟨tileRow_lineOf _ fun y hy => Or.inr (c1 y (by simpa [leftTiles] using hy)), ?_⟩
  refine capacity_of_le _ _ (fun k => ?_) c2
  rw [toLine_lineOf _ (leftTiles_length wrap64 r), countGE_append, countGE_append,
    countGE_specPad _ (two_pow_pos k), leftTiles, countGE_reverse]

theorem onceMerge_capacity (l : List Int) (frame : List Int) (hl : ∀ y ∈ l, 2 ≤ y)
    (hcap : WithinCapacity (l ++ frame)) :
    (∀ y ∈ onceMerge wrap64 l, y = 0 ∨ 2 ≤ y) ∧
      WithinCapacity (onceMerge wrap64 l ++ frame) := by
  induction l using specMerge.induct generalizing frame with
  | case1 => exact ⟨by simp [onceMerge], by simpa [onceMerge] using hcap⟩
  | case2 a =>
    refine ⟨?_, by simpa [onceMerge] using hcap⟩
    intro y hy
    exact Or.inr (hl y (by simpa [onceMerge] using hy))
  | case3 a rest ih =>
    simp only [List.mem_cons, forall_eq_or_imp] at hl
    obtain ⟨hm2, hlt⟩ := capacity_merge a hl.1 (rest ++ frame) (by simpa using hcap)
    have e : wrap64 (a * 2) = a * 2 := wrap64_of_range _ (by omega) (by omega)
    obtain ⟨i1, i2⟩ := ih (a * 2 :: frame) hl.2.2 (by
      refine capacity_of_le _ _ (fun k => ?_) hm2
      simp only [countGE_append, countGE_cons]
      omega)
    simp only [onceMerge, if_true, e, List.mem_cons, forall_eq_or_imp]
    refine ⟨⟨Or.inr (by omega), Or.inl trivial, i1⟩, capacity_of_le _ _ (fun k => ?_) i2⟩
    simp only [countGE_append, countGE_cons, List.cons_append]
    have := two_pow_pos k
    rw [if_neg (by omega)]
    omega
  | case4 a b rest hab ih =>
    simp only [List.mem_cons, forall_eq_or_imp] at hl
    obtain ⟨i1, i2⟩ := ih (a :: frame) (by simpa using hl.2) (by
      refine capacity_of_le _ _ (fun k => ?_) hcap
      simp only [countGE_append, countGE_cons, List.cons_append]
      omega)
    simp only [onceMerge, hab, if_false, List.mem_cons, forall_eq_or_imp]
    refine ⟨⟨Or.inr hl.1, i1⟩, capacity_of_le _ _ (fun k => ?_) i2⟩
    simp only [countGE_append, countGE_cons, List.cons_append]
    omega

theorem keepsCapacity_newUp : KeepsCapacity (newUp wrap64) := by
  intro frame r hr hcap
  have hmem := tileRow_mem r hr
  have hc2 : ∀ y ∈ specCompact (toLine r), 2 ≤ y := by
    intro y hy
    unfold specCompact at hy
    obtain ⟨h1, h2⟩ := List.mem_filter.mp hy
    exact (hmem y h1).resolve_left (by simpa using h2)
  obtain ⟨c1, c2⟩ := onceMerge_capacity (specCompact (toLine r)) frame hc2 (by
    refine capacity_of_le _ _ (fun k => ?_) hcap
    rw [countGE_append, countGE_append, countGE_specCompact _ (two_pow_pos k)])
  unfold newUp
  constructor
  · apply tileRow_lineOf
    intro y hy
    simp only [upLine, specPad, List.mem_append, List.mem_replicate] at hy
    rcases hy with hy | hy
    · unfold specCompact at hy
      exact c1 y (List.mem_filter.mp hy).1
    · exact Or.inl hy.2
  · refine capacity_of_le _ _ (fun k => ?_) c2
    rw [toLine_lineOf_eq _ (by rw [upLine_length]; rfl), countGE_append, countGE_append,
      upLine, countGE_specPad _ (two_pow_pos k), countGE_specCompact _ (two_pow_pos k)]

theorem keepsCapacity_conj (f : Row → Row) (hf : KeepsCapacity f) : KeepsCapacity (conj f) := by
  intro frame r hr hcap
  obtain ⟨h1, h2⟩ := hf frame (revLine r) (fun j => hr _) (by
    refine capacity_of_le _ _ (fun k => ?_) hcap
    rw [countGE_append, countGE_append, toLine_revLine, countGE_reverse])
  refine ⟨fun j => h1 _, capacity_of_le _ _ (fun k => ?_) h2⟩
  unfold conj
  rw [countGE_append, countGE_append, toLine_revLine, countGE_reverse]

theorem rowwise_capacity (f : Row → Row) (hf : KeepsCapacity f) (b : Board)
    (hq : ∀ i, TileRow (b i)) (hcap : WithinCapacity (cells b)) :
    (∀ i, TileRow (rowwise f b i)) ∧ WithinCapacity (cells (rowwise f b)) := by
  obtain ⟨q0, c0⟩ := hf (toLine (b 1) ++ (toLine (b 2) ++ toLine (b 3))) (b 0) (hq 0) hcap
  obtain ⟨q1, c1⟩ := hf (toLine (f (b 0)) ++ (toLine (b 2) ++ toLine (b 3))) (b 1) (hq 1) (by
    refine capacity_of_le _ _ (fun k => ?_) c0
    simp only [countGE_append]
    omega)
  obtain ⟨q2, c2⟩ := hf (toLine (f (b 0)) ++ (toLine (f (b 1)) ++ toLine (b 3))) (b 2) (hq 2)
    (by
      refine capacity_of_le _ _ (fun k => ?_) c1
      simp only [countGE_append]
      omega)
  obtain ⟨q3, c3⟩ := hf (toLine (f (b 0)) ++ (toLine (f (b 1)) ++ toLine (f (b 2)))) (b 3)
    (hq 3) (by
      refine capacity_of_le _ _ (fun k => ?_) c2
      simp only [countGE_append]
      omega)
  refine ⟨forall_fin4 q0 q1 q2 q3, capacity_of_le _ _ (fun k => ?_) c3⟩
  simp only [cells, rowwise, countGE_append]
  omega

theorem countGE_cells_transpose (t : Int) (b : Board) :
    countGE t (cells fun i j => b j i) = countGE t (cells b) := by
  simp only [cells, toLine, indices, List.map_cons, List.map_nil, countGE_append, countGE_cons]
  omega

theorem colwise_capacity (f : Row → Row) (hf : KeepsCapacity f) (b : Board)
    (hq : ∀ i, TileRow (b i)) (hcap : WithinCapacity (cells b)) :
    (∀ i, TileRow (colwise f b i)) ∧ WithinCapacity (cells (colwise f b)) := by
  obtain ⟨q, c⟩ := rowwise_capacity f hf (fun i j => b j i) (fun i j => hq j i)
    (capacity_of_le _ _ (fun k => le_of_eq (countGE_cells_transpose _ b)) hcap)
  refine ⟨fun i j => q j i, capacity_of_le _ _ (fun k => le_of_eq ?_) c⟩
  exact countGE_cells_transpose _ (rowwise f fun i j => b j i)

theorem slide_capacity (direction : String) (g : Game) (hq : ∀ i, TileRow (g.board i))
    (hcap : WithinCapacity (cells g.board)) :
    ∃ g1, slide wrap64 direction g = some g1 ∧ (∀ i, TileRow (g1.board i)) ∧
      WithinCapacity (cells g1.board) := by
  unfold slide
  split_ifs
  · exact ⟨_, moveUp_some wrap64 g, colwise_capacity _ keepsCapacity_newUp g.board hq hcap⟩
  · exact ⟨_, moveDown_some wrap64 g,
      colwise_capacity _ (keepsCapacity_conj _ keepsCapacity_newUp) g.board hq hcap⟩
  · exact ⟨_, moveLeft_some wrap64 g, rowwise_capacity _ keepsCapacity_newLeft g.board hq hcap⟩
  · exact ⟨_, moveRight_some wrap64 g,
      rowwise_capacity _ (keepsCapacity_conj _ keepsCapacity_newLeft) g.board hq hcap⟩
  · exact ⟨g, rfl, hq, hcap⟩

theorem mem_cells (b : Board) (i j : Fin GRID_SIZE) : b i j ∈ cells b := by
  revert j
  revert i
  apply forall_fin4 <;> apply forall_fin4 <;> simp [cells, toLine, indices]

theorem cell_lt_of_capacity (b : Board) (hcap : WithinCapacity (cells b))
    (i j : Fin GRID_SIZE) : b i j < 262144 := by
  have h18 := hcap 18 (by omega) (le_refl _)
  have h0 : countGE (2 ^ 18) (cells b) = 0 := by omega
  unfold countGE at h0
  have := List.countP_eq_zero.mp h0 (b i j) (mem_cells b i j)
  have e : (2 : Int) ^ 18 = 262144 := by norm_num
  rw [e] at this
  simpa using this

theorem boardSum_lt_of_capacity (b : Board) (hcap : WithinCapacity (cells b)) :
    boardSum b < 4194304 := by
  have h := cell_lt_of_capacity b hcap
  have h00 := h 0 0
  have h01 := h 0 1
  have h02 := h 0 2
  have h03 := h 0 3
  have h10 := h 1 0
  have h11 := h 1 1
  have h12 := h 1 2
  have h13 := h 1 3
  have h20 := h 2 0
  have h21 := h 2 1
  have h22 := h 2 2
  have h23 := h 2 3
  have h30 := h 3 0
  have h31 := h 3 1
  have h32 := h 3 2
  have h33 := h 3 3
  simp only [boardSum, toLine, indices, List.map_cons, List.map_nil, List.sum_cons,
    List.sum_nil]
  omega

theorem countGE_setCell (t : Int) (ht : 0 < t) (g : Game)
    (pos : Fin GRID_SIZE × Fin GRID_SIZE) (v : Int) (h : g.board pos.1 pos.2 = 0) :
    countGE t (cells (setCell g pos v).board)
      = countGE t (cells g.board) + if t ≤ v then 1 else 0 := by
  have hz : ¬ t ≤ 0 := by omega
  rcases pos with ⟨i, j⟩
  revert h
  revert j
  revert i
  apply forall_fin4 <;> apply forall_fin4 <;> intro h <;>
    simp only [] at h <;>
    simp [countGE, cells, toLine, indices, setCell, List.countP_cons, h, hz] <;>
    omega

theorem setCell_capacity (g : Game) (pos : Fin GRID_SIZE × Fin GRID_SIZE) (v : Int)
    (h : g.board pos.1 pos.2 = 0) (hv : v = 2 ∨ v = 4)
    (hcap : WithinCapacity (cells g.board)) :
    WithinCapacity (cells (setCell g pos v).board) := by
  intro k hk1 hk18
  have hlen : (cells (setCell g pos v).board).length = 16 := rfl
  have hle := countGE_le_length (2 ^ k) (cells (setCell g pos v).board)
  by_cases hk : k ≤ 2
  · omega
  · have hkk := hcap k hk1 hk18
    rw [countGE_setCell _ (two_pow_pos k) g pos v h, if_neg]
    · exact hkk
    · obtain ⟨j, rfl⟩ : ∃ j, k = j + 3 := ⟨k - 3, by omega⟩
      have := two_pow_pos j
      rw [pow_add]
      norm_num
      rcases hv with e | e <;> subst e <;> omega

theorem playable_nonneg (g : Game) (h : Playable g) : NonNegative g.board := by
  intro i j
  rcases h.1 i j with e | e
  · rw [e]
  · omega

theorem playable_room (g : Game) (h : Playable g) : ScoreRoom g := by
  obtain ⟨-, hcap, h0, hs⟩ := h
  have := boardSum_lt_of_capacity g.board hcap
  simp only [ScoreRoom, minInt, maxInt]
  omega

theorem Move_playable (direction : String) (g : Game) (rnd : Rand) (h : Playable g) :
    ∃ g', Move wrap64 direction g rnd = some g' ∧ g.score ≤ g'.score ∧ Playable g' := by
  have hn := playable_nonneg g h
  obtain ⟨g1, h1, n1, b1, s1, s2⟩ := slide_safe direction g hn (playable_room g h)
  obtain ⟨g2, h2, q2, c2⟩ := slide_capacity direction g h.1 h.2.1
  rw [h1] at h2
  have e := Option.some.inj h2
  subst e
  obtain ⟨hq, hcap, h0, hs⟩ := h
  have hlt := boardSum_lt_of_capacity g.board hcap
  rw [Move_of_slide wrap64 direction g g1 rnd h1]
  split_ifs with hsame
  · have hsc := slide_unchanged_score wrap64 direction g g1 h1 (fun i j => (hsame i j).symm)
    exact ⟨g1, rfl, s1, q2, c2, by omega, by omega⟩
  · have hne : g1.board ≠ g.board := by
      intro e
      exact hsame (fun i j => by rw [e])
    obtain ⟨pos, hpos, -, hadd⟩ := AddRandomTile_spawn g1 rnd
      (slide_changed_empty wrap64 direction g g1 h1 hne)
    have hv : (if rnd.small then (2 : Int) else 4) = 2 ∨
        (if rnd.small then (2 : Int) else 4) = 4 := by
      cases rnd.small <;> simp
    have hsum := boardSum_setCell g1 pos (if rnd.small then 2 else 4) hpos
    refine ⟨_, hadd, s1, ?_, setCell_capacity g1 pos _ hpos hv c2,
      by simp only [setCell]; omega, ?_⟩
    · intro a b
      rw [setCell_board]
      by_cases hc : a = pos.1 ∧ b = pos.2
      · rw [if_pos hc]
        rcases hv with e | e <;> rw [e] <;> simp
      · rw [if_neg hc]
        exact q2 a b
    · rw [hsum]
      simp only [setCell]
      rcases hv with e | e <;> rw [e] <;> omega

theorem play_playable (moves : List (String × Rand)) (g : Game) (h : Playable g) :
    ∃ g', play wrap64 g moves = some g' ∧ g.score ≤ g'.score ∧ Playable g' := by
  induction moves generalizing g with
  | nil => exact ⟨g, rfl, le_refl _, h⟩
  | cons m t ih =>
    obtain ⟨g1, h1, hs, hp⟩ := Move_playable m.1 g m.2 h
    obtain ⟨g2, h2, hs2, hp2⟩ := ih g1 hp
    refine ⟨g2, ?_, le_trans hs hs2, hp2⟩
    simp only [play, List.foldlM_cons, h1, Option.bind_eq_bind, Option.some_bind] at h2 ⊢
    exact h2

theorem play_append (store : Int → Int) (g : Game) (ms ms' : List (String × Rand)) :
    play store g (ms ++ ms') = (play store g ms).bind fun g1 => play store g1 ms' := by
  simp [play, List.foldlM_append]

theorem AddRandomTile_playable (g : Game) (rnd : Rand) (h : Playable g) :
    ∃ g', AddRandomTile g rnd = some g' ∧ g'.score = g.score ∧ Playable g' := by
  obtain ⟨hq, hcap, h0, hs⟩ := h
  by_cases he : ∃ i j, g.board i j = 0
  · obtain ⟨pos, hpos, -, hadd⟩ := AddRandomTile_spawn g rnd he
    have hv : (if rnd.small then (2 : Int) else 4) = 2 ∨
        (if rnd.small then (2 : Int) else 4) = 4 := by
      cases rnd.small <;> simp
    have hsum := boardSum_setCell g pos (if rnd.small then 2 else 4) hpos
    refine ⟨_, hadd, rfl, ?_, setCell_capacity g pos _ hpos hv hcap, h0, ?_⟩
    · intro a b
      rw [setCell_board]
      by_cases hc : a = pos.1 ∧ b = pos.2
      · rw [if_pos hc]
        rcases hv with e | e <;> rw [e] <;> simp
      · rw [if_neg hc]
        exact hq a b
    · rw [hsum]
      simp only [setCell]
      rcases hv with e | e <;> rw [e] <;> omega
  · exact ⟨g, AddRandomTile_full g rnd (fun i j e => he ⟨i, j, e⟩), rfl, hq, hcap, h0, hs⟩

theorem NewGame_playable (r1 r2 : Rand) :
    ∃ g0, NewGame r1 r2 = some g0 ∧ Playable g0 := by
  have hempty : Playable { board := fun _ _ => 0, score := 0 } := by
    refine ⟨fun _ _ => Or.inl rfl, ?_, le_refl _, by decide⟩
    intro k hk1 hk18
    have : countGE (2 ^ k) (cells fun _ _ => 0) = 0 :=
      countGE_replicate_zero _ (two_pow_pos k) 16
    show countGE (2 ^ k) (cells fun _ _ => 0) + k ≤ 18
    omega
  obtain ⟨g1, h1, -, p1⟩ := AddRandomTile_playable _ r1 hempty
  obtain ⟨g2, h2, -, p2⟩ := AddRandomTile_playable g1 r2 p1
  refine ⟨g2, ?_, p2⟩
  simp only [NewGame, h1, Option.bind_eq_bind, Option.some_bind]
  exact h2

/-- C10, the claim at a session with non-negative cells and the score `2^63 - 1`: `Move` to
the left of the 64-bit program merges the two 2s of the row `[2,2,0,0]` and leaves the
score `-2^63 + 3`, so it does not return a session whose score is at least the score
before. -/
theorem Move_score_decreases :
    NonNegative (rowBoard 2 2 0 0) ∧
      (Move wrap64 "left" { board := rowBoard 2 2 0 0, score := maxInt }
          { draw := 0, small := true }).map (fun g => g.score) = some (minInt + 3) ∧
      ¬ ∃ g', Move wrap64 "left" { board := rowBoard 2 2 0 0, score := maxInt }
          { draw := 0, small := true } = some g' ∧ maxInt ≤ g'.score :=
  ⟨by decide, by decide,
    not_exists_of_map _ (fun g : Game => g.score) (minInt + 3) (fun s => maxInt ≤ s)
      (by decide) (by decide)⟩

/-- C10: for every session whose cells are all non-negative and whose score is a 64-bit
`int` that leaves room for twice the sum of the cells (the score plus twice that sum is at
most `2^63 - 1`), every direction string and every outcome of the random source, `Move` of
the 64-bit program returns a session whose score is at least the score before; and along
any sequence of `Move` calls started from a fresh session (`NewGame`), the score after a
longer prefix of the sequence is at least the score after a shorter one. -/
theorem Move_score_monotone (g : Game) (h : NonNegative g.board) (hroom : ScoreRoom g)
    (direction : String) (rnd : Rand) :
    (∃ g', Move wrap64 direction g rnd = some g' ∧ g.score ≤ g'.score) ∧
      ∀ (r1 r2 : Rand) (ms ms' : List (String × Rand)),
        ∃ g0 g1 g2, NewGame r1 r2 = some g0 ∧ play wrap64 g0 ms = some g1 ∧
          play wrap64 g0 (ms ++ ms') = some g2 ∧ g0.score ≤ g1.score ∧
          g1.score ≤ g2.score := by
  refine ⟨?_, fun r1 r2 ms ms' => ?_⟩
  · obtain ⟨g', h1, -, -, h2, -⟩ := Move_safe direction g rnd h hroom
    exact ⟨g', h1, h2⟩
  · obtain ⟨g0, h0, p0⟩ := NewGame_playable r1 r2
    obtain ⟨g1, h1, s1, p1⟩ := play_playable ms g0 p0
    obtain ⟨g2, h2, s2, -⟩ := play_playable ms' g1 p1
    refine ⟨g0, g1, g2, h0, h1, ?_, s1, s2⟩
    rw [play_append, h1]
    exact h2

/-- C10 on the row `[2,2,0,0]`: moving left raises the score from 0 to 4. -/
theorem Move_score_monotone_witness :
    NonNegative (rowBoard 2 2 0 0) ∧
      ScoreRoom { board := rowBoard 2 2 0 0, score := 0 } ∧
      ∃ g', Move wrap64 "left" { board := rowBoard 2 2 0 0, score := 0 }
        { draw := 0, small := true } = some g' ∧ (0 : Int) ≤ g'.score :=
  ⟨by decide, by decide,
    (Move_score_monotone { board := rowBoard 2 2 0 0, score := 0 }
      (by decide) (by decide) "left" { draw := 0, small := true }).1⟩

end Game2048
